import Mathlib

/-! # SCRAM common-cause-failure groups (src/src/ccf_group.cc)

A shallow embedding of the CCF group engine and proofs about it.

Conventions of the embedding
* `std::string` is a list of characters (`Str`); `boost::to_lower` maps
  `Char.toLower` over it.
* `std::set<T>` is a strictly ascending list, `std::map<K, V>` a list of
  pairs strictly ascending in the key; `setInsert` and `mapInsert` are the
  `insert` members (an existing key is kept, nothing is overwritten).
* `int` is `Int`, `size_t` is `Nat`; factorials and binomials are computed
  over unbounded integers. A `double` is the rational it denotes; the
  expressions that `CalculateProb` builds are evaluated exactly, and the sums
  and differences that `PhiFactorModel::Validate` computes are rounded as
  IEEE 754 binary64 arithmetic rounds them (`roundDouble`).
* A function that can throw, abort on an assertion or dereference an end
  iterator returns `Except Error _`.
* A `shared_ptr` to a freshly allocated CCF event is its address
  `alloc i`, where `i` counts the CCF events allocated so far; a map keyed
  by such pointers iterates in address order.
-/

namespace scram

/-- A `std::string`. -/
abbrev Str := List Char

/-- The effect of `boost::to_lower` on a string. -/
def to_lower (s : Str) : Str := s.map Char.toLower

/-- Insertion into a `std::set`: the ascending list keeps one copy of each element. -/
def setInsert {α : Type} [LinearOrder α] (a : α) : List α → List α
  | [] => [a]
  | b :: l =>
    if a < b then a :: b :: l
    else if b < a then b :: setInsert a l
    else b :: l

/-- Insertion into a `std::map`: a key that is already present keeps its old value. -/
def mapInsert {κ β : Type} [LinearOrder κ] (k : κ) (v : β) : List (κ × β) → List (κ × β)
  | [] => [(k, v)]
  | p :: l =>
    if k < p.1 then (k, v) :: p :: l
    else if p.1 < k then p :: mapInsert k v l
    else p :: l

/-- Lookup in a `std::map` (`find`); `none` stands for the end iterator. -/
def mapFind {κ β : Type} [DecidableEq κ] (k : κ) : List (κ × β) → Option β
  | [] => none
  | p :: l => if p.1 = k then some p.2 else mapFind k l

/-- Mutation of the object a map entry points to: the value stored under `k` becomes `f` of it. -/
def mapModify {κ β : Type} [DecidableEq κ] (k : κ) (f : β → β) : List (κ × β) → List (κ × β)
  | [] => []
  | p :: l => if p.1 = k then (p.1, f p.2) :: l else p :: mapModify k f l

/-- The ways a call can fail: the three exception classes thrown in ccf_group.cc,
a failed `assert`, and undefined behaviour (dereferencing an end iterator or a
null pointer, `back()` of an empty vector). -/
inductive Error where
  | IllegalOperation (msg : Str)
  | DuplicateArgumentError (msg : Str)
  | ValidationError (msg : Str)
  | AssertionFailure
  | UndefinedBehavior
  deriving DecidableEq

/-- Modelled from the spec: the expression classes of expression.h, which is
not part of the sources. `Given` is a node built outside ccf_group.cc (a
constant, parameter or distribution handed over by the parser) and is observed
only through its mean, min and max; the other constructors are the nodes that
ccf_group.cc itself builds with `new`. Values are read in exact arithmetic. -/
inductive Expression where
  | Given (mean min max : ℚ)
  | ConstantExpression (value : ℚ)
  | Add (args : List Expression)
  | Sub (args : List Expression)
  | Mul (args : List Expression)
  | Div (args : List Expression)

mutual
/-- Modelled from the spec: `mean()` of an expression node (expression.h is not
part of the sources). `Add` sums and `Mul` multiplies its arguments; `Sub` and
`Div` fold from the left, so two arguments denote `a - b` and `a / b`. -/
def Expression.Mean : Expression → ℚ
  | .Given mean _ _ => mean
  | .ConstantExpression value => value
  | .Add args => (meanList args).sum
  | .Sub args =>
    match meanList args with
    | [] => 0
    | a :: rest => rest.foldl (fun x y => x - y) a
  | .Mul args => (meanList args).prod
  | .Div args =>
    match meanList args with
    | [] => 0
    | a :: rest => rest.foldl (fun x y => x / y) a
/-- The means of a vector of argument expressions. -/
def meanList : List Expression → List ℚ
  | [] => []
  | e :: rest => e.Mean :: meanList rest
end

/-- Modelled from the spec: the object made by `new CcfEvent(name, this, names)`
(event.h is not part of the sources), together with the address `addr` of the
allocation, which is the value of every `shared_ptr` to it, and the expression
later set through `expression(prob)`. -/
structure CcfEvent where
  addr : Nat
  name : Str
  member_names : List Str
  expression : Option Expression

/-- Modelled from the spec: a `Formula` (event.h is not part of the sources):
its operator and the events added with `AddArgument`, in the order of the calls. -/
structure Formula where
  type : Str
  event_args : List CcfEvent

/-- Modelled from the spec: `Formula::AddArgument` (event.h is not part of the
sources) adds the event as one more argument of the formula. -/
def Formula.AddArgument (f : Formula) (event : CcfEvent) : Formula :=
  { f with event_args := f.event_args ++ [event] }

/-- Modelled from the spec: a `Gate` made by `new Gate(name, base_path, is_public)`
and given a formula with `formula(...)` (event.h is not part of the sources). -/
structure Gate where
  name : Str
  base_path : Str
  is_public : Bool
  formula : Formula

/-- Modelled from the spec: a `BasicEvent` (event.h is not part of the sources):
case-preserved name, scope, visibility, its probability expression and the
replacement gate recorded with `ccf_gate(...)`. -/
structure BasicEvent where
  name : Str
  base_path : Str
  is_public : Bool
  expression : Option Expression
  ccf_gate : Option Gate

/-- The dynamic type of a CCF group: the subclass whose virtual functions run. -/
inductive Model where
  | BetaFactorModel
  | MglModel
  | AlphaFactorModel
  | PhiFactorModel
  deriving DecidableEq

/-- The data members of `CcfGroup`: an unset `distribution_` is the null pointer. -/
structure CcfGroup where
  kind : Model
  name_ : Str
  model_ : Str
  base_path : Str
  is_public : Bool
  id_ : Str
  members_ : List (Str × BasicEvent)
  distribution_ : Option Expression
  factors_ : List (Int × Expression)

/-- The constructor `CcfGroup::CcfGroup`; `kind` is the subclass being constructed. -/
def CcfGroup.create (kind : Model) (name model base_path : Str) (is_public : Bool) :
    Except Error CcfGroup :=
  if name = [] then .error .AssertionFailure
  else
    .ok { kind := kind, name_ := name, model_ := model, base_path := base_path,
          is_public := is_public,
          id_ := to_lower (if is_public then name else base_path ++ ".".toList ++ name),
          members_ := [], distribution_ := none, factors_ := [] }

/-- The function `CcfGroup::AddMember`. -/
def CcfGroup.AddMember (g : CcfGroup) (basic_event : BasicEvent) : Except Error CcfGroup :=
  let name := to_lower basic_event.name
  if g.distribution_.isSome then
    .error (.IllegalOperation ("No more members accepted. The distribution for ".toList ++
      g.name_ ++ " CCF group has already been defined.".toList))
  else if (mapFind name g.members_).isSome then
    .error (.DuplicateArgumentError ("Duplicate member ".toList ++ basic_event.name ++
      " in ".toList ++ g.name_ ++ " CCF group.".toList))
  else .ok { g with members_ := mapInsert name basic_event g.members_ }

/-- The function `CcfGroup::AddDistribution`: every member gets the shared expression. -/
def CcfGroup.AddDistribution (g : CcfGroup) (distr : Expression) : Except Error CcfGroup :=
  if g.distribution_.isSome then .error .AssertionFailure
  else
    .ok { g with
          distribution_ := some distr,
          members_ := g.members_.map
            (fun it => (it.1, { it.2 with expression := some distr })) }

/-- What `operator<<` writes for a `size_t`. -/
def showNat (n : Nat) : Str := Nat.toDigits 10 n

/-- What `operator<<` writes for an `int`. -/
def showInt (i : Int) : Str :=
  if i < 0 then '-' :: Nat.toDigits 10 i.natAbs else Nat.toDigits 10 i.toNat

/-- The base-class function `CcfGroup::AddFactor` (Alpha-Factor and Phi-Factor groups). -/
def CcfGroup.AddFactorBase (g : CcfGroup) (factor : Expression) (level : Int) :
    Except Error CcfGroup :=
  if ¬ (level > 0) then .error .AssertionFailure
  else if level ≠ (g.factors_.length : Int) + 1 then
    .error (.ValidationError (g.name_ ++ " ".toList ++ g.model_ ++
      " CCF group level expected ".toList ++ showNat (g.factors_.length + 1) ++
      ". Instead was given ".toList ++ showInt level))
  else .ok { g with factors_ := g.factors_ ++ [(level, factor)] }

/-- The override `BetaFactorModel::AddFactor`. -/
def BetaFactorModel.AddFactor (g : CcfGroup) (factor : Expression) (level : Int) :
    Except Error CcfGroup :=
  if ¬ g.factors_.isEmpty then
    .error (.ValidationError ("Beta-Factor Model ".toList ++ g.name_ ++ " CCF group".toList ++
      " must have exactly one factor.".toList))
  else if level ≠ (g.members_.length : Int) then
    .error (.ValidationError ("Beta-Factor Model ".toList ++ g.name_ ++ " CCF group".toList ++
      " must have the level matching the number of".toList ++ " its members.".toList))
  else .ok { g with factors_ := g.factors_ ++ [(level, factor)] }

/-- The override `MglModel::AddFactor`. -/
def MglModel.AddFactor (g : CcfGroup) (factor : Expression) (level : Int) :
    Except Error CcfGroup :=
  if ¬ (level > 0) then .error .AssertionFailure
  else if level ≠ (g.factors_.length : Int) + 2 then
    .error (.ValidationError (g.name_ ++ " MGL model CCF group level expected ".toList ++
      showNat (g.factors_.length + 2) ++ ". Instead was given ".toList ++ showInt level))
  else .ok { g with factors_ := g.factors_ ++ [(level, factor)] }

/-- Virtual dispatch of `AddFactor`. -/
def CcfGroup.AddFactor (g : CcfGroup) (factor : Expression) (level : Int) :
    Except Error CcfGroup :=
  match g.kind with
  | .BetaFactorModel => BetaFactorModel.AddFactor g factor level
  | .MglModel => MglModel.AddFactor g factor level
  | .AlphaFactorModel => g.AddFactorBase factor level
  | .PhiFactorModel => g.AddFactorBase factor level

/-- One pass of the two inner loops of `CcfGroup::ConstructCcfBasicEvents`: every
combination is extended by every member key it does not hold yet, and the
results are collected in the set `next_level`. -/
def CcfGroup.nextLevel (g : CcfGroup) (combinations : List (List Str)) : List (List Str) :=
  combinations.foldl
    (fun next_level it =>
      g.members_.foldl
        (fun next_level it_m =>
          if it_m.1 ∈ it then next_level
          else setInsert (setInsert it_m.1 it) next_level)
        next_level)
    []

/-- The loop over one combination `it` that builds the event name and the vector
`names`; `name` and `names` are the values accumulated so far. -/
def CcfGroup.nameLoop (g : CcfGroup) : List Str → Str → List Str → Except Error (Str × List Str)
  | [], name, names => .ok (name, names)
  | it_s :: rest, name, names =>
    match mapFind it_s g.members_ with
    | none => .error .UndefinedBehavior
    | some member =>
      let member_name := member.name
      let name := name ++ member_name
      let names := names ++ [member_name]
      g.nameLoop rest (if ¬ rest.isEmpty then name ++ " ".toList else name) names

/-- The state threaded through the event-creating loops: the number of CCF
events allocated so far and the map `new_events` (pointer to event, with its
set of member keys). -/
abbrev EventMap := List (Nat × (CcfEvent × List Str))

/-- The second inner loop of `CcfGroup::ConstructCcfBasicEvents`: one new CCF
event per combination of `next_level`, inserted into `new_events`. -/
def CcfGroup.createEvents (alloc : Nat → Nat) (g : CcfGroup) :
    List (List Str) → Nat × EventMap → Except Error (Nat × EventMap)
  | [], st => .ok st
  | it :: rest, st =>
    match g.nameLoop it "[".toList [] with
    | .error e => .error e
    | .ok (name, names) =>
      let name := name ++ "]".toList
      let new_basic_event : CcfEvent :=
        { addr := alloc st.1, name := name, member_names := names, expression := none }
      g.createEvents alloc rest
        (st.1 + 1, mapInsert new_basic_event.addr (new_basic_event, it) st.2)

/-- The outer loop `for (int i = 0; i < max_level; ++i)` of
`CcfGroup::ConstructCcfBasicEvents`, with `count` iterations left. -/
def CcfGroup.levelLoop (alloc : Nat → Nat) (g : CcfGroup) :
    Nat → List (List Str) → Nat × EventMap → Except Error (Nat × EventMap)
  | 0, _, st => .ok st
  | count + 1, combinations, st =>
    let next_level := g.nextLevel combinations
    match g.createEvents alloc next_level st with
    | .error e => .error e
    | .ok st => g.levelLoop alloc count next_level st

/-- The base-class function `CcfGroup::ConstructCcfBasicEvents`. -/
def CcfGroup.ConstructCcfBasicEventsBase (alloc : Nat → Nat) (g : CcfGroup) (max_level : Int)
    (new_events : EventMap) : Except Error EventMap :=
  if ¬ (max_level > 1) then .error .AssertionFailure
  else if ¬ (g.members_.length > 1) then .error .AssertionFailure
  else if ¬ (max_level ≤ (g.members_.length : Int)) then .error .AssertionFailure
  else if ¬ new_events.isEmpty then .error .AssertionFailure
  else
    match g.levelLoop alloc max_level.toNat [[]] (0, new_events) with
    | .error e => .error e
    | .ok st => .ok st.2

/-- The override `BetaFactorModel::ConstructCcfBasicEvents`. -/
def BetaFactorModel.ConstructCcfBasicEvents (alloc : Nat → Nat) (g : CcfGroup) (max_level : Int)
    (new_events : EventMap) : Except Error EventMap :=
  if g.factors_.length ≠ 1 then .error .AssertionFailure
  else
    match g.ConstructCcfBasicEventsBase alloc max_level [] with
    | .error e => .error e
    | .ok all_events =>
      .ok (all_events.foldl
        (fun new_events it =>
          let level : Int := (it.2.2.length : Int)
          if level = 1 ∨ level = max_level then mapInsert it.1 it.2 new_events
          else new_events)
        new_events)

/-- Virtual dispatch of `ConstructCcfBasicEvents`. -/
def CcfGroup.ConstructCcfBasicEvents (alloc : Nat → Nat) (g : CcfGroup) (max_level : Int)
    (new_events : EventMap) : Except Error EventMap :=
  match g.kind with
  | .BetaFactorModel => BetaFactorModel.ConstructCcfBasicEvents alloc g max_level new_events
  | _ => g.ConstructCcfBasicEventsBase alloc max_level new_events

/-- A `std::map<int, ExpressionPtr>`: the probability table, keyed by level. -/
abbrev ProbMap := List (Int × Expression)

/-- Modelled from the spec: `CcfGroup::Factorial` (declared in ccf_group.h, which
is not part of the sources), the `a!` of `C(a, b) = a!/(b!(a-b)!)`, over
unbounded integers; a negative argument is outside its domain. -/
def Factorial (n : Int) : Except Error Int :=
  if n < 0 then .error .UndefinedBehavior else .ok (n.toNat.factorial : Int)

/-- The integer `mult` of `MglModel::CalculateProb` and
`AlphaFactorModel::CalculateProb` at loop index `i`:
`Factorial(n - 1) / Factorial(n - i - 1) / Factorial(i)` with truncating division. -/
def CcfGroup.mult (g : CcfGroup) (i : Nat) : Except Error Int :=
  let num_members : Int := (g.members_.length : Int)
  match Factorial (num_members - 1) with
  | .error e => .error e
  | .ok a =>
    match Factorial (num_members - (i : Int) - 1) with
    | .error e => .error e
    | .ok b =>
      match Factorial (i : Int) with
      | .error e => .error e
      | .ok c => .ok (Int.tdiv (Int.tdiv a b) c)

/-- The loop `for (int j = 0; j < i; ++j) args.push_back(factors_[j].second)`,
with `count` iterations left and the next index `j`. -/
def CcfGroup.pushFactors (g : CcfGroup) : Nat → Nat → List Expression →
    Except Error (List Expression)
  | 0, _, args => .ok args
  | count + 1, j, args =>
    match g.factors_.get? j with
    | none => .error .UndefinedBehavior
    | some f => g.pushFactors count (j + 1) (args ++ [f.2])

/-- The body of the loop of `MglModel::CalculateProb` over the indices `i`. -/
def MglModel.probLoop (g : CcfGroup) (max_level : Int) :
    List Nat → ProbMap → Except Error ProbMap
  | [], probabilities => .ok probabilities
  | i :: rest, probabilities =>
    match g.mult i with
    | .error e => .error e
    | .ok mult =>
      let k := Expression.ConstantExpression (1 / (mult : ℚ))
      match g.pushFactors i 0 [k] with
      | .error e => .error e
      | .ok args =>
        let last : Except Error (List Expression) :=
          if (i : Int) < max_level - 1 then
            match g.factors_.get? i with
            | none => .error .UndefinedBehavior
            | some f =>
              let one := Expression.ConstantExpression 1
              .ok (args ++ [Expression.Sub [one, f.2]])
          else .ok args
        match last, g.distribution_ with
        | .error e, _ => .error e
        | .ok _, none => .error .UndefinedBehavior
        | .ok args, some distribution =>
          let prob := Expression.Mul (args ++ [distribution])
          MglModel.probLoop g max_level rest (mapInsert ((i : Int) + 1) prob probabilities)

/-- The override `MglModel::CalculateProb`. -/
def MglModel.CalculateProb (g : CcfGroup) (max_level : Int) (probabilities : ProbMap) :
    Except Error ProbMap :=
  if (g.factors_.length : Int) ≠ max_level - 1 then .error .AssertionFailure
  else
    match MglModel.probLoop g max_level (List.range max_level.toNat) probabilities with
    | .error e => .error e
    | .ok probabilities =>
      if (probabilities.length : Int) ≠ max_level then .error .AssertionFailure
      else .ok probabilities

/-- The body of the second loop of `AlphaFactorModel::CalculateProb`; `sum` is
the shared node `Add(sum_args)`. -/
def AlphaFactorModel.probLoop (g : CcfGroup) (sum : Expression) :
    List Nat → ProbMap → Except Error ProbMap
  | [], probabilities => .ok probabilities
  | i :: rest, probabilities =>
    match g.mult i with
    | .error e => .error e
    | .ok mult =>
      let k := Expression.ConstantExpression (1 / (mult : ℚ))
      match g.factors_.get? i, g.distribution_ with
      | none, _ => .error .UndefinedBehavior
      | some _, none => .error .UndefinedBehavior
      | some f, some distribution =>
        let fraction := Expression.Div [f.2, sum]
        let prob := Expression.Mul [k, fraction, distribution]
        AlphaFactorModel.probLoop g sum rest (mapInsert ((i : Int) + 1) prob probabilities)

/-- The override `AlphaFactorModel::CalculateProb`. -/
def AlphaFactorModel.CalculateProb (g : CcfGroup) (max_level : Int) (probabilities : ProbMap) :
    Except Error ProbMap :=
  if ¬ probabilities.isEmpty then .error .AssertionFailure
  else if (g.factors_.length : Int) ≠ max_level then .error .AssertionFailure
  else
    let sum_args := g.factors_.map (fun it_f => it_f.2)
    let sum := Expression.Add sum_args
    match AlphaFactorModel.probLoop g sum (List.range max_level.toNat) probabilities with
    | .error e => .error e
    | .ok probabilities =>
      if (probabilities.length : Int) ≠ max_level then .error .AssertionFailure
      else .ok probabilities

/-- The override `BetaFactorModel::CalculateProb`. -/
def BetaFactorModel.CalculateProb (g : CcfGroup) (max_level : Int) (probabilities : ProbMap) :
    Except Error ProbMap :=
  if ¬ probabilities.isEmpty then .error .AssertionFailure
  else
    match g.factors_.head?, g.distribution_ with
    | none, _ => .error .UndefinedBehavior
    | some _, none => .error .UndefinedBehavior
    | some f, some distribution =>
      let one := Expression.ConstantExpression 1
      let beta := f.2
      let indep_factor := Expression.Sub [one, beta]
      let probabilities :=
        mapInsert (1 : Int) (Expression.Mul [indep_factor, distribution]) probabilities
      .ok (mapInsert max_level (Expression.Mul [beta, distribution]) probabilities)

/-- The loop of `PhiFactorModel::CalculateProb` over the factors. -/
def PhiFactorModel.probLoop (g : CcfGroup) :
    List (Int × Expression) → ProbMap → Except Error ProbMap
  | [], probabilities => .ok probabilities
  | it_f :: rest, probabilities =>
    match g.distribution_ with
    | none => .error .UndefinedBehavior
    | some distribution =>
      let prob := Expression.Mul [it_f.2, distribution]
      PhiFactorModel.probLoop g rest (mapInsert it_f.1 prob probabilities)

/-- The override `PhiFactorModel::CalculateProb`. -/
def PhiFactorModel.CalculateProb (g : CcfGroup) (max_level : Int) (probabilities : ProbMap) :
    Except Error ProbMap :=
  if ¬ probabilities.isEmpty then .error .AssertionFailure
  else
    match PhiFactorModel.probLoop g g.factors_ probabilities with
    | .error e => .error e
    | .ok probabilities =>
      if (probabilities.length : Int) ≠ max_level then .error .AssertionFailure
      else .ok probabilities

/-- Virtual dispatch of `CalculateProb`. -/
def CcfGroup.CalculateProb (g : CcfGroup) (max_level : Int) (probabilities : ProbMap) :
    Except Error ProbMap :=
  match g.kind with
  | .BetaFactorModel => BetaFactorModel.CalculateProb g max_level probabilities
  | .MglModel => MglModel.CalculateProb g max_level probabilities
  | .AlphaFactorModel => AlphaFactorModel.CalculateProb g max_level probabilities
  | .PhiFactorModel => PhiFactorModel.CalculateProb g max_level probabilities

/-- A `std::map<std::string, GatePtr>`: the replacement gates, keyed by member key. -/
abbrev GateMap := List (Str × Gate)

/-- The first loop of `CcfGroup::ApplyModel`: one gate per member with an empty
`or` formula, stored under the member's key. (The assertion that the gate and
the member have equal ids compares two values computed by constructors that are
not part of the sources and is not modelled.) -/
def CcfGroup.makeGates (g : CcfGroup) : List (Str × BasicEvent) → GateMap → GateMap
  | [], gates => gates
  | it_m :: rest, gates =>
    let member := it_m.2
    let new_gate : Gate :=
      { name := member.name, base_path := member.base_path, is_public := member.is_public,
        formula := { type := "or".toList, event_args := [] } }
    g.makeGates rest (mapInsert it_m.1 new_gate gates)

/-- The innermost loop of `CcfGroup::ApplyModel`: the new event becomes an
argument of the gate of every member key in its set. -/
def addToParents (new_event : CcfEvent) : List Str → GateMap → Except Error GateMap
  | [], gates => .ok gates
  | it_l :: rest, gates =>
    match mapFind it_l gates with
    | none => .error .UndefinedBehavior
    | some _ =>
      addToParents new_event rest
        (mapModify it_l (fun gate => { gate with formula := gate.formula.AddArgument new_event })
          gates)

/-- The loop of `CcfGroup::ApplyModel` over `new_events`: each event gets the
table entry of its level as expression and is added to its parent gates. The
result holds the events as they are after the loop, in iteration order, and
the gates. -/
def assignEvents (probabilities : ProbMap) : EventMap → GateMap → Except Error (EventMap × GateMap)
  | [], gates => .ok ([], gates)
  | it :: rest, gates =>
    let level : Int := (it.2.2.length : Int)
    match mapFind level probabilities with
    | none => .error .UndefinedBehavior
    | some prob =>
      let new_event : CcfEvent := { it.2.1 with expression := some prob }
      match addToParents new_event it.2.2 gates with
      | .error e => .error e
      | .ok gates =>
        match assignEvents probabilities rest gates with
        | .error e => .error e
        | .ok (events, gates) => .ok ((it.1, (new_event, it.2.2)) :: events, gates)

/-- What `CcfGroup::ApplyModel` leaves behind: the members, each with the gate
its `ccf_gate` pointer refers to, the local map `gates` and the local map
`new_events` as they are when the function returns, and the probability table. -/
structure Applied where
  members_ : List (Str × BasicEvent)
  gates : GateMap
  new_events : EventMap
  probabilities : ProbMap

/-- The function `CcfGroup::ApplyModel`. The pointer stored by
`member->ccf_gate(new_gate)` refers to the gate that the later loops mutate, so
the member's `ccf_gate` is read off the final `gates` map under the member's key. -/
def CcfGroup.ApplyModel (alloc : Nat → Nat) (g : CcfGroup) : Except Error Applied :=
  let gates := g.makeGates g.members_ []
  match g.factors_.getLast? with
  | none => .error .UndefinedBehavior
  | some back =>
    let max_level : Int := back.1
    match g.CalculateProb max_level [] with
    | .error e => .error e
    | .ok probabilities =>
      match g.ConstructCcfBasicEvents alloc max_level [] with
      | .error e => .error e
      | .ok new_events =>
        if new_events.isEmpty then .error .AssertionFailure
        else
          match assignEvents probabilities new_events gates with
          | .error e => .error e
          | .ok (new_events, gates) =>
            .ok { members_ := g.members_.map
                    (fun it_m => (it_m.1, { it_m.2 with ccf_gate := mapFind it_m.1 gates })),
                  gates := gates,
                  new_events := new_events,
                  probabilities := probabilities }

/-! ### Definitions used to state the results -/

/-- The keys of the member map, in iteration order. -/
def CcfGroup.keys (g : CcfGroup) : List Str := g.members_.map Prod.fst

/-- The case-preserved name of the member stored under a key. -/
def CcfGroup.displayName (g : CcfGroup) (k : Str) : Str :=
  match mapFind k g.members_ with
  | some member => member.name
  | none => []

/-- A run of `insert` calls on a `std::map`, in the order of the list. -/
def insertAll {κ β : Type} [LinearOrder κ] (entries : List (κ × β)) (m : List (κ × β)) :
    List (κ × β) :=
  entries.foldl (fun m e => mapInsert e.1 e.2 m) m

/-- The entry of `new_events` for the combination `it` when it is the `i`-th
CCF event allocated: the name is the bracketed list of display names. -/
def CcfGroup.specEvent (alloc : Nat → Nat) (g : CcfGroup) (i : Nat) (it : List Str) :
    Nat × (CcfEvent × List Str) :=
  (alloc i,
    ({ addr := alloc i,
       name := "[".toList ++ List.intercalate " ".toList (it.map g.displayName) ++ "]".toList,
       member_names := it.map g.displayName,
       expression := none }, it))

/-- The entries for a list of combinations allocated from index `i` on. -/
def CcfGroup.specEvents (alloc : Nat → Nat) (g : CcfGroup) : Nat → List (List Str) → EventMap
  | _, [] => []
  | i, it :: rest => g.specEvent alloc i it :: g.specEvents alloc (i + 1) rest

/-- The combinations visited by `count` rounds of the outer loop that start
from `combinations`, in the order in which their events are created. -/
def CcfGroup.levelsFrom (g : CcfGroup) : Nat → List (List Str) → List (List Str)
  | 0, _ => []
  | count + 1, combinations =>
    g.nextLevel combinations ++ g.levelsFrom count (g.nextLevel combinations)

/-- A set of member keys of size `k`, as a `std::set<std::string>` holds it:
strictly ascending, every element a key of the member map. -/
def IsCombination (keys : List Str) (k : Nat) (c : List Str) : Prop :=
  c.Sorted (· < ·) ∧ c.length = k ∧ ∀ x ∈ c, x ∈ keys

/-- The gate made for a member by the first loop of `ApplyModel`. -/
def newGate (member : BasicEvent) : Gate :=
  { name := member.name, base_path := member.base_path, is_public := member.is_public,
    formula := { type := "or".toList, event_args := [] } }

/-- A gate after `AddArgument` was called on its formula for each event of a list. -/
def Gate.addArgs (gate : Gate) (events : List CcfEvent) : Gate :=
  { gate with formula := { gate.formula with event_args := gate.formula.event_args ++ events } }

/-- An entry of `new_events` after the event got the table entry of its level as expression. -/
def assignExpression (probabilities : ProbMap) (it : Nat × (CcfEvent × List Str)) :
    Nat × (CcfEvent × List Str) :=
  (it.1, ({ it.2.1 with expression := mapFind (it.2.2.length : Int) probabilities }, it.2.2))

/-- Whether a call returned normally. -/
def isOk {ε α : Type} : Except ε α → Bool
  | .ok _ => true
  | .error _ => false

/-- The test `level == 1 || level == max_level` of `BetaFactorModel::ConstructCcfBasicEvents`;
for the other models every event of the base function is kept. -/
def keptLevel (kind : Model) (max_level : Int) (it : Nat × (CcfEvent × List Str)) : Bool :=
  if kind = Model.BetaFactorModel then
    decide ((it.2.2.length : Int) = 1 ∨ (it.2.2.length : Int) = max_level)
  else true

/-- A public basic event of the scenarios of the specification, before it joins a group. -/
def scenarioEvent (name : Str) : BasicEvent :=
  { name := name, base_path := [], is_public := true, expression := none, ccf_gate := none }

/-- The shared distribution of the scenarios: the constant 0.01. -/
def scenarioQ : Expression := Expression.ConstantExpression (1 / 100)

/-- The group of the scenarios: members A, B and C with the shared distribution
0.01, of the given model and with the given factors. -/
def scenarioGroup (kind : Model) (factors : List (Int × Expression)) : CcfGroup :=
  { kind := kind, name_ := "G".toList, model_ := "model".toList, base_path := [],
    is_public := true, id_ := "g".toList,
    members_ :=
      [("a".toList, { scenarioEvent "A".toList with expression := some scenarioQ }),
       ("b".toList, { scenarioEvent "B".toList with expression := some scenarioQ }),
       ("c".toList, { scenarioEvent "C".toList with expression := some scenarioQ })],
    distribution_ := some scenarioQ,
    factors_ := factors }

/-- Scenario S1: Beta-Factor with the single factor 0.1 at level 3. -/
def scenarioBeta : CcfGroup :=
  scenarioGroup Model.BetaFactorModel [(3, Expression.ConstantExpression (1 / 10))]

/-- Scenario S2: MGL with the factors 0.1 and 0.2 at levels 2 and 3. -/
def scenarioMgl : CcfGroup :=
  scenarioGroup Model.MglModel
    [(2, Expression.ConstantExpression (1 / 10)), (3, Expression.ConstantExpression (2 / 10))]

/-- Scenario S3: Alpha-Factor with the factors 0.95, 0.03 and 0.02 at levels 1 to 3. -/
def scenarioAlpha : CcfGroup :=
  scenarioGroup Model.AlphaFactorModel
    [(1, Expression.ConstantExpression (95 / 100)), (2, Expression.ConstantExpression (3 / 100)),
     (3, Expression.ConstantExpression (2 / 100))]

/-- A Phi-Factor group with the factors 0.5, 0.3 and 0.2 at levels 1 to 3. -/
def scenarioPhi : CcfGroup :=
  scenarioGroup Model.PhiFactorModel
    [(1, Expression.ConstantExpression (5 / 10)), (2, Expression.ConstantExpression (3 / 10)),
     (3, Expression.ConstantExpression (2 / 10))]

/-- The test of `keptLevel` on the set of member keys of an event. -/
def keptSet (kind : Model) (max_level : Int) (c : List Str) : Bool :=
  if kind = Model.BetaFactorModel then
    decide ((c.length : Int) = 1 ∨ (c.length : Int) = max_level)
  else true

/-- The number of arguments of the gate stored under a key after a call of
`ApplyModel`, if the call returned and the key is bound. -/
def gateSize (x : Except Error Applied) (k : Str) : Option Nat :=
  match x with
  | .ok r => (mapFind k r.gates).map (fun gate => gate.formula.event_args.length)
  | .error _ => none

/-- The entry that `MglModel::CalculateProb` inserts at loop index `i` for the
maximum level `L` and the distribution `Q`: the key `i + 1` and the product of
`1 / C(n-1, i)`, the first `i` factors, `1 - factor i` unless `i` is the last
index, and `Q`. -/
def MglModel.entry (g : CcfGroup) (Q : Expression) (L i : Nat) : Int × Expression :=
  ((i : Int) + 1,
    Expression.Mul
      ([Expression.ConstantExpression (1 / (Nat.choose (g.members_.length - 1) i : ℚ))] ++
        (g.factors_.take i).map Prod.snd ++
        (if i + 1 < L then
          ((g.factors_.drop i).take 1).map
            (fun f => Expression.Sub [Expression.ConstantExpression 1, f.2])
         else []) ++
        [Q]))

/-- The entry that `AlphaFactorModel::CalculateProb` inserts at loop index `i`:
the key `i + 1` and the product of `1 / C(n-1, i)`, the quotient of factor `i` by
the sum node, and `Q`. -/
def AlphaFactorModel.entry (g : CcfGroup) (Q : Expression) (alpha : Expression) (i : Nat) :
    Int × Expression :=
  ((i : Int) + 1,
    Expression.Mul
      [Expression.ConstantExpression (1 / (Nat.choose (g.members_.length - 1) i : ℚ)),
       Expression.Div [alpha, Expression.Add (g.factors_.map (fun it_f => it_f.2))],
       Q])

/-- A new product node that has the shared distribution of the group among its arguments. -/
def IsProductWithQ (g : CcfGroup) (p : Expression) : Prop :=
  ∃ Q args, g.distribution_ = some Q ∧ p = Expression.Mul args ∧ Q ∈ args

/-- A run of `AddMember` calls, one per basic event, in the order of the list. -/
def CcfGroup.addMembers (g : CcfGroup) : List BasicEvent → Except Error CcfGroup
  | [] => .ok g
  | basic_event :: rest =>
    match g.AddMember basic_event with
    | .error e => .error e
    | .ok g => g.addMembers rest

/-- A newly constructed public MGL group: no members, no distribution, no factors. -/
def scenarioOpen : CcfGroup :=
  { kind := Model.MglModel, name_ := "Pumps".toList, model_ := "MGL".toList, base_path := [],
    is_public := true, id_ := "pumps".toList, members_ := [], distribution_ := none,
    factors_ := [] }

/-! ### Validation -/

/-- Interval sum: the image of `a + b`. -/
def intervalAdd (a b : ℚ × ℚ) : ℚ × ℚ := (a.1 + b.1, a.2 + b.2)

/-- Interval difference: the image of `a - b`. -/
def intervalSub (a b : ℚ × ℚ) : ℚ × ℚ := (a.1 - b.2, a.2 - b.1)

/-- Interval product: the image of `a * b`. -/
def intervalMul (a b : ℚ × ℚ) : ℚ × ℚ :=
  (min (min (a.1 * b.1) (a.1 * b.2)) (min (a.2 * b.1) (a.2 * b.2)),
   max (max (a.1 * b.1) (a.1 * b.2)) (max (a.2 * b.1) (a.2 * b.2)))

/-- Interval quotient: the image of `a / b` for a denominator interval without zero. -/
def intervalDiv (a b : ℚ × ℚ) : ℚ × ℚ := intervalMul a (1 / b.2, 1 / b.1)

mutual
/-- Modelled from the spec: the pair `(min(), max())` of an expression node
(expression.h is not part of the sources). A node built outside ccf_group.cc
reports its own support, a constant its value, and an operator node the
interval image of its arguments, `Sub` and `Div` folding from the left.
ccf_group.cc asks only the factors and the distribution handed to it for their
min and max, never the nodes it builds itself. -/
def Expression.Interval : Expression → ℚ × ℚ
  | .Given _ min max => (min, max)
  | .ConstantExpression value => (value, value)
  | .Add args => (intervalList args).foldl intervalAdd (0, 0)
  | .Sub args =>
    match intervalList args with
    | [] => (0, 0)
    | a :: rest => rest.foldl intervalSub a
  | .Mul args => (intervalList args).foldl intervalMul (1, 1)
  | .Div args =>
    match intervalList args with
    | [] => (0, 0)
    | a :: rest => rest.foldl intervalDiv a
/-- The intervals of a vector of argument expressions. -/
def intervalList : List Expression → List (ℚ × ℚ)
  | [] => []
  | e :: rest => e.Interval :: intervalList rest
end

/-- Modelled from the spec: `Min()` of an expression node. -/
def Expression.Min (e : Expression) : ℚ := e.Interval.1

/-- Modelled from the spec: `Max()` of an expression node. -/
def Expression.Max (e : Expression) : ℚ := e.Interval.2

/-- The function `CcfGroup::ValidateDistribution`; an unset distribution is a null
pointer that the function dereferences. -/
def CcfGroup.ValidateDistribution (g : CcfGroup) : Except Error Unit :=
  match g.distribution_ with
  | none => .error .UndefinedBehavior
  | some distribution =>
    if distribution.Min < 0 ∨ distribution.Max > 1 then
      .error (.ValidationError ("Distribution for ".toList ++ g.name_ ++ " CCF group".toList ++
        " has illegal values.".toList))
    else .ok ()

/-- The loop of `CcfGroup::Validate` over the factors. -/
def CcfGroup.validateFactors (g : CcfGroup) : List (Int × Expression) → Except Error Unit
  | [] => .ok ()
  | it :: rest =>
    if it.2.Max > 1 ∨ it.2.Min < 0 then
      .error (.ValidationError ("Factors for ".toList ++ g.name_ ++ " CCF group".toList ++
        " have illegal values.".toList))
    else g.validateFactors rest

/-- The base-class function `CcfGroup::Validate`. It assigns no data member, so
it returns no new state. `back()` of an empty vector is undefined behaviour. In
`factors_.back().first > members_.size()` the `int` level is converted to
`size_t`, so a negative level compares above every size. -/
def CcfGroup.ValidateBase (g : CcfGroup) : Except Error Unit :=
  if g.members_.length < 2 then
    .error (.ValidationError (g.name_ ++ " CCF group must have at least 2 members.".toList))
  else
    match g.factors_.getLast? with
    | none => .error .UndefinedBehavior
    | some back =>
      if back.1 < 0 ∨ back.1 > (g.members_.length : Int) then
        .error (.ValidationError ("The level of factors for ".toList ++ g.name_ ++
          " CCF group".toList ++ " cannot be more than # of members.".toList))
      else g.validateFactors g.factors_

/-! ### The arithmetic of `double` -/

/-- Rounding of a rational to the nearest integer, a tie going to the even one. -/
def roundHalfEven (q : ℚ) : Int :=
  let f : Int := ⌊q⌋
  let r : ℚ := q - (f : ℚ)
  if r < 1 / 2 then f
  else if 1 / 2 < r then f + 1
  else if f % 2 = 0 then f else f + 1

/-- The binary exponent of the double nearest to `x`: `⌊log₂ |x|⌋`, and `-1022` for
a value below the smallest normal number. -/
def doubleExponent (x : ℚ) : Int := max (Int.log 2 |x|) (-1022)

/-- The arithmetic of the C++ type `double` (IEEE 754 binary64, round to nearest,
ties to even), read over `ℚ`: a double is the rational it denotes, and the
result of `a + b`, of `a - b` and of reading a decimal literal is `roundDouble`
of the exact value, the nearest multiple of `2^(e-52)` for the exponent `e` of
the value. Infinities and NaN are outside the model: a value beyond the largest
finite double does not arise from probabilities. -/
def roundDouble (x : ℚ) : ℚ :=
  let ulp : ℚ := (2 : ℚ) ^ (doubleExponent x - 52)
  (if x < 0 then -1 else 1) * ((roundHalfEven (|x| / ulp) : Int) : ℚ) * ulp

/-- The value of `sum` after a loop `sum += x` over a list, started from `0` and
run in `double` arithmetic. -/
def doubleSum (l : List ℚ) : ℚ := l.foldl (fun acc x => roundDouble (acc + x)) 0

/-- The loop of `PhiFactorModel::Validate` that accumulates `sum`, `sum_min` and
`sum_max` in `double` arithmetic, in the order of the factors. `Mean()`, `Min()`
and `Max()` return doubles; every `+=` rounds its exact result, whatever the
value of the factor. -/
def PhiFactorModel.sums (factors : List (Int × Expression)) : ℚ × ℚ × ℚ :=
  factors.foldl
    (fun acc it =>
      (roundDouble (acc.1 + it.2.Mean), roundDouble (acc.2.1 + it.2.Min),
        roundDouble (acc.2.2 + it.2.Max)))
    (0, 0, 0)

/-- The override `PhiFactorModel::Validate`: `epsilon` is the double that the
literal `1e-4` denotes, each difference `sum - 1` is a `double` subtraction, and
`std::abs` is exact. -/
def PhiFactorModel.Validate (g : CcfGroup) : Except Error Unit :=
  match g.ValidateBase with
  | .error e => .error e
  | .ok _ =>
    let acc := PhiFactorModel.sums g.factors_
    let sum := acc.1
    let sum_min := acc.2.1
    let sum_max := acc.2.2
    let epsilon : ℚ := roundDouble (1 / 10000)
    let diff := |roundDouble (sum - 1)|
    let diff_min := |roundDouble (sum_min - 1)|
    let diff_max := |roundDouble (sum_max - 1)|
    if diff_min > epsilon ∨ diff > epsilon ∨ diff_max > epsilon then
      .error (.ValidationError ("The factors for Phi model ".toList ++ g.name_ ++
        " CCF group must sum to 1.".toList))
    else .ok ()

/-- Virtual dispatch of `Validate`: only the Phi-Factor model overrides it. -/
def CcfGroup.Validate (g : CcfGroup) : Except Error Unit :=
  match g.kind with
  | .PhiFactorModel => PhiFactorModel.Validate g
  | _ => g.ValidateBase

/-- The group object after a call made on `g` gave the result `r`. In `AddMember`,
`AddDistribution` and the `AddFactor` functions every `throw` comes before the
first assignment to a data member, so a call that throws leaves the object as
it was. -/
def CcfGroup.after (g : CcfGroup) (r : Except Error CcfGroup) : CcfGroup :=
  match r with
  | .ok g' => g'
  | .error _ => g

/-- Modelled from the spec: the id of a basic event (event.h is not part of the
sources), computed from name, base path and visibility the way the constructor
`CcfGroup::CcfGroup` computes the id of a group: the lowercase of the name for a
public event, of `base_path.name` otherwise. -/
def BasicEvent.id (e : BasicEvent) : Str :=
  to_lower (if e.is_public then e.name else e.base_path ++ ".".toList ++ e.name)

/-- The groups that a sequence of `AddMember`, `AddFactor` and `AddDistribution`
calls builds from a newly constructed group; a call that throws leaves the
group as it was and so adds no new state. -/
inductive Reachable : CcfGroup → Prop where
  | create (kind : Model) (name model base_path : Str) (is_public : Bool) (g : CcfGroup) :
      CcfGroup.create kind name model base_path is_public = .ok g → Reachable g
  | addMember (g g' : CcfGroup) (basic_event : BasicEvent) :
      Reachable g → g.AddMember basic_event = .ok g' → Reachable g'
  | addFactor (g g' : CcfGroup) (factor : Expression) (level : Int) :
      Reachable g → g.AddFactor factor level = .ok g' → Reachable g'
  | addDistribution (g g' : CcfGroup) (distr : Expression) :
      Reachable g → g.AddDistribution distr = .ok g' → Reachable g'

/-- Two non-public basic events with the same name in different scopes. -/
def scenarioPrivate (base_path : Str) : BasicEvent :=
  { name := "Pump".toList, base_path := base_path, is_public := false, expression := none,
    ccf_gate := none }

/-- A Phi-Factor group with the members A, B and C whose factors at the levels 1
to 3 are the doubles that three decimal literals denote. -/
def scenarioPhiDoubles (a b c : ℚ) : CcfGroup :=
  scenarioGroup Model.PhiFactorModel
    [(1, Expression.ConstantExpression (roundDouble a)),
     (2, Expression.ConstantExpression (roundDouble b)),
     (3, Expression.ConstantExpression (roundDouble c))]

/-- Scenario S4: Phi-Factor with the factors 0.5, 0.3 and 0.1 at levels 1 to 3. -/
def scenarioPhiRejected : CcfGroup := scenarioPhiDoubles (1 / 2) (3 / 10) (1 / 10)

/-- A Phi-Factor group with the factors 0.0999, 0.3 and 0.6 at levels 1 to 3. -/
def scenarioPhiRounding : CcfGroup := scenarioPhiDoubles (999 / 10000) (3 / 10) (3 / 5)

/-- The factors of `scenarioPhiRounding` in the opposite order: 0.6, 0.3 and 0.0999. -/
def scenarioPhiReversed : CcfGroup := scenarioPhiDoubles (3 / 5) (3 / 10) (999 / 10000)

/-- A Phi-Factor group with the factors 0.5, 0.25 and 0.25 at levels 1 to 3. -/
def scenarioPhiAccepted : CcfGroup := scenarioPhiDoubles (1 / 2) (1 / 4) (1 / 4)

/-- The MGL group of scenario S2 built with the constant 2 as shared distribution. -/
def scenarioDistribution : CcfGroup :=
  { kind := Model.MglModel, name_ := "G".toList, model_ := "model".toList, base_path := [],
    is_public := true, id_ := "g".toList,
    members_ :=
      [("a".toList,
        { scenarioEvent "A".toList with expression := some (Expression.ConstantExpression 2) }),
       ("b".toList,
        { scenarioEvent "B".toList with expression := some (Expression.ConstantExpression 2) }),
       ("c".toList,
        { scenarioEvent "C".toList with expression := some (Expression.ConstantExpression 2) })],
    distribution_ := some (Expression.ConstantExpression 2),
    factors_ :=
      [(2, Expression.ConstantExpression (1 / 10)), (3, Expression.ConstantExpression (2 / 10))] }

/-- A group with the two members A and B, of the given model, with the given
distribution and factors. -/
def scenarioPair (kind : Model) (distribution : Option Expression)
    (factors : List (Int × Expression)) : CcfGroup :=
  { kind := kind, name_ := "G".toList, model_ := "model".toList, base_path := [],
    is_public := true, id_ := "g".toList,
    members_ :=
      [("a".toList, { scenarioEvent "A".toList with expression := distribution }),
       ("b".toList, { scenarioEvent "B".toList with expression := distribution })],
    distribution_ := distribution,
    factors_ := factors }

/-- The mean of the expression of a CCF event; an event without an expression counts 0. -/
def CcfEvent.Mean (e : CcfEvent) : ℚ :=
  match e.expression with
  | some prob => prob.Mean
  | none => 0

/-- The sum of the means of the arguments of a gate: for an `or` of rare
disjuncts, the total that the disjuncts contribute. -/
def Gate.sumOfMeans (gate : Gate) : ℚ := (gate.formula.event_args.map CcfEvent.Mean).sum

/-! ### The Two-Train benchmark -/

/-- Modelled from the spec: whether a minimal cut set occurs in a world, that is,
in a set of basic events that have failed (the fault-tree and probability
analyses are not part of the sources): every event of the cut set has failed. -/
def cutSetOccurs (world cut_set : List Str) : Bool := cut_set.all (fun e => decide (e ∈ world))

/-- Modelled from the spec: the top event occurs in a world when one of the
minimal cut sets does: the top event is the union of its cut sets. -/
def topEventOccurs (cut_sets : List (List Str)) (world : List Str) : Bool :=
  cut_sets.any (cutSetOccurs world)

/-- Modelled from the spec: the probability of one world for independent basic
events, `p e` for an event that has failed and `1 - p e` for one that has not. -/
def worldProbability (p : Str → ℚ) (events world : List Str) : ℚ :=
  (events.map (fun e => if e ∈ world then p e else 1 - p e)).prod

/-- Modelled from the spec: the exact probability of the top event, the total
probability of the worlds in which a cut set occurs (probability_analysis.h is
not part of the sources). -/
def exactProbability (cut_sets : List (List Str)) (events : List Str) (p : Str → ℚ) : ℚ :=
  ((events.sublists.filter (topEventOccurs cut_sets)).map (worldProbability p events)).sum

/-- The basic events of the Two-Train model. -/
def twoTrainEvents : List Str :=
  ["ValveOne".toList, "ValveTwo".toList, "PumpOne".toList, "PumpTwo".toList]

/-- The minimal cut sets that the test `TwoTrain` expects. -/
def twoTrainCutSets : List (List Str) :=
  [["ValveOne".toList, "ValveTwo".toList], ["ValveOne".toList, "PumpTwo".toList],
   ["ValveTwo".toList, "PumpOne".toList], ["PumpOne".toList, "PumpTwo".toList]]

/-- Probabilities of the Two-Train events: one value for the two valves and one
for the two pumps. -/
def twoTrainValues (valve pump : ℚ) (e : Str) : ℚ :=
  if e = "ValveOne".toList ∨ e = "ValveTwo".toList then valve else pump

/-! ## Containers: `std::set` and `std::map` as ascending lists -/

theorem exists_of_isOk {ε α : Type} (x : Except ε α) (h : isOk x = true) : ∃ r, x = .ok r := by
  cases x with
  | error e => cases h
  | ok r => exact ⟨r, rfl⟩

theorem mem_setInsert {α : Type} [LinearOrder α] (a x : α) (l : List α) : x ∈ setInsert a l ↔ x = a ∨ x ∈ l := by
  induction l with
  | nil => simp [setInsert]
  | cons b l ih =>
    unfold setInsert
    split_ifs with h1 h2
    · simp
    · simp [ih]; tauto
    · have hab : a = b := le_antisymm (not_lt.mp h2) (not_lt.mp h1)
      subst hab; simp

theorem sorted_setInsert {α : Type} [LinearOrder α] (a : α) (l : List α) (h : l.Sorted (· < ·)) :
    (setInsert a l).Sorted (· < ·) := by
  induction l with
  | nil => simp [setInsert]
  | cons b l ih =>
    unfold setInsert
    split_ifs with h1 h2
    · refine List.sorted_cons.mpr ⟨?_, h⟩
      intro x hx
      rcases List.mem_cons.mp hx with rfl | hx
      · exact h1
      · exact lt_trans h1 (List.rel_of_sorted_cons h x hx)
    · refine List.sorted_cons.mpr ⟨?_, ih (List.sorted_cons.mp h).2⟩
      intro x hx
      rcases (mem_setInsert a x l).mp hx with rfl | hx
      · exact h2
      · exact List.rel_of_sorted_cons h x hx
    · exact h

theorem setInsert_of_forall_lt {α : Type} [LinearOrder α] (a : α) (l : List α) (h : ∀ b ∈ l, a < b) :
    setInsert a l = a :: l := by
  cases l with
  | nil => rfl
  | cons b l => simp [setInsert, h b (List.mem_cons_self b l)]

theorem length_setInsert {α : Type} [LinearOrder α] (a : α) (l : List α) (h : a ∉ l) :
    (setInsert a l).length = l.length + 1 := by
  induction l with
  | nil => rfl
  | cons b l ih =>
    have hb : a ≠ b := fun e => h (e ▸ List.mem_cons_self _ _)
    have hl : a ∉ l := fun e => h (List.mem_cons_of_mem _ e)
    unfold setInsert
    split_ifs with h1 h2
    · simp
    · simp [ih hl]
    · exact absurd (le_antisymm (not_lt.mp h2) (not_lt.mp h1)) hb

theorem perm_setInsert {α : Type} [LinearOrder α] (a : α) (l : List α) (h : a ∉ l) :
    (setInsert a l).Perm (a :: l) := by
  induction l with
  | nil => exact List.Perm.refl _
  | cons b l ih =>
    have hb : a ≠ b := fun e => h (e ▸ List.mem_cons_self _ _)
    have hl : a ∉ l := fun e => h (List.mem_cons_of_mem _ e)
    unfold setInsert
    split_ifs with h1 h2
    · exact List.Perm.refl _
    · exact ((ih hl).cons b).trans (List.Perm.swap _ _ _)
    · exact absurd (le_antisymm (not_lt.mp h2) (not_lt.mp h1)) hb

theorem keys_mapInsert {κ β : Type} [LinearOrder κ] (k : κ) (v : β) (m : List (κ × β)) :
    (mapInsert k v m).map Prod.fst = setInsert k (m.map Prod.fst) := by
  induction m with
  | nil => rfl
  | cons p m ih =>
    simp only [mapInsert, List.map_cons, setInsert]
    split_ifs <;> simp [ih]

theorem perm_mapInsert {κ β : Type} [LinearOrder κ] (k : κ) (v : β) (m : List (κ × β)) (h : k ∉ m.map Prod.fst) :
    (mapInsert k v m).Perm ((k, v) :: m) := by
  induction m with
  | nil => exact List.Perm.refl _
  | cons p m ih =>
    have hp : k ≠ p.1 := fun e => h (by simp [e])
    have hm : k ∉ m.map Prod.fst := fun e => h (by simp at e ⊢; exact Or.inr e)
    unfold mapInsert
    split_ifs with h1 h2
    · exact List.Perm.refl _
    · exact ((ih hm).cons p).trans (List.Perm.swap _ _ _)
    · exact absurd (le_antisymm (not_lt.mp h2) (not_lt.mp h1)) hp

theorem mem_mapInsert {κ β : Type} [LinearOrder κ] (k : κ) (v : β) (m : List (κ × β))
    (x : κ × β) (h : x ∈ mapInsert k v m) : x = (k, v) ∨ x ∈ m := by
  induction m with
  | nil => simpa [mapInsert] using h
  | cons p m ih =>
    unfold mapInsert at h
    split_ifs at h with h1 h2
    · simpa using h
    · rcases List.mem_cons.mp h with e | e
      · exact Or.inr (e ▸ List.mem_cons_self _ _)
      · rcases ih e with e' | e'
        · exact Or.inl e'
        · exact Or.inr (List.mem_cons_of_mem _ e')
    · exact Or.inr h

theorem mapInsert_last {κ β : Type} [LinearOrder κ] (k : κ) (v : β) (m : List (κ × β))
    (h : ∀ p ∈ m, p.1 < k) : mapInsert k v m = m ++ [(k, v)] := by
  induction m with
  | nil => rfl
  | cons p m ih =>
    have hp := h p (List.mem_cons_self _ _)
    unfold mapInsert
    rw [if_neg (not_lt.mpr hp.le), if_pos hp, ih (fun q hq => h q (List.mem_cons_of_mem _ hq))]
    rfl

theorem mapFind_mapModify {κ β : Type} [DecidableEq κ] (k k' : κ) (f : β → β) (m : List (κ × β)) :
    mapFind k (mapModify k' f m) =
      if k = k' then (mapFind k m).map f else mapFind k m := by
  induction m with
  | nil => simp [mapFind, mapModify]
  | cons p m ih =>
    unfold mapModify
    by_cases hp : p.1 = k'
    · by_cases hk : k = k'
      · subst hk; simp [hp, mapFind]
      · have : ¬ p.1 = k := fun e => hk (e ▸ hp)
        have hk' : ¬ k' = k := fun e => hk e.symm
        simp [hp, hk, mapFind, hk']
    · by_cases hpk : p.1 = k
      · have hk : ¬ k = k' := fun e => hp (hpk.trans e)
        simp [hp, hk, mapFind, hpk]
      · simp [hp, mapFind, hpk, ih]

theorem keys_mapModify {κ β : Type} [DecidableEq κ] (k' : κ) (f : β → β) (m : List (κ × β)) :
    (mapModify k' f m).map Prod.fst = m.map Prod.fst := by
  induction m with
  | nil => rfl
  | cons p m ih =>
    unfold mapModify
    split_ifs <;> simp [ih]

theorem mapFind_isSome {κ β : Type} [DecidableEq κ] (k : κ) (m : List (κ × β)) :
    (mapFind k m).isSome ↔ k ∈ m.map Prod.fst := by
  induction m with
  | nil => simp [mapFind]
  | cons p m ih =>
    unfold mapFind
    by_cases h : p.1 = k
    · simp [h]
    · simp only [h, if_false, ih, List.map_cons, List.mem_cons]
      constructor
      · exact Or.inr
      · rintro (e | e)
        · exact absurd e.symm h
        · exact e

theorem mapFind_eq_some_of_mem {κ β : Type} [DecidableEq κ] (k : κ) (v : β) (m : List (κ × β))
    (hnd : (m.map Prod.fst).Nodup) (h : (k, v) ∈ m) : mapFind k m = some v := by
  induction m with
  | nil => cases h
  | cons p m ih =>
    simp only [List.map_cons, List.nodup_cons] at hnd
    unfold mapFind
    rcases List.mem_cons.mp h with e | e
    · subst e; simp
    · have : p.1 ≠ k := fun e' => hnd.1 (e' ▸ List.mem_map_of_mem Prod.fst e)
      simp [this, ih hnd.2 e]

theorem mem_of_mapFind_eq_some {κ β : Type} [DecidableEq κ] (k : κ) (v : β) (m : List (κ × β))
    (h : mapFind k m = some v) : (k, v) ∈ m := by
  induction m with
  | nil => simp [mapFind] at h
  | cons p m ih =>
    unfold mapFind at h
    split_ifs at h with e
    · cases h; subst e; simp
    · exact List.mem_cons_of_mem _ (ih h)

/-! ## `ConstructCcfBasicEvents`: names and the enumeration of combinations -/

theorem nameLoop_eq (g : CcfGroup) (it : List Str) (h : ∀ k ∈ it, k ∈ g.keys)
    (name : Str) (names : List Str) :
    g.nameLoop it name names =
      .ok (name ++ List.intercalate " ".toList (it.map g.displayName),
           names ++ it.map g.displayName) := by
  induction it generalizing name names with
  | nil => simp [CcfGroup.nameLoop, List.intercalate]
  | cons k rest ih =>
    have hk : (mapFind k g.members_).isSome := (mapFind_isSome k g.members_).mpr (h k (by simp))
    obtain ⟨member, hm⟩ := Option.isSome_iff_exists.mp hk
    have hd : g.displayName k = member.name := by simp [CcfGroup.displayName, hm]
    have hrest : ∀ k ∈ rest, k ∈ g.keys := fun x hx => h x (List.mem_cons_of_mem _ hx)
    unfold CcfGroup.nameLoop
    simp only [hm]
    rw [ih hrest]
    cases rest with
    | nil => simp [List.intercalate, hd]
    | cons r rs => simp [List.intercalate, hd, List.intersperse]

theorem mem_inner_fold (it : List Str) (x : List Str) (members : List (Str × BasicEvent))
    (acc : List (List Str)) :
    x ∈ members.foldl (fun next_level it_m =>
          if it_m.1 ∈ it then next_level else setInsert (setInsert it_m.1 it) next_level) acc ↔
      x ∈ acc ∨ ∃ k ∈ members.map Prod.fst, k ∉ it ∧ x = setInsert k it := by
  induction members generalizing acc with
  | nil => simp
  | cons m members ih =>
    rw [List.foldl_cons, ih]
    by_cases hm : m.1 ∈ it
    · simp only [hm, if_true, List.map_cons, List.mem_cons]
      constructor
      · rintro (h | ⟨k, hk, hn, e⟩)
        · exact Or.inl h
        · exact Or.inr ⟨k, Or.inr hk, hn, e⟩
      · rintro (h | ⟨k, hk | hk, hn, e⟩)
        · exact Or.inl h
        · subst hk; exact absurd hm hn
        · exact Or.inr ⟨k, hk, hn, e⟩
    · simp only [hm, if_false, List.map_cons, List.mem_cons, mem_setInsert]
      constructor
      · rintro ((h | h) | ⟨k, hk, hn, e⟩)
        · exact Or.inr ⟨m.1, Or.inl rfl, hm, h⟩
        · exact Or.inl h
        · exact Or.inr ⟨k, Or.inr hk, hn, e⟩
      · rintro (h | ⟨k, hk | hk, hn, e⟩)
        · exact Or.inl (Or.inr h)
        · subst hk; exact Or.inl (Or.inl e)
        · exact Or.inr ⟨k, hk, hn, e⟩

theorem sorted_inner_fold (it : List Str) (members : List (Str × BasicEvent))
    (acc : List (List Str)) (h : acc.Sorted (· < ·)) :
    (members.foldl (fun next_level it_m =>
          if it_m.1 ∈ it then next_level else setInsert (setInsert it_m.1 it) next_level)
        acc).Sorted (· < ·) := by
  induction members generalizing acc with
  | nil => simpa using h
  | cons m members ih =>
    rw [List.foldl_cons]
    apply ih
    split_ifs
    · exact h
    · exact sorted_setInsert _ _ h

theorem mem_outer_fold (g : CcfGroup) (x : List Str) (combinations acc : List (List Str)) :
    x ∈ combinations.foldl (fun next_level it =>
          g.members_.foldl (fun next_level it_m =>
            if it_m.1 ∈ it then next_level else setInsert (setInsert it_m.1 it) next_level)
            next_level) acc ↔
      x ∈ acc ∨ ∃ it ∈ combinations, ∃ k ∈ g.keys, k ∉ it ∧ x = setInsert k it := by
  induction combinations generalizing acc with
  | nil => simp
  | cons c combinations ih =>
    rw [List.foldl_cons, ih, mem_inner_fold]
    simp only [List.mem_cons, CcfGroup.keys]
    constructor
    · rintro ((h | h) | ⟨it, hit, h⟩)
      · exact Or.inl h
      · exact Or.inr ⟨c, Or.inl rfl, h⟩
      · exact Or.inr ⟨it, Or.inr hit, h⟩
    · rintro (h | ⟨it, hit | hit, h⟩)
      · exact Or.inl (Or.inl h)
      · subst hit; exact Or.inl (Or.inr h)
      · exact Or.inr ⟨it, hit, h⟩

theorem sorted_outer_fold (g : CcfGroup) (combinations acc : List (List Str))
    (h : acc.Sorted (· < ·)) :
    (combinations.foldl (fun next_level it =>
          g.members_.foldl (fun next_level it_m =>
            if it_m.1 ∈ it then next_level else setInsert (setInsert it_m.1 it) next_level)
            next_level) acc).Sorted (· < ·) := by
  induction combinations generalizing acc with
  | nil => simpa using h
  | cons c combinations ih =>
    rw [List.foldl_cons]
    exact ih _ (sorted_inner_fold _ _ _ h)

theorem mem_nextLevel (g : CcfGroup) (x : List Str) (combinations : List (List Str)) :
    x ∈ g.nextLevel combinations ↔
      ∃ it ∈ combinations, ∃ k ∈ g.keys, k ∉ it ∧ x = setInsert k it := by
  unfold CcfGroup.nextLevel
  rw [mem_outer_fold]
  simp

theorem sorted_nextLevel (g : CcfGroup) (combinations : List (List Str)) :
    (g.nextLevel combinations).Sorted (· < ·) := by
  unfold CcfGroup.nextLevel
  exact sorted_outer_fold g combinations [] List.sorted_nil

theorem nextLevel_isCombination (g : CcfGroup) (combinations : List (List Str)) (j : Nat)
    (h : ∀ x, x ∈ combinations ↔ IsCombination g.keys j x) (x : List Str) :
    x ∈ g.nextLevel combinations ↔ IsCombination g.keys (j + 1) x := by
  rw [mem_nextLevel]
  constructor
  · rintro ⟨it, hit, k, hk, hn, rfl⟩
    obtain ⟨hs, hl, hsub⟩ := (h it).mp hit
    refine ⟨sorted_setInsert k it hs, ?_, ?_⟩
    · rw [length_setInsert k it hn, hl]
    · intro y hy
      rcases (mem_setInsert k y it).mp hy with rfl | hy
      · exact hk
      · exact hsub y hy
  · rintro ⟨hs, hl, hsub⟩
    cases x with
    | nil => simp at hl
    | cons a t =>
      have hst := List.sorted_cons.mp hs
      refine ⟨t, (h t).mpr ⟨hst.2, by simpa using hl, fun y hy => hsub y (List.mem_cons_of_mem _ hy)⟩,
        a, hsub a (List.mem_cons_self _ _), ?_, (setInsert_of_forall_lt a t hst.1).symm⟩
      intro ha
      exact lt_irrefl a (hst.1 a ha)

theorem insertAll_append {κ β : Type} [LinearOrder κ] (a b m : List (κ × β)) :
    insertAll (a ++ b) m = insertAll b (insertAll a m) := by
  simp [insertAll, List.foldl_append]

theorem sorted_keys_insertAll {κ β : Type} [LinearOrder κ] (entries m : List (κ × β))
    (h : (m.map Prod.fst).Sorted (· < ·)) :
    ((insertAll entries m).map Prod.fst).Sorted (· < ·) := by
  induction entries generalizing m with
  | nil => simpa [insertAll] using h
  | cons e entries ih =>
    have := ih (mapInsert e.1 e.2 m) (by rw [keys_mapInsert]; exact sorted_setInsert _ _ h)
    simpa [insertAll] using this

theorem perm_insertAll {κ β : Type} [LinearOrder κ] (entries m : List (κ × β))
    (h : (m.map Prod.fst ++ entries.map Prod.fst).Nodup) :
    (insertAll entries m).Perm (m ++ entries) := by
  induction entries generalizing m with
  | nil => simp [insertAll]
  | cons e entries ih =>
    have he : e.1 ∉ m.map Prod.fst := by
      intro hm
      have := (List.nodup_append.mp h).2.2
      exact this hm (by simp)
    have hp := perm_mapInsert e.1 e.2 m he
    have hnd : ((mapInsert e.1 e.2 m).map Prod.fst ++ entries.map Prod.fst).Nodup := by
      refine (List.Perm.nodup_iff ?_).mpr h
      refine ((hp.map Prod.fst).append_right _).trans ?_
      simp only [List.map_cons, List.cons_append]
      exact List.perm_middle.symm
    have h1 := ih (mapInsert e.1 e.2 m) hnd
    have h2 : insertAll (e :: entries) m = insertAll entries (mapInsert e.1 e.2 m) := by
      simp [insertAll]
    rw [h2]
    refine h1.trans ?_
    refine (hp.append_right _).trans ?_
    simp only [List.cons_append]
    exact List.perm_middle.symm

theorem specEvents_append (alloc : Nat → Nat) (g : CcfGroup) (i : Nat) (a b : List (List Str)) :
    g.specEvents alloc i (a ++ b) =
      g.specEvents alloc i a ++ g.specEvents alloc (i + a.length) b := by
  induction a generalizing i with
  | nil => simp [CcfGroup.specEvents]
  | cons x a ih =>
    have e : i + 1 + a.length = i + (a.length + 1) := by omega
    have := ih (i + 1)
    rw [e] at this
    simp only [List.cons_append, CcfGroup.specEvents, List.length_cons]
    exact congrArg (List.cons _) this

theorem specEvents_keys (alloc : Nat → Nat) (g : CcfGroup) (i : Nat) (its : List (List Str)) :
    (g.specEvents alloc i its).map Prod.fst = (List.range' i its.length).map alloc := by
  induction its generalizing i with
  | nil => simp [CcfGroup.specEvents]
  | cons x a ih => simp [CcfGroup.specEvents, ih, List.range'_succ, CcfGroup.specEvent]

theorem specEvents_sets (alloc : Nat → Nat) (g : CcfGroup) (i : Nat) (its : List (List Str)) :
    (g.specEvents alloc i its).map (fun e => e.2.2) = its := by
  induction its generalizing i with
  | nil => simp [CcfGroup.specEvents]
  | cons x a ih => simp [CcfGroup.specEvents, ih, CcfGroup.specEvent]

theorem createEvents_eq (alloc : Nat → Nat) (g : CcfGroup) (its : List (List Str))
    (h : ∀ it ∈ its, ∀ k ∈ it, k ∈ g.keys) (st : Nat × EventMap) :
    g.createEvents alloc its st =
      .ok (st.1 + its.length, insertAll (g.specEvents alloc st.1 its) st.2) := by
  induction its generalizing st with
  | nil => simp [CcfGroup.createEvents, CcfGroup.specEvents, insertAll]
  | cons it rest ih =>
    unfold CcfGroup.createEvents
    rw [nameLoop_eq g it (h it (List.mem_cons_self _ _))]
    simp only [List.nil_append]
    rw [ih (fun x hx => h x (List.mem_cons_of_mem _ hx))]
    simp only [CcfGroup.specEvents, insertAll, List.foldl_cons, CcfGroup.specEvent,
      List.length_cons]
    congr 2
    omega

theorem nextLevel_keys (g : CcfGroup) (combinations : List (List Str))
    (h : ∀ it ∈ combinations, ∀ k ∈ it, k ∈ g.keys) :
    ∀ it ∈ g.nextLevel combinations, ∀ k ∈ it, k ∈ g.keys := by
  intro it hit k hk
  obtain ⟨c, hc, m, hm, _, rfl⟩ := (mem_nextLevel g it combinations).mp hit
  rcases (mem_setInsert m k c).mp hk with rfl | hk
  · exact hm
  · exact h c hc k hk

theorem levelLoop_eq (alloc : Nat → Nat) (g : CcfGroup) (count : Nat)
    (combinations : List (List Str))
    (h : ∀ it ∈ combinations, ∀ k ∈ it, k ∈ g.keys) (st : Nat × EventMap) :
    g.levelLoop alloc count combinations st =
      .ok (st.1 + (g.levelsFrom count combinations).length,
           insertAll (g.specEvents alloc st.1 (g.levelsFrom count combinations)) st.2) := by
  induction count generalizing combinations st with
  | zero => simp [CcfGroup.levelLoop, CcfGroup.levelsFrom, CcfGroup.specEvents, insertAll]
  | succ count ih =>
    unfold CcfGroup.levelLoop
    have hk := nextLevel_keys g combinations h
    simp only [createEvents_eq alloc g _ hk, ih _ hk, CcfGroup.levelsFrom, specEvents_append,
      insertAll_append, List.length_append, Nat.add_assoc]

/-! ## The combinations of all levels and their number -/

theorem isCombination_zero (keys : List Str) (x : List Str) :
    x ∈ [([] : List Str)] ↔ IsCombination keys 0 x := by
  constructor
  · intro h
    simp only [List.mem_singleton] at h
    subst h
    exact ⟨List.sorted_nil, rfl, by simp⟩
  · rintro ⟨_, hl, _⟩
    simp [List.length_eq_zero.mp hl]

theorem mem_levelsFrom (g : CcfGroup) (count : Nat) (combinations : List (List Str)) (j : Nat)
    (h : ∀ x, x ∈ combinations ↔ IsCombination g.keys j x) (x : List Str) :
    x ∈ g.levelsFrom count combinations ↔
      ∃ k, j < k ∧ k ≤ j + count ∧ IsCombination g.keys k x := by
  induction count generalizing combinations j with
  | zero =>
    simp only [CcfGroup.levelsFrom, List.not_mem_nil, false_iff]
    rintro ⟨k, h1, h2, _⟩
    omega
  | succ count ih =>
    simp only [CcfGroup.levelsFrom, List.mem_append,
      ih _ (j + 1) (nextLevel_isCombination g combinations j h),
      nextLevel_isCombination g combinations j h]
    constructor
    · rintro (hx | ⟨k, h1, h2, hx⟩)
      · exact ⟨j + 1, by omega, by omega, hx⟩
      · exact ⟨k, by omega, by omega, hx⟩
    · rintro ⟨k, h1, h2, hx⟩
      by_cases hk : k = j + 1
      · subst hk; exact Or.inl hx
      · exact Or.inr ⟨k, by omega, by omega, hx⟩

theorem nodup_levelsFrom (g : CcfGroup) (count : Nat) (combinations : List (List Str)) (j : Nat)
    (h : ∀ x, x ∈ combinations ↔ IsCombination g.keys j x) :
    (g.levelsFrom count combinations).Nodup := by
  induction count generalizing combinations j with
  | zero => simp [CcfGroup.levelsFrom]
  | succ count ih =>
    have hn := nextLevel_isCombination g combinations j h
    simp only [CcfGroup.levelsFrom]
    refine List.nodup_append.mpr ⟨(sorted_nextLevel g combinations).nodup, ih _ (j + 1) hn, ?_⟩
    intro x hx hx'
    obtain ⟨_, hl, _⟩ := (hn x).mp hx
    obtain ⟨k, h1, _, _, hl', _⟩ := (mem_levelsFrom g count _ (j + 1) hn x).mp hx'
    omega

theorem isCombination_iff_sublist (keys : List Str) (hs : keys.Sorted (· < ·)) (k : Nat)
    (c : List Str) : IsCombination keys k c ↔ c ∈ List.sublistsLen k keys := by
  rw [List.mem_sublistsLen]
  constructor
  · rintro ⟨hc, hl, hsub⟩
    exact ⟨List.sublist_of_subperm_of_sorted (List.subperm_of_subset hc.nodup hsub) hc hs, hl⟩
  · rintro ⟨hsub, hl⟩
    exact ⟨hs.sublist hsub, hl, fun x hx => hsub.subset hx⟩

theorem length_filter_combinations (keys : List Str) (hs : keys.Sorted (· < ·))
    (l : List (List Str)) (L : Nat) (hnd : l.Nodup)
    (hmem : ∀ x, x ∈ l ↔ ∃ k, 0 < k ∧ k ≤ L ∧ IsCombination keys k x)
    (k : Nat) (h1 : 1 ≤ k) (h2 : k ≤ L) :
    (l.filter (fun c => c.length = k)).length = Nat.choose keys.length k := by
  rw [← List.length_sublistsLen]
  apply List.Perm.length_eq
  rw [List.perm_ext_iff_of_nodup (hnd.filter _) (List.nodup_sublistsLen k hs.nodup)]
  intro c
  rw [← isCombination_iff_sublist keys hs, List.mem_filter, hmem]
  constructor
  · rintro ⟨⟨k', _, _, hc⟩, hl⟩
    have : k' = k := by rw [← hc.2.1]; simpa using hl
    exact this ▸ hc
  · intro hc
    exact ⟨⟨k, h1, h2, hc⟩, by simpa using hc.2.1⟩

/-! ## What `ConstructCcfBasicEvents` returns (claim C1) -/

/-- The base `ConstructCcfBasicEvents` returns the map built from the combinations of all levels. -/
theorem constructBase_eq (alloc : Nat → Nat) (g : CcfGroup) (L : Nat) (h2 : 2 ≤ L)
    (hn : L ≤ g.members_.length) :
    g.ConstructCcfBasicEventsBase alloc (L : Int) [] =
      .ok (insertAll (g.specEvents alloc 0 (g.levelsFrom L [[]])) []) := by
  unfold CcfGroup.ConstructCcfBasicEventsBase
  have a1 : ((L : Int) > 1) := by omega
  have a2 : g.members_.length > 1 := by omega
  have a3 : (L : Int) ≤ (g.members_.length : Int) := by omega
  simp only [a1, a2, a3, not_true_eq_false, if_false, List.isEmpty_nil, Bool.false_eq_true,
    Int.toNat_ofNat]
  rw [levelLoop_eq alloc g L [[]] (by simp)]

/-- The entries built from the combinations of all levels, up to the order of the map. -/
theorem perm_specEvents (alloc : Nat → Nat) (halloc : Function.Injective alloc) (g : CcfGroup)
    (its : List (List Str)) :
    (insertAll (g.specEvents alloc 0 its) []).Perm (g.specEvents alloc 0 its) := by
  have := perm_insertAll (g.specEvents alloc 0 its) [] (by
    rw [List.map_nil, List.nil_append, specEvents_keys]
    exact (List.nodup_range' 0 its.length).map halloc)
  simpa using this

theorem mem_allLevels (g : CcfGroup) (L : Nat) (x : List Str) :
    x ∈ g.levelsFrom L [[]] ↔ ∃ k, 0 < k ∧ k ≤ L ∧ IsCombination g.keys k x := by
  rw [mem_levelsFrom g L [[]] 0 (isCombination_zero g.keys)]
  simp

/-- What the base `ConstructCcfBasicEvents` returns: a map with pairwise distinct
keys whose sets are, up to order, the combinations of levels `1..L`. -/
theorem constructBase_spec (alloc : Nat → Nat) (halloc : Function.Injective alloc)
    (g : CcfGroup) (L : Nat) (h2 : 2 ≤ L) (hn : L ≤ g.members_.length) :
    ∃ new_events, g.ConstructCcfBasicEventsBase alloc (L : Int) [] = .ok new_events ∧
      (new_events.map Prod.fst).Sorted (· < ·) ∧
      new_events.Perm (g.specEvents alloc 0 (g.levelsFrom L [[]])) :=
  ⟨_, constructBase_eq alloc g L h2 hn,
    sorted_keys_insertAll _ [] List.sorted_nil,
    perm_specEvents alloc halloc g _⟩

theorem toFinset_eq_iff_eq_sort (S : Finset Str) (c : List Str) (hc : c.Sorted (· < ·)) :
    c.toFinset = S ↔ c = S.sort (· ≤ ·) := by
  constructor
  · intro h
    subst h
    exact ((List.toFinset_sort (· ≤ ·) hc.nodup).mpr hc.le_of_lt).symm
  · intro h
    rw [h, Finset.sort_toFinset]

theorem isCombination_sort (keys : List Str) (S : Finset Str) (hS : S ⊆ keys.toFinset) :
    IsCombination keys S.card (S.sort (· ≤ ·)) := by
  refine ⟨?_, Finset.length_sort _, ?_⟩
  · exact (Finset.sort_sorted_lt S)
  · intro x hx
    have := hS ((Finset.mem_sort _).mp hx)
    simpa using this

theorem specEvents_addr (alloc : Nat → Nat) (g : CcfGroup) (i : Nat) (its : List (List Str)) :
    ∀ e ∈ g.specEvents alloc i its, e.2.1.addr = e.1 := by
  induction its generalizing i with
  | nil => simp [CcfGroup.specEvents]
  | cons x a ih =>
    intro e he
    simp only [CcfGroup.specEvents, List.mem_cons] at he
    rcases he with rfl | he
    · rfl
    · exact ih (i + 1) e he

theorem length_filter_eq_one {α : Type} [DecidableEq α] (l : List α) (hnd : l.Nodup) (x : α)
    (hx : x ∈ l) : (l.filter (fun y => decide (y = x))).length = 1 := by
  induction l with
  | nil => cases hx
  | cons a l ih =>
    have hn := List.nodup_cons.mp hnd
    by_cases ha : a = x
    · subst ha
      have : l.filter (fun y => decide (y = a)) = [] := by
        rw [List.filter_eq_nil_iff]
        intro y hy
        simp only [decide_eq_true_eq]
        rintro rfl
        exact hn.1 hy
      simp [List.filter_cons, this]
    · have hx' : x ∈ l := by
        rcases List.mem_cons.mp hx with e | e
        · exact absurd e.symm ha
        · exact e
      simp [List.filter_cons, ha, ih hn.2 hx']

theorem sets_perm (alloc : Nat → Nat) (g : CcfGroup) (its : List (List Str)) (evs : EventMap)
    (h : evs.Perm (g.specEvents alloc 0 its)) : (evs.map (fun e => e.2.2)).Perm its := by
  have := h.map (fun e => e.2.2)
  rwa [specEvents_sets] at this

theorem events_are_combinations (g : CcfGroup) (L : Nat) (evs : EventMap)
    (h : (evs.map (fun e => e.2.2)).Perm (g.levelsFrom L [[]])) :
    ∀ e ∈ evs, ∃ k, 1 ≤ k ∧ k ≤ L ∧ IsCombination g.keys k e.2.2 := by
  intro e he
  have : e.2.2 ∈ g.levelsFrom L [[]] := h.subset (List.mem_map_of_mem (fun e => e.2.2) he)
  exact (mem_allLevels g L _).mp this

theorem one_event_per_combination (g : CcfGroup) (L : Nat) (evs : EventMap)
    (h : (evs.map (fun e => e.2.2)).Perm (g.levelsFrom L [[]]))
    (S : List Str) (k : Nat) (h1 : 1 ≤ k) (h2 : k ≤ L) (hS : IsCombination g.keys k S) :
    (evs.filter (fun e => e.2.2 = S)).length = 1 := by
  have hnd : (evs.map (fun e => e.2.2)).Nodup :=
    h.nodup_iff.mpr (nodup_levelsFrom g L [[]] 0 (isCombination_zero g.keys))
  have hmem : S ∈ evs.map (fun e => e.2.2) :=
    h.mem_iff.mpr ((mem_allLevels g L S).mpr ⟨k, h1, h2, hS⟩)
  have hc := length_filter_eq_one _ hnd S hmem
  rw [List.filter_map, List.length_map] at hc
  exact hc

theorem events_per_size (g : CcfGroup) (hkeys : g.keys.Sorted (· < ·)) (L : Nat) (evs : EventMap)
    (h : (evs.map (fun e => e.2.2)).Perm (g.levelsFrom L [[]]))
    (k : Nat) (h1 : 1 ≤ k) (h2 : k ≤ L) :
    (evs.filter (fun e => e.2.2.length = k)).length = Nat.choose g.members_.length k := by
  have hlen : g.members_.length = g.keys.length := by simp [CcfGroup.keys]
  rw [hlen, ← length_filter_combinations g.keys hkeys (g.levelsFrom L [[]]) L
    (nodup_levelsFrom g L [[]] 0 (isCombination_zero g.keys)) (mem_allLevels g L) k h1 h2]
  rw [← (h.filter _).length_eq, List.filter_map, List.length_map]
  rfl

theorem one_event_per_subset (g : CcfGroup) (L : Nat) (evs : EventMap)
    (h : (evs.map (fun e => e.2.2)).Perm (g.levelsFrom L [[]]))
    (S : Finset Str) (hS : S ⊆ g.keys.toFinset) (h1 : 1 ≤ S.card) (h2 : S.card ≤ L) :
    (evs.filter (fun e => e.2.2.toFinset = S)).length = 1 := by
  rw [← one_event_per_combination g L evs h (S.sort (· ≤ ·)) S.card h1 h2
    (isCombination_sort g.keys S hS)]
  congr 1
  apply List.filter_congr
  intro e he
  obtain ⟨k, _, _, hc, _⟩ := events_are_combinations g L evs h e he
  simp [toFinset_eq_iff_eq_sort S e.2.2 hc]

/-- C1: for a group whose member map is a well-formed `std::map` with `n` members,
whose model is not Beta-Factor, and a maximum level `L` with `2 ≤ L ≤ n`,
`ConstructCcfBasicEvents` returns a map of pairwise distinct events in which
every event carries a set of member keys of size between 1 and `L`, every such
set (given as a finite set of keys, or as the ascending list that represents it)
belongs to exactly one event, and the events of size `k` number `C(n, k)`. -/
theorem construct_events_all_subsets (alloc : Nat → Nat) (halloc : Function.Injective alloc)
    (g : CcfGroup) (L : Nat) (hkeys : g.keys.Sorted (· < ·))
    (hkind : g.kind ≠ Model.BetaFactorModel) (h2 : 2 ≤ L) (hn : L ≤ g.members_.length) :
    ∃ new_events, g.ConstructCcfBasicEvents alloc (L : Int) [] = .ok new_events ∧
      (new_events.map Prod.fst).Nodup ∧
      (∀ e ∈ new_events, e.2.1.addr = e.1) ∧
      (∀ e ∈ new_events, ∃ k, 1 ≤ k ∧ k ≤ L ∧ IsCombination g.keys k e.2.2) ∧
      (∀ S : Finset Str, S ⊆ g.keys.toFinset → 1 ≤ S.card → S.card ≤ L →
        (new_events.filter (fun e => e.2.2.toFinset = S)).length = 1) ∧
      (∀ (S : List Str) (k : Nat), 1 ≤ k → k ≤ L → IsCombination g.keys k S →
        (new_events.filter (fun e => e.2.2 = S)).length = 1) ∧
      (∀ k, 1 ≤ k → k ≤ L →
        (new_events.filter (fun e => e.2.2.length = k)).length =
          Nat.choose g.members_.length k) := by
  obtain ⟨evs, hok, hsorted, hperm⟩ := constructBase_spec alloc halloc g L h2 hn
  have hsets := sets_perm alloc g _ evs hperm
  refine ⟨evs, ?_, hsorted.nodup, ?_, events_are_combinations g L evs hsets,
    one_event_per_subset g L evs hsets,
    fun S k h1 h2 hS => one_event_per_combination g L evs hsets S k h1 h2 hS,
    events_per_size g hkeys L evs hsets⟩
  · unfold CcfGroup.ConstructCcfBasicEvents
    cases hk : g.kind <;> first | exact absurd hk hkind | exact hok
  · intro e he
    exact specEvents_addr alloc g 0 _ e (hperm.subset he)

/-- C1 on the MGL group of scenario S2 with `L = 3`: seven events, one per non-empty set of
keys, `C(3, k)` of each size `k`. -/
theorem construct_events_all_subsets_witness :
    ∃ new_events, scenarioMgl.ConstructCcfBasicEvents id ((3 : Nat) : Int) [] = .ok new_events ∧
      (new_events.map Prod.fst).Nodup ∧
      (∀ e ∈ new_events, e.2.1.addr = e.1) ∧
      (∀ e ∈ new_events, ∃ k, 1 ≤ k ∧ k ≤ 3 ∧ IsCombination scenarioMgl.keys k e.2.2) ∧
      (∀ S : Finset Str, S ⊆ scenarioMgl.keys.toFinset → 1 ≤ S.card → S.card ≤ 3 →
        (new_events.filter (fun e => e.2.2.toFinset = S)).length = 1) ∧
      (∀ (S : List Str) (k : Nat), 1 ≤ k → k ≤ 3 → IsCombination scenarioMgl.keys k S →
        (new_events.filter (fun e => e.2.2 = S)).length = 1) ∧
      (∀ k, 1 ≤ k → k ≤ 3 →
        (new_events.filter (fun e => e.2.2.length = k)).length =
          Nat.choose scenarioMgl.members_.length k) :=
  construct_events_all_subsets id Function.injective_id scenarioMgl 3 (by decide) (by decide)
    (by decide) (by decide)

/-! ## `ConstructCcfBasicEvents` for every model, read off a normal return -/

theorem beta_fold_eq (max_level : Int) (all_events new_events : EventMap) :
    all_events.foldl
        (fun new_events it =>
          let level : Int := (it.2.2.length : Int)
          if level = 1 ∨ level = max_level then mapInsert it.1 it.2 new_events
          else new_events)
        new_events =
      insertAll (all_events.filter (keptLevel Model.BetaFactorModel max_level)) new_events := by
  induction all_events generalizing new_events with
  | nil => simp [insertAll]
  | cons it rest ih =>
    rw [List.foldl_cons, ih]
    by_cases hl : ((it.2.2.length : Int) = 1 ∨ (it.2.2.length : Int) = max_level)
    · have hkept : keptLevel Model.BetaFactorModel max_level it = true := by
        unfold keptLevel
        rw [if_pos rfl]
        exact decide_eq_true hl
      rw [List.filter_cons_of_pos hkept]
      simp only [if_pos hl, insertAll, List.foldl_cons]
    · have hkept : ¬ keptLevel Model.BetaFactorModel max_level it = true := by
        unfold keptLevel
        rw [if_pos rfl]
        simpa using hl
      rw [List.filter_cons_of_neg hkept]
      simp only [if_neg hl, insertAll]

theorem constructBase_inv (alloc : Nat → Nat) (g : CcfGroup) (max_level : Int) (evs : EventMap)
    (h : g.ConstructCcfBasicEventsBase alloc max_level [] = .ok evs) :
    ∃ L : Nat, max_level = (L : Int) ∧ 2 ≤ L ∧ L ≤ g.members_.length := by
  unfold CcfGroup.ConstructCcfBasicEventsBase at h
  split_ifs at h with a1 a2 a3 a4
  refine ⟨max_level.toNat, ?_, ?_, ?_⟩ <;> omega

/-- What `ConstructCcfBasicEvents` returns for any model, when it returns: the
maximum level is between 2 and the number of members, the map has ascending
pairwise distinct addresses, and its entries are, up to order, the entries of
all combinations of levels `1..L` that the model keeps. -/
theorem construct_inv (alloc : Nat → Nat) (halloc : Function.Injective alloc) (g : CcfGroup)
    (max_level : Int) (evs : EventMap)
    (h : g.ConstructCcfBasicEvents alloc max_level [] = .ok evs) :
    ∃ L : Nat, max_level = (L : Int) ∧ 2 ≤ L ∧ L ≤ g.members_.length ∧
      (evs.map Prod.fst).Sorted (· < ·) ∧
      evs.Perm ((g.specEvents alloc 0 (g.levelsFrom L [[]])).filter
        (keptLevel g.kind max_level)) := by
  unfold CcfGroup.ConstructCcfBasicEvents at h
  by_cases hk : g.kind = Model.BetaFactorModel
  · simp only [hk] at h
    unfold BetaFactorModel.ConstructCcfBasicEvents at h
    split_ifs at h with a1
    cases hb : g.ConstructCcfBasicEventsBase alloc max_level [] with
    | error e => simp [hb] at h
    | ok all_events =>
      obtain ⟨L, hL, h2, hn⟩ := constructBase_inv alloc g max_level all_events hb
      subst hL
      obtain ⟨all', hok, hsorted, hperm⟩ := constructBase_spec alloc halloc g L h2 hn
      rw [hb] at hok
      cases hok
      simp only [hb, beta_fold_eq] at h
      cases h
      refine ⟨L, rfl, h2, hn, sorted_keys_insertAll _ [] List.sorted_nil, ?_⟩
      rw [hk]
      refine List.Perm.trans ?_ (hperm.filter _)
      have := perm_insertAll (all_events.filter (keptLevel Model.BetaFactorModel (L : Int))) []
        (by
          rw [List.map_nil, List.nil_append]
          exact (hsorted.nodup).sublist ((List.filter_sublist _).map Prod.fst))
      simpa using this
  · have hb : g.ConstructCcfBasicEventsBase alloc max_level [] = .ok evs := by
      cases hkind : g.kind <;> first | exact absurd hkind hk | (rw [hkind] at h; exact h)
    obtain ⟨L, hL, h2, hn⟩ := constructBase_inv alloc g max_level evs hb
    subst hL
    obtain ⟨all', hok, hsorted, hperm⟩ := constructBase_spec alloc halloc g L h2 hn
    rw [hb] at hok
    cases hok
    refine ⟨L, rfl, h2, hn, hsorted, ?_⟩
    have : (g.specEvents alloc 0 (g.levelsFrom L [[]])).filter (keptLevel g.kind (L : Int)) =
        g.specEvents alloc 0 (g.levelsFrom L [[]]) := by
      apply List.filter_eq_self.mpr
      intro a _
      simp [keptLevel, hk]
    rw [this]
    exact hperm

/-! ## `ApplyModel`: gates and the loop over the new events (claim C2) -/

theorem makeGates_eq (g : CcfGroup) (members : List (Str × BasicEvent)) (gates : GateMap) :
    g.makeGates members gates =
      insertAll (members.map (fun it_m => (it_m.1, newGate it_m.2))) gates := by
  induction members generalizing gates with
  | nil => simp [CcfGroup.makeGates, insertAll]
  | cons m members ih =>
    simp only [CcfGroup.makeGates, ih, insertAll, List.map_cons, List.foldl_cons, newGate]

/-- The gates before any event is added: every member key is bound to a new gate. -/
theorem mapFind_makeGates (g : CcfGroup) (hkeys : g.keys.Sorted (· < ·))
    (it_m : Str × BasicEvent) (hm : it_m ∈ g.members_) :
    mapFind it_m.1 (g.makeGates g.members_ []) = some (newGate it_m.2) := by
  rw [makeGates_eq]
  have hk : (g.members_.map (fun it_m => (it_m.1, newGate it_m.2))).map Prod.fst = g.keys := by
    simp [CcfGroup.keys, Function.comp]
  have hp := perm_insertAll (g.members_.map (fun it_m => (it_m.1, newGate it_m.2))) []
    (by rw [List.map_nil, List.nil_append, hk]; exact hkeys.nodup)
  apply mapFind_eq_some_of_mem
  · exact (sorted_keys_insertAll _ [] List.sorted_nil).nodup
  · apply hp.symm.subset
    simp only [List.nil_append, List.mem_map]
    exact ⟨it_m, hm, rfl⟩

theorem addArgs_nil (gate : Gate) : gate.addArgs [] = gate := by
  simp [Gate.addArgs]

theorem addArgs_addArgs (gate : Gate) (a b : List CcfEvent) :
    (gate.addArgs a).addArgs b = gate.addArgs (a ++ b) := by
  simp [Gate.addArgs]

theorem addToParents_spec (new_event : CcfEvent) (its : List Str) (hnd : its.Nodup)
    (gates gates' : GateMap) (h : addToParents new_event its gates = .ok gates') (k : Str) :
    mapFind k gates' =
      (mapFind k gates).map (fun gate => gate.addArgs (if k ∈ its then [new_event] else [])) := by
  induction its generalizing gates with
  | nil =>
    simp only [addToParents] at h
    cases h
    simp [addArgs_nil]
  | cons it_l rest ih =>
    have hn := List.nodup_cons.mp hnd
    unfold addToParents at h
    cases hf : mapFind it_l gates with
    | none => simp [hf] at h
    | some gate0 =>
      simp only [hf] at h
      rw [ih hn.2 _ h, mapFind_mapModify]
      by_cases hk : k = it_l
      · subst hk
        simp only [if_true, hn.1, if_false, List.mem_cons, true_or, hf, Option.map_some',
          addArgs_nil]
        simp [Gate.addArgs, Formula.AddArgument]
      · simp only [hk, if_false, List.mem_cons, false_or]

theorem assignEvents_spec (probabilities : ProbMap) (evs : EventMap)
    (hnd : ∀ e ∈ evs, e.2.2.Nodup) (gates : GateMap) (evs' : EventMap) (gates' : GateMap)
    (h : assignEvents probabilities evs gates = .ok (evs', gates')) :
    evs' = evs.map (assignExpression probabilities) ∧
      (∀ e ∈ evs, (mapFind (e.2.2.length : Int) probabilities).isSome) ∧
      ∀ k, mapFind k gates' =
        (mapFind k gates).map (fun gate =>
          gate.addArgs ((evs'.filter (fun e => k ∈ e.2.2)).map (fun e => e.2.1))) := by
  induction evs generalizing gates evs' gates' with
  | nil =>
    simp only [assignEvents] at h
    cases h
    simp [addArgs_nil]
  | cons it rest ih =>
    unfold assignEvents at h
    cases hf : mapFind (it.2.2.length : Int) probabilities with
    | none => simp [hf] at h
    | some prob =>
      simp only [hf] at h
      cases ha : addToParents { it.2.1 with expression := some prob } it.2.2 gates with
      | error e => simp [ha] at h
      | ok gates1 =>
        simp only [ha] at h
        cases hr : assignEvents probabilities rest gates1 with
        | error e => simp [hr] at h
        | ok res =>
          obtain ⟨evs1, gates2⟩ := res
          simp only [hr] at h
          obtain ⟨h1, h2, h3⟩ := ih (fun e he => hnd e (List.mem_cons_of_mem _ he)) gates1 evs1
            gates2 hr
          cases h
          refine ⟨?_, ?_, ?_⟩
          · simp [h1, assignExpression, hf]
          · intro e he
            rcases List.mem_cons.mp he with rfl | he
            · simp [hf]
            · exact h2 e he
          · intro k
            rw [h3 k, addToParents_spec _ _ (hnd it (List.mem_cons_self _ _)) _ _ ha k]
            cases mapFind k gates with
            | none => rfl
            | some gate =>
              simp only [Option.map_some', addArgs_addArgs]
              by_cases hk : k ∈ it.2.2
              · simp [hk, List.filter_cons]
              · simp [hk, List.filter_cons]

theorem specEvents_sets_sorted (alloc : Nat → Nat) (g : CcfGroup) (L : Nat) :
    ∀ e ∈ g.specEvents alloc 0 (g.levelsFrom L [[]]), e.2.2.Sorted (· < ·) := by
  intro e he
  have hm : e.2.2 ∈ (g.specEvents alloc 0 (g.levelsFrom L [[]])).map (fun e => e.2.2) :=
    List.mem_map_of_mem (fun e => e.2.2) he
  rw [specEvents_sets] at hm
  obtain ⟨k, _, _, hc, _⟩ := (mem_allLevels g L _).mp hm
  exact hc

/-- Everything `ApplyModel` did, read off a normal return. -/
theorem applyModel_inv (alloc : Nat → Nat) (halloc : Function.Injective alloc) (g : CcfGroup)
    (hkeys : g.keys.Sorted (· < ·)) (r : Applied) (h : g.ApplyModel alloc = .ok r) :
    ∃ (back : Int × Expression) (L : Nat) (evs : EventMap),
      g.factors_.getLast? = some back ∧ back.1 = (L : Int) ∧ 2 ≤ L ∧ L ≤ g.members_.length ∧
      g.CalculateProb (L : Int) [] = .ok r.probabilities ∧
      g.ConstructCcfBasicEvents alloc (L : Int) [] = .ok evs ∧
      (evs.map Prod.fst).Sorted (· < ·) ∧
      evs.Perm ((g.specEvents alloc 0 (g.levelsFrom L [[]])).filter
        (keptLevel g.kind (L : Int))) ∧
      r.new_events = evs.map (assignExpression r.probabilities) ∧
      (∀ e ∈ evs, (mapFind (e.2.2.length : Int) r.probabilities).isSome) ∧
      r.members_ = g.members_.map
        (fun it_m => (it_m.1, { it_m.2 with ccf_gate := mapFind it_m.1 r.gates })) ∧
      ∀ it_m ∈ g.members_, mapFind it_m.1 r.gates =
        some ((newGate it_m.2).addArgs
          ((r.new_events.filter (fun e => it_m.1 ∈ e.2.2)).map (fun e => e.2.1))) := by
  unfold CcfGroup.ApplyModel at h
  cases hb : g.factors_.getLast? with
  | none => simp [hb] at h
  | some back =>
    simp only [hb] at h
    cases hp : g.CalculateProb back.1 [] with
    | error e => simp [hp] at h
    | ok probabilities =>
      simp only [hp] at h
      cases hc : g.ConstructCcfBasicEvents alloc back.1 [] with
      | error e => simp [hc] at h
      | ok evs =>
        simp only [hc] at h
        split_ifs at h with hempty
        cases ha : assignEvents probabilities evs (g.makeGates g.members_ []) with
        | error e => simp [ha] at h
        | ok res =>
          obtain ⟨evs', gates'⟩ := res
          simp only [ha] at h
          obtain ⟨L, hL, h2, hn, hsorted, hperm⟩ := construct_inv alloc halloc g back.1 evs hc
          have hnd : ∀ e ∈ evs, e.2.2.Nodup := by
            intro e he
            have := (List.mem_filter.mp (hperm.subset he)).1
            exact (specEvents_sets_sorted alloc g L e this).nodup
          obtain ⟨h1, h2', h3⟩ := assignEvents_spec probabilities evs hnd _ evs' gates' ha
          cases h
          rw [hL] at hp hc hperm
          refine ⟨back, L, evs, rfl, hL, h2, hn, hp, hc, hsorted, hperm, h1, h2', rfl, ?_⟩
          intro it_m hm
          rw [h3 it_m.1, mapFind_makeGates g hkeys it_m hm]
          rfl

theorem keys_assignExpression (probabilities : ProbMap) (evs : EventMap) :
    (evs.map (assignExpression probabilities)).map Prod.fst = evs.map Prod.fst := by
  simp [assignExpression, Function.comp]

theorem sets_assignExpression (probabilities : ProbMap) (evs : EventMap) :
    (evs.map (assignExpression probabilities)).map (fun e => e.2.2) = evs.map (fun e => e.2.2) := by
  simp [assignExpression, Function.comp]

/-- `ApplyModel` returns only when `ConstructCcfBasicEvents` has created at least
one event. -/
theorem applyModel_events_ne_nil (alloc : Nat → Nat) (g : CcfGroup) (r : Applied)
    (h : g.ApplyModel alloc = .ok r) (back : Int × Expression)
    (hback : g.factors_.getLast? = some back) (evs : EventMap)
    (hevs : g.ConstructCcfBasicEvents alloc back.1 [] = .ok evs) : evs ≠ [] := by
  intro he
  unfold CcfGroup.ApplyModel at h
  simp only [hback] at h
  cases hc : g.CalculateProb back.1 [] with
  | error e => simp [hc] at h
  | ok table =>
    simp only [hc, hevs, he, List.isEmpty_nil, if_true] at h
    cases h

/-- C2: after `ApplyModel` has returned for a group of any model whose member map
is a well-formed `std::map`, `new_events` holds exactly the events that
`ConstructCcfBasicEvents` created for the level of the last factor, at least
one, each with its expression set; they are pairwise distinct objects, and
every member has a replacement gate, recorded as its `ccf_gate` and built from
its name, base path and visibility, whose formula has operator `or` and whose
arguments are exactly the created events whose set contains the member's key,
each once, in map order. -/
theorem applyModel_replacement_gates (alloc : Nat → Nat) (halloc : Function.Injective alloc)
    (g : CcfGroup) (hkeys : g.keys.Sorted (· < ·)) (r : Applied)
    (h : g.ApplyModel alloc = .ok r) :
    ∃ (L : Nat) (evs : EventMap),
      g.factors_.getLast?.map Prod.fst = some (L : Int) ∧
      g.ConstructCcfBasicEvents alloc (L : Int) [] = .ok evs ∧
      evs ≠ [] ∧
      r.new_events = evs.map (assignExpression r.probabilities) ∧
      (r.new_events.map Prod.fst).Nodup ∧
      (∀ e ∈ r.new_events, e.2.1.addr = e.1) ∧
      ∀ it_m ∈ g.members_, ∃ gate : Gate,
        (it_m.1, { it_m.2 with ccf_gate := some gate }) ∈ r.members_ ∧
        mapFind it_m.1 r.gates = some gate ∧
        gate.name = it_m.2.name ∧ gate.base_path = it_m.2.base_path ∧
        gate.is_public = it_m.2.is_public ∧
        gate.formula.type = "or".toList ∧
        gate.formula.event_args =
          (r.new_events.filter (fun e => it_m.1 ∈ e.2.2)).map (fun e => e.2.1) ∧
        gate.formula.event_args =
          (evs.filter (fun e => it_m.1 ∈ e.2.2)).map
            (fun e => (assignExpression r.probabilities e).2.1) := by
  obtain ⟨back, L, evs, hback, hL, _, _, _, hevs, hsorted, hperm, hnew, _, hmem, hgates⟩ :=
    applyModel_inv alloc halloc g hkeys r h
  refine ⟨L, evs, by simp [hback, hL], hevs,
    applyModel_events_ne_nil alloc g r h back hback evs (by rw [hL]; exact hevs), hnew,
    ?_, ?_, ?_⟩
  · rw [hnew, keys_assignExpression]
    exact hsorted.nodup
  · intro e he
    rw [hnew] at he
    obtain ⟨e0, he0, rfl⟩ := List.mem_map.mp he
    have := (List.mem_filter.mp (hperm.subset he0)).1
    exact specEvents_addr alloc g 0 _ e0 this
  · intro it_m hm
    refine ⟨_, ?_, hgates it_m hm, rfl, rfl, rfl, rfl, ?_, ?_⟩
    · rw [hmem, List.mem_map]
      exact ⟨it_m, hm, by rw [hgates it_m hm]⟩
    · simp [Gate.addArgs, newGate]
    · rw [hnew, List.filter_map, List.map_map]
      rfl

/-- C2 on the MGL group of scenario S2, where `ApplyModel` returns: seven events
are created and are in `new_events`, and the gate of every member has four
arguments. -/
theorem applyModel_replacement_gates_witness :
    ∃ r, scenarioMgl.ApplyModel id = .ok r ∧
      r.new_events.length = 7 ∧
      (∀ it_m ∈ scenarioMgl.members_, ∃ gate : Gate,
        mapFind it_m.1 r.gates = some gate ∧ gate.formula.event_args.length = 4) ∧
      ∃ (L : Nat) (evs : EventMap),
        scenarioMgl.factors_.getLast?.map Prod.fst = some (L : Int) ∧
        scenarioMgl.ConstructCcfBasicEvents id (L : Int) [] = .ok evs ∧
        evs ≠ [] ∧
        r.new_events = evs.map (assignExpression r.probabilities) ∧
        (r.new_events.map Prod.fst).Nodup ∧
        (∀ e ∈ r.new_events, e.2.1.addr = e.1) ∧
        ∀ it_m ∈ scenarioMgl.members_, ∃ gate : Gate,
          (it_m.1, { it_m.2 with ccf_gate := some gate }) ∈ r.members_ ∧
          mapFind it_m.1 r.gates = some gate ∧
          gate.name = it_m.2.name ∧ gate.base_path = it_m.2.base_path ∧
          gate.is_public = it_m.2.is_public ∧
          gate.formula.type = "or".toList ∧
          gate.formula.event_args =
            (r.new_events.filter (fun e => it_m.1 ∈ e.2.2)).map (fun e => e.2.1) ∧
          gate.formula.event_args =
            (evs.filter (fun e => it_m.1 ∈ e.2.2)).map
              (fun e => (assignExpression r.probabilities e).2.1) := by
  obtain ⟨r, hr⟩ := exists_of_isOk (scenarioMgl.ApplyModel id) (by decide)
  have hthm := applyModel_replacement_gates id Function.injective_id scenarioMgl (by decide) r hr
  obtain ⟨L, evs, hL, hevs, hne, hnew, hnd, haddr, hg⟩ := hthm
  have hL3 : L = 3 := by
    have : (some (3 : Int)) = some (L : Int) := hL
    simp only [Option.some.injEq] at this
    omega
  subst hL3
  have hcount : ∀ evs : EventMap, scenarioMgl.ConstructCcfBasicEvents id 3 [] = .ok evs →
      evs.length = 7 ∧ ∀ it_m ∈ scenarioMgl.members_,
        (evs.filter (fun e => it_m.1 ∈ e.2.2)).length = 4 := by
    have hdec : (match scenarioMgl.ConstructCcfBasicEvents id 3 [] with
        | .ok evs => decide (evs.length = 7 ∧ ∀ it_m ∈ scenarioMgl.members_,
            (evs.filter (fun e => it_m.1 ∈ e.2.2)).length = 4)
        | .error _ => false) = true := by decide
    intro evs he
    rw [he] at hdec
    exact of_decide_eq_true hdec
  obtain ⟨h7, h4⟩ := hcount evs hevs
  refine ⟨r, hr, by rw [hnew, List.length_map, h7], ?_, 3, evs, hL, hevs, hne, hnew, hnd,
    haddr, hg⟩
  intro it_m hm
  obtain ⟨gate, _, hfind, _, _, _, _, _, hargs⟩ := hg it_m hm
  exact ⟨gate, hfind, by rw [hargs, List.length_map, h4 it_m hm]⟩

/-! ## The number of arguments of a replacement gate (claim C3) -/

theorem isCombination_erase (keys : List Str) (hs : keys.Sorted (· < ·)) (m : Str) (k : Nat)
    (c : List Str) : IsCombination (keys.erase m) k c ↔ IsCombination keys k c ∧ m ∉ c := by
  constructor
  · rintro ⟨h1, h2, h3⟩
    refine ⟨⟨h1, h2, fun x hx => List.mem_of_mem_erase (h3 x hx)⟩, ?_⟩
    intro hm
    exact ((hs.nodup.mem_erase_iff).mp (h3 m hm)).1 rfl
  · rintro ⟨⟨h1, h2, h3⟩, hm⟩
    refine ⟨h1, h2, fun x hx => (hs.nodup.mem_erase_iff).mpr ⟨?_, h3 x hx⟩⟩
    rintro rfl
    exact hm hx

theorem length_filter_containing (keys : List Str) (hs : keys.Sorted (· < ·))
    (l : List (List Str)) (L : Nat) (hnd : l.Nodup)
    (hmem : ∀ x, x ∈ l ↔ ∃ k, 0 < k ∧ k ≤ L ∧ IsCombination keys k x)
    (m : Str) (hm : m ∈ keys) (k : Nat) (h1 : 1 ≤ k) (h2 : k ≤ L) :
    (l.filter (fun c => decide (c.length = k) && decide (m ∈ c))).length =
      Nat.choose (keys.length - 1) (k - 1) := by
  have htotal := length_filter_combinations keys hs l L hnd hmem k h1 h2
  have hsplit := @List.length_eq_length_filter_add _ (l.filter (fun c => decide (c.length = k)))
    (fun c => decide (m ∈ c))
  have hwithout : ((l.filter (fun c => decide (c.length = k))).filter
      (fun c => !decide (m ∈ c))).length = Nat.choose (keys.length - 1) k := by
    have hs' : (keys.erase m).Sorted (· < ·) := hs.sublist (List.erase_sublist m keys)
    rw [← List.length_erase_of_mem hm, ← List.length_sublistsLen]
    apply List.Perm.length_eq
    rw [List.perm_ext_iff_of_nodup ((hnd.filter _).filter _)
      (List.nodup_sublistsLen k hs'.nodup)]
    intro c
    rw [← isCombination_iff_sublist _ hs', isCombination_erase keys hs, List.mem_filter,
      List.mem_filter, hmem]
    constructor
    · rintro ⟨⟨⟨k', _, _, hc⟩, hl⟩, hn⟩
      have : k' = k := by rw [← hc.2.1]; simpa using hl
      exact ⟨this ▸ hc, by simpa using hn⟩
    · rintro ⟨hc, hn⟩
      exact ⟨⟨⟨k, h1, h2, hc⟩, by simpa using hc.2.1⟩, by simpa using hn⟩
  rw [List.filter_filter] at hwithout
  rw [List.filter_filter, List.filter_filter] at hsplit
  have hpos : 0 < keys.length := List.length_pos_of_mem hm
  have hpascal : Nat.choose keys.length k =
      Nat.choose (keys.length - 1) (k - 1) + Nat.choose (keys.length - 1) k := by
    obtain ⟨n, hn⟩ := Nat.exists_eq_succ_of_ne_zero (Nat.pos_iff_ne_zero.mp hpos)
    obtain ⟨j, hj⟩ := Nat.exists_eq_succ_of_ne_zero (Nat.pos_iff_ne_zero.mp h1)
    rw [hn, hj]
    simp [Nat.choose_succ_succ]
  have hcomm : (l.filter (fun c => decide (c.length = k) && decide (m ∈ c))).length =
      (l.filter (fun a => decide (m ∈ a) && decide (a.length = k))).length := by
    congr 1
    apply List.filter_congr
    intro x _
    exact Bool.and_comm _ _
  rw [hcomm]
  omega

theorem length_eq_sum_filter {α : Type} (f : α → Nat) (L : Nat) (l : List α)
    (h : ∀ x ∈ l, 1 ≤ f x ∧ f x ≤ L) :
    l.length = ∑ k ∈ Finset.Icc 1 L, (l.filter (fun x => decide (f x = k))).length := by
  induction l with
  | nil => simp
  | cons a l ih =>
    have ha := h a (List.mem_cons_self _ _)
    have hl := ih (fun x hx => h x (List.mem_cons_of_mem _ hx))
    have hstep : ∀ k, ((a :: l).filter (fun x => decide (f x = k))).length =
        (if f a = k then 1 else 0) + (l.filter (fun x => decide (f x = k))).length := by
      intro k
      by_cases hk : f a = k
      · simp [List.filter_cons, hk, Nat.add_comm]
      · simp [List.filter_cons, hk]
    simp only [hstep, Finset.sum_add_distrib, List.length_cons]
    rw [Finset.sum_ite_eq, if_pos (Finset.mem_Icc.mpr ha), ← hl]
    omega

/-- The sets of member keys of the events left by `ApplyModel`, up to order. -/
theorem sets_of_new_events (alloc : Nat → Nat) (g : CcfGroup) (L : Nat) (evs : EventMap)
    (probabilities : ProbMap)
    (hperm : evs.Perm ((g.specEvents alloc 0 (g.levelsFrom L [[]])).filter
      (keptLevel g.kind (L : Int)))) :
    ((evs.map (assignExpression probabilities)).map (fun e => e.2.2)).Perm
      ((g.levelsFrom L [[]]).filter (keptSet g.kind (L : Int))) := by
  rw [sets_assignExpression]
  have h1 := hperm.map (fun e => e.2.2)
  have h2 : ((g.specEvents alloc 0 (g.levelsFrom L [[]])).filter
      (keptLevel g.kind (L : Int))).map (fun e => e.2.2) =
      (g.levelsFrom L [[]]).filter (keptSet g.kind (L : Int)) := by
    conv_rhs => rw [← specEvents_sets alloc g 0 (g.levelsFrom L [[]])]
    rw [List.filter_map]
    rfl
  rwa [h2] at h1

theorem keptSet_of_ne (kind : Model) (hk : kind ≠ Model.BetaFactorModel) (max_level : Int)
    (c : List Str) : keptSet kind max_level c = true := by
  simp [keptSet, hk]

/-- The number of sets kept for a Beta-Factor group that contain a given key:
the set of that key alone and the sets of size `L`. -/
theorem beta_length_containing (g : CcfGroup) (hkeys : g.keys.Sorted (· < ·)) (L : Nat)
    (h2 : 2 ≤ L) (m : Str) (hm : m ∈ g.keys) :
    (((g.levelsFrom L [[]]).filter (keptSet Model.BetaFactorModel (L : Int))).filter
        (fun c => decide (m ∈ c))).length =
      1 + Nat.choose (g.keys.length - 1) (L - 1) := by
  have hnd := nodup_levelsFrom g L [[]] 0 (isCombination_zero g.keys)
  have hsplit := @List.length_eq_length_filter_add _
    (((g.levelsFrom L [[]]).filter (keptSet Model.BetaFactorModel (L : Int))).filter
      (fun c => decide (m ∈ c))) (fun c => decide (c.length = 1))
  have hsingle := length_filter_containing g.keys hkeys _ L hnd (mem_allLevels g L) m hm 1
    (le_refl 1) (by omega)
  have hfull := length_filter_containing g.keys hkeys _ L hnd (mem_allLevels g L) m hm L
    (by omega) (le_refl L)
  have e1 : ((((g.levelsFrom L [[]]).filter (keptSet Model.BetaFactorModel (L : Int))).filter
      (fun c => decide (m ∈ c))).filter (fun c => decide (c.length = 1))).length =
      ((g.levelsFrom L [[]]).filter
        (fun c => decide (c.length = 1) && decide (m ∈ c))).length := by
    rw [List.filter_filter, List.filter_filter]
    congr 1
    apply List.filter_congr
    intro c _
    by_cases hc : c.length = 1
    · simp [keptSet, hc]
    · simp [hc]
  have e2 : ((((g.levelsFrom L [[]]).filter (keptSet Model.BetaFactorModel (L : Int))).filter
      (fun c => decide (m ∈ c))).filter (fun c => !decide (c.length = 1))).length =
      ((g.levelsFrom L [[]]).filter
        (fun c => decide (c.length = L) && decide (m ∈ c))).length := by
    rw [List.filter_filter, List.filter_filter]
    congr 1
    apply List.filter_congr
    intro c _
    have hL1 : ¬ L = 1 := by omega
    by_cases hc : c.length = L
    · simp [keptSet, hc, hL1]
    · by_cases h1 : c.length = 1
      · have hL1' : ¬ 1 = L := by omega
        simp [hc, h1, hL1']
      · simp [keptSet, hc, h1]
  rw [Nat.choose_zero_right] at hsingle
  omega

/-- C3 as amended: after `ApplyModel` has returned for a group with `n` members
and maximum level `L`, the replacement gate of every member has
`Σ_{k=1..L} C(n-1, k-1)` arguments when the model is MGL, Alpha-Factor or
Phi-Factor, and `1 + C(n-1, L-1)` arguments when the model is Beta-Factor. -/
theorem applyModel_gate_size (alloc : Nat → Nat) (halloc : Function.Injective alloc)
    (g : CcfGroup) (hkeys : g.keys.Sorted (· < ·)) (r : Applied)
    (h : g.ApplyModel alloc = .ok r) :
    ∃ L : Nat, g.factors_.getLast?.map Prod.fst = some (L : Int) ∧
      ∀ it_m ∈ g.members_, ∃ gate : Gate,
        mapFind it_m.1 r.gates = some gate ∧
        (it_m.1, { it_m.2 with ccf_gate := some gate }) ∈ r.members_ ∧
        gate.formula.event_args.length =
          if g.kind = Model.BetaFactorModel then
            1 + Nat.choose (g.members_.length - 1) (L - 1)
          else ∑ k ∈ Finset.Icc 1 L, Nat.choose (g.members_.length - 1) (k - 1) := by
  obtain ⟨back, L, evs, hback, hL, h2, hn, _, _, hsorted, hperm, hnew, _, hmem, hgates⟩ :=
    applyModel_inv alloc halloc g hkeys r h
  refine ⟨L, by simp [hback, hL], ?_⟩
  intro it_m hm
  refine ⟨_, hgates it_m hm, ?_, ?_⟩
  · rw [hmem, List.mem_map]
    exact ⟨it_m, hm, by rw [hgates it_m hm]⟩
  · have hsets := sets_of_new_events alloc g L evs r.probabilities hperm
    rw [← hnew] at hsets
    have hlen : g.members_.length = g.keys.length := by simp [CcfGroup.keys]
    have hkey : it_m.1 ∈ g.keys := List.mem_map_of_mem Prod.fst hm
    have hcount : (r.new_events.filter (fun e => decide (it_m.1 ∈ e.2.2))).length =
        (((g.levelsFrom L [[]]).filter (keptSet g.kind (L : Int))).filter
          (fun c => decide (it_m.1 ∈ c))).length := by
      rw [← (hsets.filter _).length_eq, List.filter_map, List.length_map]
      rfl
    simp only [Gate.addArgs, newGate, List.nil_append, List.length_map]
    rw [hcount]
    by_cases hkind : g.kind = Model.BetaFactorModel
    · rw [if_pos hkind, hkind, hlen]
      exact beta_length_containing g hkeys L h2 it_m.1 hkey
    · rw [if_neg hkind]
      have hall : (g.levelsFrom L [[]]).filter (keptSet g.kind (L : Int)) =
          g.levelsFrom L [[]] :=
        List.filter_eq_self.mpr (fun c _ => keptSet_of_ne g.kind hkind _ c)
      rw [hall, length_eq_sum_filter List.length L]
      · apply Finset.sum_congr rfl
        intro k hk
        rw [List.filter_filter, hlen]
        exact length_filter_containing g.keys hkeys _ L
          (nodup_levelsFrom g L [[]] 0 (isCombination_zero g.keys)) (mem_allLevels g L)
          it_m.1 hkey k (Finset.mem_Icc.mp hk).1 (Finset.mem_Icc.mp hk).2
      · intro c hc
        obtain ⟨k, h1, h2, hcomb⟩ := (mem_allLevels g L c).mp (List.mem_filter.mp hc).1
        rw [hcomb.2.1]
        exact ⟨h1, h2⟩

/-- C3 as amended, on the MGL group of scenario S2, where `ApplyModel` returns. -/
theorem applyModel_gate_size_witness :
    ∃ r, scenarioMgl.ApplyModel id = .ok r ∧
      ∃ L : Nat, scenarioMgl.factors_.getLast?.map Prod.fst = some (L : Int) ∧
        ∀ it_m ∈ scenarioMgl.members_, ∃ gate : Gate,
          mapFind it_m.1 r.gates = some gate ∧
          (it_m.1, { it_m.2 with ccf_gate := some gate }) ∈ r.members_ ∧
          gate.formula.event_args.length =
            if scenarioMgl.kind = Model.BetaFactorModel then
              1 + Nat.choose (scenarioMgl.members_.length - 1) (L - 1)
            else ∑ k ∈ Finset.Icc 1 L, Nat.choose (scenarioMgl.members_.length - 1) (k - 1) := by
  obtain ⟨r, hr⟩ := exists_of_isOk (scenarioMgl.ApplyModel id) (by decide)
  exact ⟨r, hr, applyModel_gate_size id Function.injective_id scenarioMgl (by decide) r hr⟩

/-- C3, counterexample: in the Beta-Factor group of scenario S1 (three members,
the factor at level 3) the replacement gate of A has 2 arguments after
`ApplyModel`, while `Σ_{k=1..3} C(2, k-1)` is 4. -/
theorem beta_gate_size_counterexample :
    scenarioBeta.kind = Model.BetaFactorModel ∧
    scenarioBeta.factors_.getLast?.map Prod.fst = some ((3 : Nat) : Int) ∧
    gateSize (scenarioBeta.ApplyModel id) "a".toList = some 2 ∧
    (∑ k ∈ Finset.Icc 1 3, Nat.choose (scenarioBeta.members_.length - 1) (k - 1)) = 4 ∧
    ¬ (∃ r gate, scenarioBeta.ApplyModel id = .ok r ∧
        mapFind "a".toList r.gates = some gate ∧
        gate.formula.event_args.length =
          ∑ k ∈ Finset.Icc 1 3, Nat.choose (scenarioBeta.members_.length - 1) (k - 1)) := by
  have hsize : gateSize (scenarioBeta.ApplyModel id) "a".toList = some 2 := by decide
  have hsum : (∑ k ∈ Finset.Icc 1 3,
      Nat.choose (scenarioBeta.members_.length - 1) (k - 1)) = 4 := by decide
  refine ⟨rfl, by decide, hsize, hsum, ?_⟩
  rintro ⟨r, gate, hr, hg, hl⟩
  rw [hr] at hsize
  simp only [gateSize, hg, Option.map_some', Option.some.injEq] at hsize
  rw [hsum] at hl
  omega

/-! ## Beta-Factor groups: sets, names and gates -/

theorem specEvents_fields (alloc : Nat → Nat) (g : CcfGroup) (i : Nat) (its : List (List Str)) :
    ∀ e ∈ g.specEvents alloc i its,
      e.2.1.name = "[".toList ++ List.intercalate " ".toList (e.2.2.map g.displayName) ++
        "]".toList ∧
      e.2.1.member_names = e.2.2.map g.displayName := by
  induction its generalizing i with
  | nil => simp [CcfGroup.specEvents]
  | cons x a ih =>
    intro e he
    simp only [CcfGroup.specEvents, List.mem_cons] at he
    rcases he with rfl | he
    · exact ⟨rfl, rfl⟩
    · exact ih (i + 1) e he

/-- The name and the member names of every event left by `ApplyModel`. -/
theorem new_events_fields (alloc : Nat → Nat) (g : CcfGroup) (L : Nat) (evs : EventMap)
    (probabilities : ProbMap)
    (hperm : evs.Perm ((g.specEvents alloc 0 (g.levelsFrom L [[]])).filter
      (keptLevel g.kind (L : Int)))) :
    ∀ e ∈ evs.map (assignExpression probabilities),
      e.2.1.name = "[".toList ++ List.intercalate " ".toList (e.2.2.map g.displayName) ++
        "]".toList ∧
      e.2.1.member_names = e.2.2.map g.displayName := by
  intro e he
  obtain ⟨e0, he0, rfl⟩ := List.mem_map.mp he
  exact specEvents_fields alloc g 0 _ e0 (List.mem_filter.mp (hperm.subset he0)).1

theorem displayName_of_mem (g : CcfGroup) (hkeys : g.keys.Sorted (· < ·))
    (it_m : Str × BasicEvent) (hm : it_m ∈ g.members_) : g.displayName it_m.1 = it_m.2.name := by
  unfold CcfGroup.displayName
  rw [mapFind_eq_some_of_mem it_m.1 it_m.2 g.members_ hkeys.nodup hm]

theorem displayName_keys (g : CcfGroup) (hkeys : g.keys.Sorted (· < ·)) :
    g.keys.map g.displayName = g.members_.map (fun it_m => it_m.2.name) := by
  unfold CcfGroup.keys
  rw [List.map_map]
  apply List.map_congr_left
  intro it_m hm
  exact displayName_of_mem g hkeys it_m hm

theorem isCombination_full (keys : List Str) (hs : keys.Sorted (· < ·)) (c : List Str) :
    IsCombination keys keys.length c ↔ c = keys := by
  rw [isCombination_iff_sublist keys hs, List.mem_sublistsLen]
  constructor
  · rintro ⟨h1, h2⟩
    exact h1.eq_of_length h2
  · rintro rfl
    exact ⟨List.Sublist.refl _, rfl⟩

theorem isCombination_single (keys : List Str) (k : Str) (hk : k ∈ keys) (c : List Str) :
    IsCombination keys 1 c ∧ k ∈ c ↔ c = [k] := by
  constructor
  · rintro ⟨⟨_, hl, _⟩, hkc⟩
    obtain ⟨a, rfl⟩ := List.length_eq_one.mp hl
    simp only [List.mem_singleton] at hkc
    rw [hkc]
  · rintro rfl
    exact ⟨⟨List.sorted_singleton k, rfl, by simpa using hk⟩, by simp⟩

/-- The sets kept for a Beta-Factor group at maximum level `n` that contain a given key. -/
theorem beta_sets_containing (g : CcfGroup) (hkeys : g.keys.Sorted (· < ·)) (h2 : 2 ≤ g.keys.length)
    (k : Str) (hk : k ∈ g.keys) :
    (((g.levelsFrom g.keys.length [[]]).filter
        (keptSet Model.BetaFactorModel (g.keys.length : Int))).filter
        (fun c => decide (k ∈ c))).Perm [[k], g.keys] := by
  have hne : [k] ≠ g.keys := by
    intro e
    have := congrArg List.length e
    simp at this
    omega
  rw [List.perm_ext_iff_of_nodup
    (((nodup_levelsFrom g _ [[]] 0 (isCombination_zero g.keys)).filter _).filter _)
    (by simp [hne])]
  intro c
  simp only [List.mem_filter, mem_allLevels, keptSet, if_true, decide_eq_true_eq,
    List.mem_cons, List.mem_singleton, List.not_mem_nil, or_false]
  constructor
  · rintro ⟨⟨⟨j, h1, h2', hc⟩, hl⟩, hkc⟩
    rcases hl with hl | hl
    · have hj : j = 1 := by rw [← hc.2.1]; exact_mod_cast hl
      subst hj
      exact Or.inl ((isCombination_single g.keys k hk c).mp ⟨hc, hkc⟩)
    · have hj : j = g.keys.length := by rw [← hc.2.1]; exact_mod_cast hl
      subst hj
      exact Or.inr ((isCombination_full g.keys hkeys c).mp hc)
  · rintro (rfl | rfl)
    · exact ⟨⟨⟨1, by omega, by omega, ((isCombination_single g.keys k hk _).mpr rfl).1⟩,
        Or.inl (by simp)⟩, by simp⟩
    · exact ⟨⟨⟨g.keys.length, by omega, le_refl _,
        (isCombination_full g.keys hkeys g.keys).mpr rfl⟩, Or.inr rfl⟩, hk⟩

theorem perm_pair_cases {α : Type} (l : List α) (a b : α) (h : l.Perm [a, b]) :
    l = [a, b] ∨ l = [b, a] := by
  have hl := h.length_eq
  match l, hl with
  | [x, y], _ =>
    have hx : x ∈ [a, b] := h.subset (by simp)
    have hy : y ∈ [a, b] := h.subset (by simp)
    have ha : a ∈ [x, y] := h.symm.subset (by simp)
    have hb : b ∈ [x, y] := h.symm.subset (by simp)
    simp only [List.mem_cons, List.mem_singleton, List.not_mem_nil, or_false] at hx hy ha hb
    rcases hx with rfl | rfl
    · rcases hy with rfl | rfl
      · rcases hb with rfl | rfl <;> simp
      · simp
    · rcases hy with rfl | rfl
      · simp
      · rcases ha with rfl | rfl <;> simp

theorem map_eq_pair {α β : Type} (f : α → β) (l : List α) (a b : β) (h : l.map f = [a, b]) :
    ∃ x y, l = [x, y] ∧ f x = a ∧ f y = b := by
  match l, h with
  | [x, y], h =>
    simp only [List.map_cons, List.map_nil, List.cons.injEq, and_true] at h
    exact ⟨x, y, rfl, h.1, h.2⟩

/-- What a normal return of `ApplyModel` leaves for a Beta-Factor group whose
single factor is declared at the level `n` of the number of members. -/
theorem beta_events_of_applied (alloc : Nat → Nat) (halloc : Function.Injective alloc)
    (g : CcfGroup) (hkeys : g.keys.Sorted (· < ·)) (hkind : g.kind = Model.BetaFactorModel)
    (beta : Expression) (hfactor : g.factors_ = [((g.members_.length : Int), beta)])
    (r : Applied) (h : g.ApplyModel alloc = .ok r) :
    2 ≤ g.members_.length ∧
    (∀ e ∈ r.new_events, e.2.2.length = 1 ∨ e.2.2.length = g.members_.length) ∧
    (r.new_events.filter (fun e => e.2.2.length = 1)).length = g.members_.length ∧
    (r.new_events.filter (fun e => e.2.2.length = g.members_.length)).length = 1 ∧
    (r.new_events.filter (fun e => e.2.2 = g.keys)).length = 1 ∧
    ∀ it_m ∈ g.members_, ∃ (gate : Gate) (e1 e2 : CcfEvent),
      mapFind it_m.1 r.gates = some gate ∧
      (it_m.1, { it_m.2 with ccf_gate := some gate }) ∈ r.members_ ∧
      gate.formula.type = "or".toList ∧
      gate.formula.event_args.Perm [e1, e2] ∧
      e1.name = "[".toList ++ it_m.2.name ++ "]".toList ∧
      e1.member_names = [it_m.2.name] ∧
      e2.name = "[".toList ++
        List.intercalate " ".toList (g.members_.map (fun m => m.2.name)) ++ "]".toList ∧
      e2.member_names = g.members_.map (fun m => m.2.name) := by
  obtain ⟨back, L, evs, hback, hL, h2, hn, _, _, hsorted, hperm, hnew, _, hmem, hgates⟩ :=
    applyModel_inv alloc halloc g hkeys r h
  have hLn : L = g.members_.length := by
    rw [hfactor] at hback
    simp only [List.getLast?_singleton, Option.some.injEq] at hback
    rw [← hback] at hL
    have hL' : ((g.members_.length : Nat) : Int) = (L : Int) := hL
    exact_mod_cast hL'.symm
  subst hLn
  have hlen : g.members_.length = g.keys.length := by simp [CcfGroup.keys]
  have hsets := sets_of_new_events alloc g _ evs r.probabilities hperm
  have hfields := new_events_fields alloc g _ evs r.probabilities hperm
  rw [← hnew] at hsets hfields
  rw [hkind] at hsets
  have hnd : (r.new_events.map (fun e => e.2.2)).Nodup :=
    hsets.nodup_iff.mpr ((nodup_levelsFrom g _ [[]] 0 (isCombination_zero g.keys)).filter _)
  have hkept : ∀ k, (k = 1 ∨ k = g.members_.length) →
      (r.new_events.filter (fun e => e.2.2.length = k)).length =
        Nat.choose g.members_.length k := by
    intro k hk
    have h1 : 1 ≤ k := by rcases hk with rfl | rfl <;> omega
    have h2' : k ≤ g.members_.length := by rcases hk with rfl | rfl <;> omega
    rw [hlen, ← length_filter_combinations g.keys hkeys (g.levelsFrom g.members_.length [[]])
      g.members_.length (nodup_levelsFrom g _ [[]] 0 (isCombination_zero g.keys))
      (mem_allLevels g _) k h1 (by omega)]
    have e1 : (r.new_events.filter (fun e => decide (e.2.2.length = k))).length =
        ((r.new_events.map (fun e => e.2.2)).filter (fun c => decide (c.length = k))).length := by
      rw [List.filter_map, List.length_map]
      rfl
    rw [e1, (hsets.filter _).length_eq, List.filter_filter]
    congr 1
    apply List.filter_congr
    intro c _
    by_cases hc : c.length = k
    · simpa [keptSet, hc] using hk
    · simp [hc]
  refine ⟨by omega, ?_, ?_, ?_, ?_, ?_⟩
  · intro e he
    have := hsets.subset (List.mem_map_of_mem (fun e => e.2.2) he)
    have hk := (List.mem_filter.mp this).2
    simp only [keptSet, if_true, decide_eq_true_eq] at hk
    rcases hk with hk | hk
    · exact Or.inl (by exact_mod_cast hk)
    · exact Or.inr (by exact_mod_cast hk)
  · rw [hkept 1 (Or.inl rfl), Nat.choose_one_right]
  · rw [hkept _ (Or.inr rfl), Nat.choose_self]
  · have hin : g.keys ∈ r.new_events.map (fun e => e.2.2) := by
      apply hsets.symm.subset
      rw [List.mem_filter]
      refine ⟨(mem_allLevels g _ _).mpr ⟨g.keys.length, by omega, by omega,
        (isCombination_full g.keys hkeys g.keys).mpr rfl⟩, ?_⟩
      simp [keptSet, hlen]
    have := length_filter_eq_one _ hnd g.keys hin
    rwa [List.filter_map, List.length_map] at this
  · intro it_m hm
    have hkey : it_m.1 ∈ g.keys := List.mem_map_of_mem Prod.fst hm
    have hE : ((r.new_events.filter (fun e => decide (it_m.1 ∈ e.2.2))).map
        (fun e => e.2.2)).Perm [[it_m.1], g.keys] := by
      have := beta_sets_containing g hkeys (by omega) it_m.1 hkey
      rw [← hlen] at this
      refine List.Perm.trans ?_ this
      refine List.Perm.trans ?_ (hsets.filter _)
      rw [List.filter_map]
      exact List.Perm.refl _
    have hsub : ∀ e ∈ r.new_events.filter (fun e => decide (it_m.1 ∈ e.2.2)),
        e ∈ r.new_events := fun e he => (List.mem_filter.mp he).1
    have hname := displayName_of_mem g hkeys it_m hm
    have hall := displayName_keys g hkeys
    have hgate : ∀ (x y : Nat × (CcfEvent × List Str)),
        r.new_events.filter (fun e => decide (it_m.1 ∈ e.2.2)) = [x, y] →
        mapFind it_m.1 r.gates = some ((newGate it_m.2).addArgs [x.2.1, y.2.1]) := by
      intro x y hxy
      rw [hgates it_m hm, hxy]
      rfl
    have hbind : ∀ gate, mapFind it_m.1 r.gates = some gate →
        (it_m.1, { it_m.2 with ccf_gate := some gate }) ∈ r.members_ := by
      intro gate hg
      rw [hmem, List.mem_map]
      exact ⟨it_m, hm, by rw [hg]⟩
    rcases perm_pair_cases _ _ _ hE with hcase | hcase
    · obtain ⟨x, y, hxy, hx, hy⟩ := map_eq_pair _ _ _ _ hcase
      have hxm := hfields x (hsub x (by rw [hxy]; simp))
      have hym := hfields y (hsub y (by rw [hxy]; simp))
      rw [hx] at hxm
      rw [hy, hall] at hym
      refine ⟨_, x.2.1, y.2.1, hgate x y hxy, hbind _ (hgate x y hxy), rfl, ?_, ?_, ?_,
        hym.1, hym.2⟩
      · simp [Gate.addArgs, newGate]
      · simpa [hname, List.intercalate] using hxm.1
      · simpa [hname] using hxm.2
    · obtain ⟨x, y, hxy, hx, hy⟩ := map_eq_pair _ _ _ _ hcase
      have hxm := hfields x (hsub x (by rw [hxy]; simp))
      have hym := hfields y (hsub y (by rw [hxy]; simp))
      rw [hx, hall] at hxm
      rw [hy] at hym
      refine ⟨_, y.2.1, x.2.1, hgate x y hxy, hbind _ (hgate x y hxy), rfl, ?_, ?_, ?_,
        hxm.1, hxm.2⟩
      · simp only [Gate.addArgs, newGate, List.nil_append]
        exact List.Perm.swap _ _ _
      · simpa [hname, List.intercalate] using hym.1
      · simpa [hname] using hym.2



/-! ## Probability tables: Beta-Factor and Phi-Factor (claims C8, C9) -/

theorem meanList_eq (args : List Expression) : meanList args = args.map Expression.Mean := by
  induction args with
  | nil => rfl
  | cons a l ih => simp [meanList, ih]

theorem mean_mul (args : List Expression) :
    (Expression.Mul args).Mean = (args.map Expression.Mean).prod := by
  rw [Expression.Mean, meanList_eq]

theorem mean_one_minus (e : Expression) :
    (Expression.Sub [Expression.ConstantExpression 1, e]).Mean = 1 - e.Mean := by
  simp [Expression.Mean, meanList]

theorem mean_div (a b : Expression) : (Expression.Div [a, b]).Mean = a.Mean / b.Mean := by
  simp [Expression.Mean, meanList]

theorem mean_add (args : List Expression) :
    (Expression.Add args).Mean = (args.map Expression.Mean).sum := by
  rw [Expression.Mean, meanList_eq]

theorem insertAll_sorted {κ β : Type} [LinearOrder κ] (entries m : List (κ × β))
    (h : ((m ++ entries).map Prod.fst).Sorted (· < ·)) : insertAll entries m = m ++ entries := by
  induction entries generalizing m with
  | nil => simp [insertAll]
  | cons e entries ih =>
    have hlast : mapInsert e.1 e.2 m = m ++ [e] := by
      apply mapInsert_last
      intro p hp
      rw [List.map_append, List.map_cons] at h
      have := (List.pairwise_append.mp h).2.2
      exact this p.1 (List.mem_map_of_mem Prod.fst hp) e.1 (List.mem_cons_self _ _)
    have hstep : insertAll (e :: entries) m = insertAll entries (mapInsert e.1 e.2 m) := by
      simp [insertAll]
    rw [hstep, hlast, ih (m ++ [e]) (by simpa using h)]
    simp

theorem beta_table_eq (g : CcfGroup) (beta Q : Expression) (n : Nat) (hn : 2 ≤ n)
    (hfactor : g.factors_ = [((n : Int), beta)]) (hQ : g.distribution_ = some Q) :
    BetaFactorModel.CalculateProb g (n : Int) [] =
      .ok [((1 : Int),
              Expression.Mul [Expression.Sub [Expression.ConstantExpression 1, beta], Q]),
           ((n : Int), Expression.Mul [beta, Q])] := by
  unfold BetaFactorModel.CalculateProb
  have h1 : ¬ ((n : Int) < 1) := by omega
  have h2 : (1 : Int) < (n : Int) := by omega
  simp [hfactor, hQ, mapInsert, h1, h2]

/-- C8: for a Beta-Factor group with the single factor `beta` at level `n ≥ 2`
and the shared distribution `Q`, `BetaFactorModel::CalculateProb` returns the
table with exactly the keys 1 and `n`, where `P[1]` is the node `(1 - beta) * Q`
and `P[n]` the node `beta * Q`, with means `(1 - mean beta) * mean Q` and
`mean beta * mean Q`. -/
theorem beta_calculateProb (g : CcfGroup) (beta Q : Expression) (n : Nat) (hn : 2 ≤ n)
    (hfactor : g.factors_ = [((n : Int), beta)]) (hQ : g.distribution_ = some Q) :
    BetaFactorModel.CalculateProb g (n : Int) [] =
      .ok [((1 : Int),
              Expression.Mul [Expression.Sub [Expression.ConstantExpression 1, beta], Q]),
           ((n : Int), Expression.Mul [beta, Q])] ∧
    (Expression.Mul [Expression.Sub [Expression.ConstantExpression 1, beta], Q]).Mean =
      (1 - beta.Mean) * Q.Mean ∧
    (Expression.Mul [beta, Q]).Mean = beta.Mean * Q.Mean := by
  refine ⟨beta_table_eq g beta Q n hn hfactor hQ, ?_, ?_⟩
  · simp [mean_mul, mean_one_minus]
  · simp [mean_mul]

/-- C8 on scenario S1: the two entries have the means 0.009 and 0.001. -/
theorem beta_calculateProb_witness :
    ∃ p1 pn, BetaFactorModel.CalculateProb scenarioBeta ((3 : Nat) : Int) [] =
        .ok [((1 : Int), p1), (((3 : Nat) : Int), pn)] ∧
      p1.Mean = 9 / 1000 ∧ pn.Mean = 1 / 1000 := by
  obtain ⟨h1, h2, h3⟩ := beta_calculateProb scenarioBeta (Expression.ConstantExpression (1 / 10))
    scenarioQ 3 (by decide) rfl rfl
  refine ⟨_, _, h1, ?_, ?_⟩
  · rw [h2]; norm_num [Expression.Mean, scenarioQ]
  · rw [h3]; norm_num [Expression.Mean, scenarioQ]

theorem phi_probLoop_eq (g : CcfGroup) (Q : Expression) (hQ : g.distribution_ = some Q)
    (factors : List (Int × Expression)) (probabilities : ProbMap) :
    PhiFactorModel.probLoop g factors probabilities =
      .ok (insertAll (factors.map (fun it_f => (it_f.1, Expression.Mul [it_f.2, Q])))
        probabilities) := by
  induction factors generalizing probabilities with
  | nil => simp [PhiFactorModel.probLoop, insertAll]
  | cons f rest ih =>
    unfold PhiFactorModel.probLoop
    simp only [hQ, ih, insertAll, List.map_cons, List.foldl_cons]

theorem sorted_levels (b L : Nat) :
    ((List.range L).map (fun i : Nat => (i : Int) + b)).Sorted (· < ·) := by
  rw [List.Sorted, List.pairwise_map]
  exact (List.pairwise_lt_range L).imp (fun h => by omega)

theorem mapFind_map_of_get {κ β γ : Type} [DecidableEq κ] (l : List (κ × β)) (f : κ × β → γ)
    (hnd : (l.map Prod.fst).Nodup) (i : Nat) (x : κ × β) (hx : l.get? i = some x) :
    mapFind x.1 (l.map (fun p => (p.1, f p))) = some (f x) := by
  apply mapFind_eq_some_of_mem
  · simpa [Function.comp] using hnd
  · rw [List.mem_map]
    exact ⟨x, List.get?_mem hx, rfl⟩

theorem phi_table_keys (g : CcfGroup) (Q : Expression) (L : Nat)
    (hlevels : g.factors_.map Prod.fst = (List.range L).map (fun i : Nat => (i : Int) + 1)) :
    (g.factors_.map (fun it_f => (it_f.1, Expression.Mul [it_f.2, Q]))).map Prod.fst =
      (List.range L).map (fun i : Nat => (i : Int) + 1) := by
  rw [← hlevels]; simp [Function.comp]

theorem phi_table_eq (g : CcfGroup) (Q : Expression) (L : Nat)
    (hQ : g.distribution_ = some Q)
    (hlevels : g.factors_.map Prod.fst = (List.range L).map (fun i : Nat => (i : Int) + 1)) :
    PhiFactorModel.CalculateProb g (L : Int) [] =
      .ok (g.factors_.map (fun it_f => (it_f.1, Expression.Mul [it_f.2, Q]))) := by
  have hlen : g.factors_.length = L := by
    have := congrArg List.length hlevels
    simpa using this
  unfold PhiFactorModel.CalculateProb
  rw [phi_probLoop_eq g Q hQ, insertAll_sorted _ [] (by
    rw [List.nil_append, phi_table_keys g Q L hlevels]; exact sorted_levels 1 L)]
  simp [hlen]

theorem phi_table_find (g : CcfGroup) (Q : Expression) (L : Nat)
    (hlevels : g.factors_.map Prod.fst = (List.range L).map (fun i : Nat => (i : Int) + 1))
    (k : Nat) (h1 : 1 ≤ k) (h2 : k ≤ L) :
    ∃ phi, g.factors_.get? (k - 1) = some ((k : Int), phi) ∧
      mapFind (k : Int) (g.factors_.map (fun it_f => (it_f.1, Expression.Mul [it_f.2, Q]))) =
        some (Expression.Mul [phi, Q]) := by
  have hlen : g.factors_.length = L := by
    have := congrArg List.length hlevels
    simpa using this
  have hlt : k - 1 < g.factors_.length := by omega
  obtain ⟨x, hx⟩ : ∃ x, g.factors_.get? (k - 1) = some x :=
    ⟨_, List.get?_eq_get hlt⟩
  have hx1 : x.1 = (k : Int) := by
    have h3 : (g.factors_.map Prod.fst).get? (k - 1) = some x.1 := by
      rw [List.get?_eq_getElem?, List.getElem?_map, ← List.get?_eq_getElem?, hx]; rfl
    rw [hlevels, List.get?_eq_getElem?, List.getElem?_map, List.getElem?_range (by omega)] at h3
    simp only [Option.map_some', Option.some.injEq] at h3
    rw [← h3]
    omega
  refine ⟨x.2, ?_, ?_⟩
  · rw [hx, ← hx1]
  · have := mapFind_map_of_get g.factors_ (fun it_f => Expression.Mul [it_f.2, Q])
      (by rw [hlevels]; exact (sorted_levels 1 L).nodup) (k - 1) x hx
    rw [← hx1]
    exact this

/-- C9: for a Phi-Factor group with factors declared at levels `1..L` and the
shared distribution `Q`, `PhiFactorModel::CalculateProb` returns the table with
exactly the keys `1..L` in which `P[k]` is the node `phi_k * Q`, of mean
`mean phi_k * mean Q`. -/
theorem phi_calculateProb (g : CcfGroup) (Q : Expression) (L : Nat)
    (hQ : g.distribution_ = some Q)
    (hlevels : g.factors_.map Prod.fst = (List.range L).map (fun i : Nat => (i : Int) + 1)) :
    PhiFactorModel.CalculateProb g (L : Int) [] =
      .ok (g.factors_.map (fun it_f => (it_f.1, Expression.Mul [it_f.2, Q]))) ∧
    (g.factors_.map (fun it_f => (it_f.1, Expression.Mul [it_f.2, Q]))).map Prod.fst =
      (List.range L).map (fun i : Nat => (i : Int) + 1) ∧
    ∀ k : Nat, 1 ≤ k → k ≤ L → ∃ phi, g.factors_.get? (k - 1) = some ((k : Int), phi) ∧
      mapFind (k : Int) (g.factors_.map (fun it_f => (it_f.1, Expression.Mul [it_f.2, Q]))) =
        some (Expression.Mul [phi, Q]) ∧
      (Expression.Mul [phi, Q]).Mean = phi.Mean * Q.Mean := by
  refine ⟨phi_table_eq g Q L hQ hlevels, phi_table_keys g Q L hlevels, ?_⟩
  intro k h1 h2
  obtain ⟨phi, hf, hm⟩ := phi_table_find g Q L hlevels k h1 h2
  exact ⟨phi, hf, hm, by simp [mean_mul]⟩

/-- C9 on a Phi-Factor group with the factors 0.5, 0.3 and 0.2. -/
theorem phi_calculateProb_witness :
    ∃ table, PhiFactorModel.CalculateProb scenarioPhi ((3 : Nat) : Int) [] = .ok table ∧
      table.map Prod.fst = [1, 2, 3] ∧
      ∀ k : Nat, 1 ≤ k → k ≤ 3 → ∃ phi, scenarioPhi.factors_.get? (k - 1) = some ((k : Int), phi) ∧
        mapFind (k : Int) table = some (Expression.Mul [phi, scenarioQ]) ∧
        (Expression.Mul [phi, scenarioQ]).Mean = phi.Mean * scenarioQ.Mean :=
  ⟨_, phi_calculateProb scenarioPhi scenarioQ 3 rfl (by decide)⟩

/-! ## Probability tables: MGL and Alpha-Factor (claims C6, C7) -/

theorem mult_eq (g : CcfGroup) (i : Nat) (hi : i + 1 ≤ g.members_.length) :
    g.mult i = .ok ((Nat.choose (g.members_.length - 1) i : Nat) : Int) := by
  unfold CcfGroup.mult Factorial
  have h1 : ¬ ((g.members_.length : Int) - 1 < 0) := by omega
  have h2 : ¬ ((g.members_.length : Int) - (i : Int) - 1 < 0) := by omega
  have h3 : ¬ ((i : Int) < 0) := by omega
  have e1 : ((g.members_.length : Int) - 1).toNat = g.members_.length - 1 := by omega
  have e2 : ((g.members_.length : Int) - (i : Int) - 1).toNat = g.members_.length - 1 - i := by
    omega
  simp only [h1, h2, h3, if_false, e1, e2, Int.toNat_ofNat]
  have hle : i ≤ g.members_.length - 1 := by omega
  rw [Nat.choose_eq_factorial_div_factorial hle, ← Int.ofNat_tdiv, ← Int.ofNat_tdiv,
    Nat.div_div_eq_div_mul, Nat.mul_comm]

theorem pushFactors_eq (g : CcfGroup) (count j : Nat) (args : List Expression)
    (h : j + count ≤ g.factors_.length) :
    g.pushFactors count j args =
      .ok (args ++ ((g.factors_.drop j).take count).map Prod.snd) := by
  induction count generalizing j args with
  | zero => simp [CcfGroup.pushFactors]
  | succ count ih =>
    unfold CcfGroup.pushFactors
    have hj : j < g.factors_.length := by omega
    rw [List.get?_eq_get hj]
    simp only
    rw [ih (j + 1) _ (by omega)]
    congr 1
    rw [List.append_assoc]
    congr 1
    rw [List.drop_eq_getElem_cons hj]
    simp only [List.take_succ_cons, List.map_cons, List.singleton_append, List.get_eq_getElem]

theorem mgl_probLoop_eq (g : CcfGroup) (Q : Expression) (L : Nat) (h1 : 1 ≤ L)
    (hn : L ≤ g.members_.length) (hf : g.factors_.length = L - 1)
    (hQ : g.distribution_ = some Q) (indices : List Nat) (hi : ∀ i ∈ indices, i < L)
    (probabilities : ProbMap) :
    MglModel.probLoop g (L : Int) indices probabilities =
      .ok (insertAll (indices.map (MglModel.entry g Q L)) probabilities) := by
  induction indices generalizing probabilities with
  | nil => simp [MglModel.probLoop, insertAll]
  | cons i rest ih =>
    have hiL : i < L := hi i (List.mem_cons_self _ _)
    unfold MglModel.probLoop
    rw [mult_eq g i (by omega)]
    simp only
    rw [pushFactors_eq g i 0 _ (by omega)]
    simp only [List.drop_zero, hQ]
    by_cases hlast : i + 1 < L
    · have hlt : i < g.factors_.length := by omega
      have hc : ((i : Int) < (L : Int) - 1) := by omega
      simp only [hc, if_true, List.get?_eq_get hlt]
      rw [ih (fun j hj => hi j (List.mem_cons_of_mem _ hj))]
      simp only [insertAll, List.map_cons, List.foldl_cons, MglModel.entry, hlast, if_true,
        List.drop_eq_getElem_cons hlt, List.take_succ_cons, List.take_zero, List.map_cons,
        List.map_nil, Int.cast_natCast, List.get_eq_getElem]
    · have hc : ¬ ((i : Int) < (L : Int) - 1) := by omega
      simp only [hc, if_false]
      rw [ih (fun j hj => hi j (List.mem_cons_of_mem _ hj))]
      simp only [insertAll, List.map_cons, List.foldl_cons, MglModel.entry, hlast, if_false,
        List.append_nil, Int.cast_natCast]

theorem mgl_table_keys (g : CcfGroup) (Q : Expression) (L : Nat) :
    ((List.range L).map (MglModel.entry g Q L)).map Prod.fst =
      (List.range L).map (fun i : Nat => (i : Int) + 1) := by
  simp [MglModel.entry, Function.comp]

theorem mgl_table_eq (g : CcfGroup) (Q : Expression) (L : Nat) (h1 : 1 ≤ L)
    (hn : L ≤ g.members_.length) (hf : g.factors_.length = L - 1)
    (hQ : g.distribution_ = some Q) :
    MglModel.CalculateProb g (L : Int) [] = .ok ((List.range L).map (MglModel.entry g Q L)) := by
  unfold MglModel.CalculateProb
  have hfl : ¬ ((g.factors_.length : Int) ≠ (L : Int) - 1) := by omega
  simp only [hfl, if_false, Int.toNat_ofNat]
  rw [mgl_probLoop_eq g Q L h1 hn hf hQ _ (fun i hi => List.mem_range.mp hi),
    insertAll_sorted _ [] (by
      rw [List.nil_append, mgl_table_keys]; exact sorted_levels 1 L)]
  simp

theorem mapFind_entry (entry : Nat → Int × Expression) (hkey : ∀ i, (entry i).1 = (i : Int) + 1)
    (L i : Nat) (hi : i < L) :
    mapFind ((i : Int) + 1) ((List.range L).map entry) = some (entry i).2 := by
  apply mapFind_eq_some_of_mem
  · have : ((List.range L).map entry).map Prod.fst =
        (List.range L).map (fun i : Nat => (i : Int) + 1) := by
      simp [Function.comp, hkey]
    rw [this]
    exact (sorted_levels 1 L).nodup
  · rw [List.mem_map]
    exact ⟨i, List.mem_range.mpr hi, by rw [← hkey i]⟩

theorem mgl_entry_mean (g : CcfGroup) (Q : Expression) (L i : Nat)
    (hf : g.factors_.length = L - 1) :
    (MglModel.entry g Q L i).2.Mean =
      1 / (Nat.choose (g.members_.length - 1) i : ℚ) *
        ((g.factors_.take i).map (fun f => f.2.Mean)).prod *
        (if i + 1 < L then 1 - (g.factors_.map (fun f => f.2.Mean)).getD i 0 else 1) *
        Q.Mean := by
  unfold MglModel.entry
  rw [mean_mul, show (fun f : Int × Expression => f.2.Mean) = Expression.Mean ∘ Prod.snd from rfl]
  by_cases hlast : i + 1 < L
  · have hlt : i < g.factors_.length := by omega
    simp only [hlast, if_true, List.drop_eq_getElem_cons hlt, List.take_succ_cons, List.take_zero,
      List.map_cons, List.map_nil, List.map_append, List.prod_append, List.prod_cons,
      List.prod_nil, mean_one_minus, List.map_map]
    simp [Expression.Mean, List.getD_eq_getElem?_getD, hlt]
  · simp only [hlast, if_false, List.map_cons, List.map_nil, List.map_append, List.prod_append,
      List.prod_cons, List.prod_nil, List.map_map]
    simp [Expression.Mean]

/-- C6: for an MGL group with `n` members, maximum level `L` with `2 ≤ L ≤ n`,
`L - 1` factors and the shared distribution `Q`, `MglModel::CalculateProb`
returns a table with exactly the keys `1..L`, and for every `i < L` the mean of
`P[i+1]` is `(1 / C(n-1, i)) * (product of the means of the first i factors) *
(1 - mean of factor i if i < L - 1, else 1) * mean Q`. -/
theorem mgl_calculateProb (g : CcfGroup) (Q : Expression) (L : Nat) (h2 : 2 ≤ L)
    (hn : L ≤ g.members_.length) (hf : g.factors_.length = L - 1)
    (hQ : g.distribution_ = some Q) :
    ∃ table, MglModel.CalculateProb g (L : Int) [] = .ok table ∧
      table.map Prod.fst = (List.range L).map (fun i : Nat => (i : Int) + 1) ∧
      ∀ i : Nat, i < L → ∃ p, mapFind ((i : Int) + 1) table = some p ∧
        p.Mean =
          1 / (Nat.choose (g.members_.length - 1) i : ℚ) *
            ((g.factors_.take i).map (fun f => f.2.Mean)).prod *
            (if i + 1 < L then 1 - (g.factors_.map (fun f => f.2.Mean)).getD i 0 else 1) *
            Q.Mean := by
  refine ⟨_, mgl_table_eq g Q L (by omega) hn hf hQ, mgl_table_keys g Q L, ?_⟩
  intro i hi
  exact ⟨_, mapFind_entry (MglModel.entry g Q L) (fun _ => rfl) L i hi,
    mgl_entry_mean g Q L i hf⟩

/-- C6 on scenario S2: the table has the means 0.009, 0.0004 and 0.0002. -/
theorem mgl_calculateProb_witness :
    ∃ table p1 p2 p3, MglModel.CalculateProb scenarioMgl ((3 : Nat) : Int) [] = .ok table ∧
      table.map Prod.fst = [1, 2, 3] ∧
      mapFind 1 table = some p1 ∧ p1.Mean = 9 / 1000 ∧
      mapFind 2 table = some p2 ∧ p2.Mean = 4 / 10000 ∧
      mapFind 3 table = some p3 ∧ p3.Mean = 2 / 10000 := by
  obtain ⟨table, hok, hkeys, hall⟩ :=
    mgl_calculateProb scenarioMgl scenarioQ 3 (by decide) (by decide) (by decide) rfl
  obtain ⟨p1, f1, m1⟩ := hall 0 (by decide)
  obtain ⟨p2, f2, m2⟩ := hall 1 (by decide)
  obtain ⟨p3, f3, m3⟩ := hall 2 (by decide)
  refine ⟨table, p1, p2, p3, hok, hkeys, f1, ?_, f2, ?_, f3, ?_⟩
  · rw [m1]
    norm_num [scenarioMgl, scenarioGroup, scenarioQ, Expression.Mean, Nat.choose]
  · rw [m2]
    norm_num [scenarioMgl, scenarioGroup, scenarioQ, Expression.Mean, Nat.choose]
  · rw [m3]
    norm_num [scenarioMgl, scenarioGroup, scenarioQ, Expression.Mean, Nat.choose]

theorem alpha_probLoop_eq (g : CcfGroup) (Q : Expression) (hQ : g.distribution_ = some Q)
    (indices : List Nat)
    (hi : ∀ i ∈ indices, i < g.factors_.length ∧ i + 1 ≤ g.members_.length)
    (probabilities : ProbMap) :
    AlphaFactorModel.probLoop g (Expression.Add (g.factors_.map (fun it_f => it_f.2))) indices
        probabilities =
      .ok (insertAll
        (indices.map (fun i =>
          AlphaFactorModel.entry g Q
            (((g.factors_.drop i).head?.map Prod.snd).getD Q) i))
        probabilities) := by
  induction indices generalizing probabilities with
  | nil => simp [AlphaFactorModel.probLoop, insertAll]
  | cons i rest ih =>
    obtain ⟨hlt, hmem⟩ := hi i (List.mem_cons_self _ _)
    unfold AlphaFactorModel.probLoop
    rw [mult_eq g i hmem]
    simp only [List.get?_eq_get hlt, hQ]
    rw [ih (fun j hj => hi j (List.mem_cons_of_mem _ hj))]
    simp only [insertAll, List.map_cons, List.foldl_cons, AlphaFactorModel.entry,
      List.drop_eq_getElem_cons hlt, List.head?_cons, Option.map_some', Option.getD_some,
      Int.cast_natCast, List.get_eq_getElem]

theorem alpha_table_keys (g : CcfGroup) (Q : Expression) (L : Nat) :
    ((List.range L).map (fun i =>
      AlphaFactorModel.entry g Q (((g.factors_.drop i).head?.map Prod.snd).getD Q) i)).map
      Prod.fst = (List.range L).map (fun i : Nat => (i : Int) + 1) := by
  simp [AlphaFactorModel.entry, Function.comp]

theorem alpha_table_eq (g : CcfGroup) (Q : Expression) (L : Nat)
    (hn : L ≤ g.members_.length) (hf : g.factors_.length = L)
    (hQ : g.distribution_ = some Q) :
    AlphaFactorModel.CalculateProb g (L : Int) [] =
      .ok ((List.range L).map (fun i =>
        AlphaFactorModel.entry g Q (((g.factors_.drop i).head?.map Prod.snd).getD Q) i)) := by
  unfold AlphaFactorModel.CalculateProb
  have hfl : ¬ ((g.factors_.length : Int) ≠ (L : Int)) := by omega
  simp only [hfl, if_false, List.isEmpty_nil, Bool.false_eq_true, not_false_eq_true,
    not_true_eq_false, Int.toNat_ofNat]
  rw [alpha_probLoop_eq g Q hQ _ (fun i hi => by
      have := List.mem_range.mp hi
      omega),
    insertAll_sorted _ [] (by
      rw [List.nil_append, alpha_table_keys]; exact sorted_levels 1 L)]
  simp

/-- C7: for an Alpha-Factor group with `n` members, `L ≤ n` factors with a
non-zero sum of means and the shared distribution `Q`,
`AlphaFactorModel::CalculateProb` returns a table with exactly the keys `1..L`,
and for every `i < L` the mean of `P[i+1]` is
`(1 / C(n-1, i)) * (mean of factor i / sum of the means of all factors) * mean Q`. -/
theorem alpha_calculateProb (g : CcfGroup) (Q : Expression) (L : Nat)
    (hn : L ≤ g.members_.length) (hf : g.factors_.length = L)
    (hQ : g.distribution_ = some Q)
    (_hsum : (g.factors_.map (fun f => f.2.Mean)).sum ≠ 0) :
    ∃ table, AlphaFactorModel.CalculateProb g (L : Int) [] = .ok table ∧
      table.map Prod.fst = (List.range L).map (fun i : Nat => (i : Int) + 1) ∧
      ∀ i : Nat, i < L → ∃ p, mapFind ((i : Int) + 1) table = some p ∧
        p.Mean =
          1 / (Nat.choose (g.members_.length - 1) i : ℚ) *
            ((g.factors_.map (fun f => f.2.Mean)).getD i 0 /
              (g.factors_.map (fun f => f.2.Mean)).sum) *
            Q.Mean := by
  refine ⟨_, alpha_table_eq g Q L hn hf hQ, alpha_table_keys g Q L, ?_⟩
  intro i hi
  have hlt : i < g.factors_.length := by omega
  refine ⟨_, mapFind_entry _ (fun _ => rfl) L i hi, ?_⟩
  rw [show (fun f : Int × Expression => f.2.Mean) =
    Expression.Mean ∘ (fun it_f : Int × Expression => it_f.2) from rfl]
  simp only [AlphaFactorModel.entry, mean_mul, mean_div, mean_add, List.map_cons, List.map_nil,
    List.prod_cons, List.prod_nil, List.drop_eq_getElem_cons hlt, List.head?_cons,
    Option.map_some', Option.getD_some, List.map_map, mul_one]
  simp [Expression.Mean, List.getD_eq_getElem?_getD, hlt, mul_assoc]

/-- C7 on scenario S3: the table has the means 0.0095, 0.00015 and 0.0002. -/
theorem alpha_calculateProb_witness :
    ∃ table p1 p2 p3, AlphaFactorModel.CalculateProb scenarioAlpha ((3 : Nat) : Int) [] =
        .ok table ∧
      table.map Prod.fst = [1, 2, 3] ∧
      mapFind 1 table = some p1 ∧ p1.Mean = 95 / 10000 ∧
      mapFind 2 table = some p2 ∧ p2.Mean = 15 / 100000 ∧
      mapFind 3 table = some p3 ∧ p3.Mean = 2 / 10000 := by
  obtain ⟨table, hok, hkeys, hall⟩ :=
    alpha_calculateProb scenarioAlpha scenarioQ 3 (by decide) (by decide) rfl
      (by norm_num [scenarioAlpha, scenarioGroup, Expression.Mean])
  obtain ⟨p1, f1, m1⟩ := hall 0 (by decide)
  obtain ⟨p2, f2, m2⟩ := hall 1 (by decide)
  obtain ⟨p3, f3, m3⟩ := hall 2 (by decide)
  refine ⟨table, p1, p2, p3, hok, hkeys, f1, ?_, f2, ?_, f3, ?_⟩
  · rw [m1]
    norm_num [scenarioAlpha, scenarioGroup, scenarioQ, Expression.Mean, Nat.choose]
  · rw [m2]
    norm_num [scenarioAlpha, scenarioGroup, scenarioQ, Expression.Mean, Nat.choose]
  · rw [m3]
    norm_num [scenarioAlpha, scenarioGroup, scenarioQ, Expression.Mean, Nat.choose]

/-! ## The expression of every new event (claim C5) -/

theorem mul_ne_of_mem (Q : Expression) (args : List Expression) (h : Q ∈ args) :
    Expression.Mul args ≠ Q := by
  intro e
  have h1 : sizeOf Q < sizeOf args := List.sizeOf_lt_of_mem h
  have h2 : sizeOf (Expression.Mul args) = 1 + sizeOf args := by simp
  rw [e] at h2
  omega

theorem mgl_probLoop_values (g : CcfGroup) (max_level : Int) (indices : List Nat)
    (probabilities table : ProbMap)
    (h : MglModel.probLoop g max_level indices probabilities = .ok table) :
    ∀ p ∈ table, p ∈ probabilities ∨ IsProductWithQ g p.2 := by
  induction indices generalizing probabilities with
  | nil =>
    simp only [MglModel.probLoop] at h
    cases h
    exact fun p hp => Or.inl hp
  | cons i rest ih =>
    unfold MglModel.probLoop at h
    cases hm : g.mult i with
    | error e => simp [hm] at h
    | ok mult =>
      simp only [hm] at h
      cases hp : g.pushFactors i 0 [Expression.ConstantExpression (1 / (mult : ℚ))] with
      | error e => rw [hp] at h; cases h
      | ok args =>
        simp only [hp] at h
        split at h
        · cases h
        · cases h
        · rename_i args' Q hlast hQ
          intro p hpm
          rcases ih _ h p hpm with hin | hprod
          · rcases mem_mapInsert _ _ _ _ hin with e | e
            · right
              rw [e]
              exact ⟨Q, _, hQ, rfl, by simp⟩
            · exact Or.inl e
          · exact Or.inr hprod

theorem alpha_probLoop_values (g : CcfGroup) (sum : Expression) (indices : List Nat)
    (probabilities table : ProbMap)
    (h : AlphaFactorModel.probLoop g sum indices probabilities = .ok table) :
    ∀ p ∈ table, p ∈ probabilities ∨ IsProductWithQ g p.2 := by
  induction indices generalizing probabilities with
  | nil =>
    simp only [AlphaFactorModel.probLoop] at h
    cases h
    exact fun p hp => Or.inl hp
  | cons i rest ih =>
    unfold AlphaFactorModel.probLoop at h
    cases hm : g.mult i with
    | error e => simp [hm] at h
    | ok mult =>
      simp only [hm] at h
      split at h
      · cases h
      · cases h
      · rename_i f Q hf hQ
        intro p hpm
        rcases ih _ h p hpm with hin | hprod
        · rcases mem_mapInsert _ _ _ _ hin with e | e
          · right
            rw [e]
            exact ⟨Q, _, hQ, rfl, by simp⟩
          · exact Or.inl e
        · exact Or.inr hprod

theorem phi_probLoop_values (g : CcfGroup) (factors : List (Int × Expression))
    (probabilities table : ProbMap)
    (h : PhiFactorModel.probLoop g factors probabilities = .ok table) :
    ∀ p ∈ table, p ∈ probabilities ∨ IsProductWithQ g p.2 := by
  induction factors generalizing probabilities with
  | nil =>
    simp only [PhiFactorModel.probLoop] at h
    cases h
    exact fun p hp => Or.inl hp
  | cons f rest ih =>
    unfold PhiFactorModel.probLoop at h
    cases hQ : g.distribution_ with
    | none => simp [hQ] at h
    | some Q =>
      simp only [hQ] at h
      intro p hpm
      rcases ih _ h p hpm with hin | hprod
      · rcases mem_mapInsert _ _ _ _ hin with e | e
        · right
          rw [e]
          exact ⟨Q, _, hQ, rfl, by simp⟩
        · exact Or.inl e
      · exact Or.inr hprod

/-- Every entry of the table of `CalculateProb`, for any model, is a new product
node with the shared distribution among its arguments. -/
theorem calculateProb_values (g : CcfGroup) (max_level : Int) (table : ProbMap)
    (h : g.CalculateProb max_level [] = .ok table) : ∀ p ∈ table, IsProductWithQ g p.2 := by
  have hnil : ∀ p : Int × Expression, p ∈ ([] : ProbMap) ∨ IsProductWithQ g p.2 →
      IsProductWithQ g p.2 := by
    rintro p (hp | hp)
    · cases hp
    · exact hp
  unfold CcfGroup.CalculateProb at h
  cases hk : g.kind with
  | BetaFactorModel =>
    simp only [hk] at h
    unfold BetaFactorModel.CalculateProb at h
    split_ifs at h
    split at h
    · cases h
    · cases h
    · rename_i f Q hf hQ
      cases h
      intro p hp
      rcases mem_mapInsert _ _ _ _ hp with e | e
      · rw [e]; exact ⟨Q, _, hQ, rfl, by simp⟩
      · rcases mem_mapInsert _ _ _ _ e with e' | e'
        · rw [e']; exact ⟨Q, _, hQ, rfl, by simp⟩
        · cases e'
  | MglModel =>
    simp only [hk] at h
    unfold MglModel.CalculateProb at h
    split_ifs at h
    cases hl : MglModel.probLoop g max_level (List.range max_level.toNat) [] with
    | error e => simp [hl] at h
    | ok t =>
      simp only [hl] at h
      split_ifs at h
      cases h
      exact fun p hp => hnil p (mgl_probLoop_values g max_level _ [] _ hl p hp)
  | AlphaFactorModel =>
    simp only [hk] at h
    unfold AlphaFactorModel.CalculateProb at h
    split_ifs at h
    cases hl : AlphaFactorModel.probLoop g (Expression.Add (g.factors_.map (fun it_f => it_f.2)))
        (List.range max_level.toNat) [] with
    | error e => simp [hl] at h
    | ok t =>
      simp only [hl] at h
      split_ifs at h
      cases h
      exact fun p hp => hnil p (alpha_probLoop_values g _ _ [] _ hl p hp)
  | PhiFactorModel =>
    simp only [hk] at h
    unfold PhiFactorModel.CalculateProb at h
    split_ifs at h
    cases hl : PhiFactorModel.probLoop g g.factors_ [] with
    | error e => simp [hl] at h
    | ok t =>
      simp only [hl] at h
      split_ifs at h
      cases h
      exact fun p hp => hnil p (phi_probLoop_values g _ [] _ hl p hp)

/-- A newly created CCF event has no expression yet. -/
theorem specEvents_expression (alloc : Nat → Nat) (g : CcfGroup) (i : Nat)
    (its : List (List Str)) : ∀ e ∈ g.specEvents alloc i its, e.2.1.expression = none := by
  induction its generalizing i with
  | nil => intro e he; cases he
  | cons x rest ih =>
    intro e he
    simp only [CcfGroup.specEvents, List.mem_cons] at he
    rcases he with rfl | he
    · rfl
    · exact ih (i + 1) e he

/-- C5: after `ApplyModel` has returned, `new_events` holds exactly the events that
`ConstructCcfBasicEvents` created, at least one; every created event, which has
no expression when it is created, with the set `S` has as its expression the
entry `P[|S|]` of the table that the group's `CalculateProb` computed for the
maximum level, so events of equal size share one entry, and that entry is never
the distribution of the group. -/
theorem applyModel_event_expressions (alloc : Nat → Nat) (halloc : Function.Injective alloc)
    (g : CcfGroup) (hkeys : g.keys.Sorted (· < ·)) (r : Applied)
    (h : g.ApplyModel alloc = .ok r) :
    ∃ (L : Nat) (evs : EventMap),
      g.factors_.getLast?.map Prod.fst = some (L : Int) ∧
      g.CalculateProb (L : Int) [] = .ok r.probabilities ∧
      g.ConstructCcfBasicEvents alloc (L : Int) [] = .ok evs ∧
      evs ≠ [] ∧
      r.new_events = evs.map (assignExpression r.probabilities) ∧
      (∀ e ∈ evs, e.2.1.expression = none ∧ ∃ prob,
        mapFind (e.2.2.length : Int) r.probabilities = some prob ∧
        (assignExpression r.probabilities e).2.1.expression = some prob ∧
        some prob ≠ g.distribution_) ∧
      (∀ e ∈ r.new_events, ∃ prob,
        mapFind (e.2.2.length : Int) r.probabilities = some prob ∧
        e.2.1.expression = some prob ∧ some prob ≠ g.distribution_) ∧
      (∀ e1 ∈ r.new_events, ∀ e2 ∈ r.new_events, e1.2.2.length = e2.2.2.length →
        e1.2.1.expression = e2.2.1.expression) := by
  obtain ⟨back, L, evs, hback, hL, _, _, hprob, hevs, _, hperm, hnew, hsome, _, _⟩ :=
    applyModel_inv alloc halloc g hkeys r h
  have hcreated : ∀ e ∈ evs, ∃ prob,
      mapFind (e.2.2.length : Int) r.probabilities = some prob ∧
      (assignExpression r.probabilities e).2.1.expression = some prob ∧
      some prob ≠ g.distribution_ := by
    intro e0 he0
    obtain ⟨prob, hp⟩ := Option.isSome_iff_exists.mp (hsome e0 he0)
    refine ⟨prob, hp, hp, ?_⟩
    obtain ⟨Q, args, hQ, hmul, hmem⟩ :=
      calculateProb_values g _ _ hprob _ (mem_of_mapFind_eq_some _ _ _ hp)
    rw [hQ]
    intro e
    simp only [Option.some.injEq] at e
    exact mul_ne_of_mem Q args hmem (hmul ▸ e)
  refine ⟨L, evs, by simp [hback, hL], hprob, hevs,
    applyModel_events_ne_nil alloc g r h back hback evs (by rw [hL]; exact hevs), hnew,
    ?_, ?_, ?_⟩
  · intro e he
    exact ⟨specEvents_expression alloc g 0 _ e (List.mem_filter.mp (hperm.subset he)).1,
      hcreated e he⟩
  · intro e he
    rw [hnew] at he
    obtain ⟨e0, he0, rfl⟩ := List.mem_map.mp he
    exact hcreated e0 he0
  · intro e1 he1 e2 he2 hlen
    rw [hnew] at he1 he2
    obtain ⟨a, _, rfl⟩ := List.mem_map.mp he1
    obtain ⟨b, _, rfl⟩ := List.mem_map.mp he2
    simp only [assignExpression] at hlen ⊢
    rw [hlen]

/-- C5 on the Alpha-Factor group of scenario S3, where `ApplyModel` returns: seven
events are created, and each of the seven events of `new_events` has an
expression. -/
theorem applyModel_event_expressions_witness :
    ∃ r, scenarioAlpha.ApplyModel id = .ok r ∧
      r.new_events.length = 7 ∧
      (∀ e ∈ r.new_events, e.2.1.expression.isSome = true) ∧
      ∃ (L : Nat) (evs : EventMap),
        scenarioAlpha.factors_.getLast?.map Prod.fst = some (L : Int) ∧
        scenarioAlpha.CalculateProb (L : Int) [] = .ok r.probabilities ∧
        scenarioAlpha.ConstructCcfBasicEvents id (L : Int) [] = .ok evs ∧
        evs ≠ [] ∧
        r.new_events = evs.map (assignExpression r.probabilities) ∧
        (∀ e ∈ evs, e.2.1.expression = none ∧ ∃ prob,
          mapFind (e.2.2.length : Int) r.probabilities = some prob ∧
          (assignExpression r.probabilities e).2.1.expression = some prob ∧
          some prob ≠ scenarioAlpha.distribution_) ∧
        (∀ e ∈ r.new_events, ∃ prob,
          mapFind (e.2.2.length : Int) r.probabilities = some prob ∧
          e.2.1.expression = some prob ∧ some prob ≠ scenarioAlpha.distribution_) ∧
        (∀ e1 ∈ r.new_events, ∀ e2 ∈ r.new_events, e1.2.2.length = e2.2.2.length →
          e1.2.1.expression = e2.2.1.expression) := by
  obtain ⟨r, hr⟩ := exists_of_isOk (scenarioAlpha.ApplyModel id) (by decide)
  have hthm := applyModel_event_expressions id Function.injective_id scenarioAlpha (by decide)
    r hr
  obtain ⟨L, evs, hL, hprob, hevs, hne, hnew, hcreated, hall, hshare⟩ := hthm
  have hL3 : L = 3 := by
    have : (some (3 : Int)) = some (L : Int) := hL
    simp only [Option.some.injEq] at this
    omega
  subst hL3
  have hcount : ∀ evs : EventMap, scenarioAlpha.ConstructCcfBasicEvents id 3 [] = .ok evs →
      evs.length = 7 := by
    have hdec : (match scenarioAlpha.ConstructCcfBasicEvents id 3 [] with
        | .ok evs => decide (evs.length = 7)
        | .error _ => false) = true := by decide
    intro evs he
    rw [he] at hdec
    exact of_decide_eq_true hdec
  have h7 := hcount evs hevs
  refine ⟨r, hr, by rw [hnew, List.length_map, h7], ?_, 3, evs, hL, hprob, hevs, hne, hnew,
    hcreated, hall, hshare⟩
  intro e he
  obtain ⟨prob, _, hp, _⟩ := hall e he
  rw [hp]
  rfl

/-! ## Event names do not depend on the order of `AddMember` (claim C10) -/

theorem addMembers_eq (g : CcfGroup) (hopen : g.distribution_ = none) (l : List BasicEvent)
    (hnd : (g.keys ++ l.map (fun e => to_lower e.name)).Nodup) :
    g.addMembers l =
      .ok { g with members_ :=
              insertAll (l.map (fun e => (to_lower e.name, e))) g.members_ } := by
  induction l generalizing g with
  | nil => simp [CcfGroup.addMembers, insertAll]
  | cons e rest ih =>
    have hk : to_lower e.name ∉ g.members_.map Prod.fst := by
      intro hm
      exact (List.nodup_append.mp hnd).2.2 hm (by simp)
    have hfind : (mapFind (to_lower e.name) g.members_).isSome = false := by
      cases hf : (mapFind (to_lower e.name) g.members_).isSome with
      | false => rfl
      | true => exact absurd ((mapFind_isSome _ _).mp hf) hk
    have hadd : g.AddMember e =
        .ok { g with members_ := mapInsert (to_lower e.name) e g.members_ } := by
      unfold CcfGroup.AddMember
      simp only [hopen, Option.isSome_none, Bool.false_eq_true, if_false, hfind]
    have hnd' : (({ g with members_ := mapInsert (to_lower e.name) e g.members_ } : CcfGroup).keys
        ++ rest.map (fun e => to_lower e.name)).Nodup := by
      simp only [CcfGroup.keys]
      rw [keys_mapInsert]
      refine (List.Perm.nodup_iff ?_).mpr hnd
      refine ((perm_setInsert _ _ hk).append_right _).trans ?_
      simp only [List.map_cons, List.cons_append, CcfGroup.keys]
      exact List.perm_middle.symm
    unfold CcfGroup.addMembers
    rw [hadd]
    simp only
    rw [ih { g with members_ := mapInsert (to_lower e.name) e g.members_ } hopen hnd']
    simp [insertAll]

theorem eq_of_perm_of_sorted_keys {κ β : Type} [LinearOrder κ] (a b : List (κ × β))
    (hp : a.Perm b) (ha : (a.map Prod.fst).Sorted (· < ·))
    (hb : (b.map Prod.fst).Sorted (· < ·)) : a = b := by
  haveI : IsAntisymm (κ × β) (fun x y => x.1 < y.1) :=
    ⟨fun x y h1 h2 => absurd h1 (lt_asymm h2)⟩
  exact List.eq_of_perm_of_sorted hp (List.pairwise_map.mp ha) (List.pairwise_map.mp hb)

theorem insertAll_perm_eq {κ β : Type} [LinearOrder κ] (l1 l2 m : List (κ × β))
    (hp : l1.Perm l2) (hm : (m.map Prod.fst).Sorted (· < ·))
    (hnd : (m.map Prod.fst ++ l1.map Prod.fst).Nodup) : insertAll l1 m = insertAll l2 m := by
  have hnd2 : (m.map Prod.fst ++ l2.map Prod.fst).Nodup :=
    (List.Perm.nodup_iff ((hp.map Prod.fst).append_left _)).mp hnd
  apply eq_of_perm_of_sorted_keys
  · exact (perm_insertAll l1 m hnd).trans
      ((hp.append_left m).trans (perm_insertAll l2 m hnd2).symm)
  · exact sorted_keys_insertAll l1 m hm
  · exact sorted_keys_insertAll l2 m hm

/-- C10: when the members of a new group are added with `AddMember` in either of
two orders, the same group results; its member map is keyed by the lowercase
names in ascending order, and every CCF event that `ConstructCcfBasicEvents`
creates for a set `S` of keys is named `[`, the case-preserved names of the
members of `S` in ascending order of their keys joined by single spaces, `]`. -/
theorem ccf_event_names (alloc : Nat → Nat) (halloc : Function.Injective alloc)
    (g0 : CcfGroup) (hempty : g0.members_ = []) (hopen : g0.distribution_ = none)
    (l1 l2 : List BasicEvent) (hperm : l1.Perm l2)
    (hnd : (l1.map (fun e => to_lower e.name)).Nodup) :
    ∃ g, g0.addMembers l1 = .ok g ∧ g0.addMembers l2 = .ok g ∧
      g.keys.Sorted (· < ·) ∧
      (∀ k m, (k, m) ∈ g.members_ ↔ (m ∈ l1 ∧ k = to_lower m.name)) ∧
      ∀ (max_level : Int) (new_events : EventMap),
        g.ConstructCcfBasicEvents alloc max_level [] = .ok new_events →
        ∀ e ∈ new_events,
          e.2.2.Sorted (· < ·) ∧
          (∀ k ∈ e.2.2, ∃ m, (k, m) ∈ g.members_ ∧ g.displayName k = m.name) ∧
          e.2.1.name =
            "[".toList ++ List.intercalate " ".toList (e.2.2.map g.displayName) ++
              "]".toList := by
  have hkeys0 : g0.keys = [] := by simp [CcfGroup.keys, hempty]
  have hnd1 : (g0.keys ++ l1.map (fun e => to_lower e.name)).Nodup := by
    rw [hkeys0]; simpa using hnd
  have hnd2 : (g0.keys ++ l2.map (fun e => to_lower e.name)).Nodup :=
    (List.Perm.nodup_iff ((hperm.map _).append_left _)).mp hnd1
  have hentries : ((g0.members_.map Prod.fst) ++
      (l1.map (fun e => (to_lower e.name, e))).map Prod.fst).Nodup := by
    simpa [CcfGroup.keys, Function.comp] using hnd1
  have hsorted0 : (g0.members_.map Prod.fst).Sorted (· < ·) := by
    rw [hempty]; exact List.sorted_nil
  have hsame : insertAll (l1.map (fun e => (to_lower e.name, e))) g0.members_ =
      insertAll (l2.map (fun e => (to_lower e.name, e))) g0.members_ :=
    insertAll_perm_eq _ _ _ (hperm.map _) hsorted0 hentries
  have hgkeys : (CcfGroup.keys
      { g0 with
        members_ := insertAll (l1.map (fun e => (to_lower e.name, e))) g0.members_ }).Sorted
      (· < ·) := sorted_keys_insertAll _ _ hsorted0
  refine ⟨{ g0 with members_ := insertAll (l1.map (fun e => (to_lower e.name, e))) g0.members_ },
    addMembers_eq g0 hopen l1 hnd1, ?_, hgkeys, ?_, ?_⟩
  · rw [addMembers_eq g0 hopen l2 hnd2, hsame]
  · intro k m
    have hp := perm_insertAll (l1.map (fun e => (to_lower e.name, e))) g0.members_ hentries
    rw [hempty, List.nil_append] at hp
    simp only
    rw [hempty, hp.mem_iff, List.mem_map]
    constructor
    · rintro ⟨e, he, heq⟩
      cases heq
      exact ⟨he, rfl⟩
    · rintro ⟨hm, rfl⟩
      exact ⟨m, hm, rfl⟩
  · intro max_level new_events hc e he
    obtain ⟨L, _, _, _, _, hp⟩ := construct_inv alloc halloc _ max_level new_events hc
    have hmem := (List.mem_filter.mp (hp.subset he)).1
    have hset : e.2.2 ∈ _ := List.mem_map_of_mem (fun e => e.2.2) hmem
    rw [specEvents_sets] at hset
    obtain ⟨k, _, _, hs, _, hsub⟩ := (mem_allLevels _ L _).mp hset
    refine ⟨hs, ?_, (specEvents_fields alloc _ 0 _ e hmem).1⟩
    intro x hx
    obtain ⟨it_m, hm, rfl⟩ := List.mem_map.mp (hsub x hx)
    exact ⟨it_m.2, hm, displayName_of_mem _ hgkeys it_m hm⟩

/-- C10 on three members added in two orders: the keys are the lowercase names in ascending
order whatever the order of the calls. -/
theorem ccf_event_names_witness :
    ∃ g,
      scenarioOpen.addMembers
          [scenarioEvent "PumpOne".toList, scenarioEvent "pumpTwo".toList,
           scenarioEvent "ValveOne".toList] = .ok g ∧
      scenarioOpen.addMembers
          [scenarioEvent "pumpTwo".toList, scenarioEvent "PumpOne".toList,
           scenarioEvent "ValveOne".toList] = .ok g ∧
      g.keys = ["pumpone".toList, "pumptwo".toList, "valveone".toList] ∧
      ∀ (max_level : Int) (new_events : EventMap),
        g.ConstructCcfBasicEvents id max_level [] = .ok new_events →
        ∀ e ∈ new_events,
          e.2.1.name =
            "[".toList ++ List.intercalate " ".toList (e.2.2.map g.displayName) ++
              "]".toList := by
  obtain ⟨g, h1, h2, _, _, h5⟩ := ccf_event_names id Function.injective_id scenarioOpen rfl rfl
    [scenarioEvent "PumpOne".toList, scenarioEvent "pumpTwo".toList,
     scenarioEvent "ValveOne".toList]
    [scenarioEvent "pumpTwo".toList, scenarioEvent "PumpOne".toList,
     scenarioEvent "ValveOne".toList]
    (List.Perm.swap _ _ _) (by decide)
  have hg : scenarioOpen.addMembers
      [scenarioEvent "PumpOne".toList, scenarioEvent "pumpTwo".toList,
       scenarioEvent "ValveOne".toList] =
      .ok { scenarioOpen with
            members_ :=
              [("pumpone".toList, scenarioEvent "PumpOne".toList),
               ("pumptwo".toList, scenarioEvent "pumpTwo".toList),
               ("valveone".toList, scenarioEvent "ValveOne".toList)] } := by rfl
  rw [hg] at h1
  cases h1
  exact ⟨_, hg, h2, rfl, fun max_level new_events hc e he => (h5 max_level new_events hc e he).2.2⟩

/-! ## `ApplyModel` returns normally -/

theorem addToParents_ok (new_event : CcfEvent) (its : List Str) (gates : GateMap)
    (h : ∀ k ∈ its, k ∈ gates.map Prod.fst) :
    ∃ gates', addToParents new_event its gates = .ok gates' ∧
      gates'.map Prod.fst = gates.map Prod.fst := by
  induction its generalizing gates with
  | nil => exact ⟨gates, rfl, rfl⟩
  | cons it_l rest ih =>
    have hk := (mapFind_isSome it_l gates).mpr (h it_l (List.mem_cons_self _ _))
    obtain ⟨gate, hg⟩ := Option.isSome_iff_exists.mp hk
    unfold addToParents
    simp only [hg]
    obtain ⟨gates', h1, h2⟩ := ih
      (mapModify it_l (fun gate => { gate with formula := gate.formula.AddArgument new_event })
        gates)
      (fun k hk' => by rw [keys_mapModify]; exact h k (List.mem_cons_of_mem _ hk'))
    exact ⟨gates', h1, by rw [h2, keys_mapModify]⟩

theorem assignEvents_ok (probabilities : ProbMap) (evs : EventMap) (gates : GateMap)
    (hp : ∀ e ∈ evs, (mapFind (e.2.2.length : Int) probabilities).isSome)
    (hg : ∀ e ∈ evs, ∀ k ∈ e.2.2, k ∈ gates.map Prod.fst) :
    ∃ res, assignEvents probabilities evs gates = .ok res ∧
      res.2.map Prod.fst = gates.map Prod.fst := by
  induction evs generalizing gates with
  | nil => exact ⟨([], gates), rfl, rfl⟩
  | cons it rest ih =>
    obtain ⟨prob, hprob⟩ := Option.isSome_iff_exists.mp (hp it (List.mem_cons_self _ _))
    obtain ⟨gates1, h1, hk1⟩ := addToParents_ok { it.2.1 with expression := some prob } it.2.2
      gates (hg it (List.mem_cons_self _ _))
    obtain ⟨res, h2, hk2⟩ := ih gates1
      (fun e he => hp e (List.mem_cons_of_mem _ he))
      (fun e he k hk => by rw [hk1]; exact hg e (List.mem_cons_of_mem _ he) k hk)
    unfold assignEvents
    simp only [hprob, h1, h2]
    exact ⟨_, rfl, by rw [hk2, hk1]⟩

theorem keys_makeGates (g : CcfGroup) (hkeys : g.keys.Sorted (· < ·)) :
    ∀ k ∈ g.keys, k ∈ (g.makeGates g.members_ []).map Prod.fst := by
  intro k hk
  obtain ⟨it_m, hm, rfl⟩ := List.mem_map.mp hk
  apply (mapFind_isSome it_m.1 _).mp
  rw [mapFind_makeGates g hkeys it_m hm]
  rfl

/-- `ConstructCcfBasicEvents` returns for every model when `2 ≤ L ≤ n` (and a
Beta-Factor group has exactly one factor). -/
theorem construct_ok (alloc : Nat → Nat) (g : CcfGroup) (L : Nat) (h2 : 2 ≤ L)
    (hn : L ≤ g.members_.length)
    (hbeta : g.kind = Model.BetaFactorModel → g.factors_.length = 1) :
    ∃ evs, g.ConstructCcfBasicEvents alloc (L : Int) [] = .ok evs := by
  unfold CcfGroup.ConstructCcfBasicEvents
  cases hk : g.kind with
  | BetaFactorModel =>
    simp only
    unfold BetaFactorModel.ConstructCcfBasicEvents
    simp only [hbeta hk, ne_eq, not_true_eq_false, if_false, constructBase_eq alloc g L h2 hn]
    exact ⟨_, rfl⟩
  | MglModel => exact ⟨_, constructBase_eq alloc g L h2 hn⟩
  | AlphaFactorModel => exact ⟨_, constructBase_eq alloc g L h2 hn⟩
  | PhiFactorModel => exact ⟨_, constructBase_eq alloc g L h2 hn⟩

/-- `ApplyModel` returns normally whenever the member map is well formed, the
maximum level `L` of the last factor satisfies `2 ≤ L ≤ n`, a Beta-Factor group
has exactly one factor, and `CalculateProb` returns a table that has an entry
for the size of every set of keys that the model keeps. -/
theorem applyModel_returns (alloc : Nat → Nat) (halloc : Function.Injective alloc)
    (g : CcfGroup) (hkeys : g.keys.Sorted (· < ·)) (back : Int × Expression) (L : Nat)
    (hback : g.factors_.getLast? = some back) (hL : back.1 = (L : Int)) (h2 : 2 ≤ L)
    (hn : L ≤ g.members_.length)
    (hbeta : g.kind = Model.BetaFactorModel → g.factors_.length = 1)
    (table : ProbMap) (htable : g.CalculateProb (L : Int) [] = .ok table)
    (hcover : ∀ k : Nat, 1 ≤ k → k ≤ L →
      (g.kind = Model.BetaFactorModel → k = 1 ∨ k = L) →
      (mapFind (k : Int) table).isSome) :
    ∃ r, g.ApplyModel alloc = .ok r := by
  obtain ⟨evs, hc⟩ := construct_ok alloc g L h2 hn hbeta
  obtain ⟨L', hL', _, _, _, hperm⟩ := construct_inv alloc halloc g (L : Int) evs hc
  have hLL : L' = L := by exact_mod_cast hL'.symm
  subst hLL
  have hsets : ∀ e ∈ evs, ∃ k, 1 ≤ k ∧ k ≤ L' ∧ IsCombination g.keys k e.2.2 ∧
      keptLevel g.kind (L' : Int) e = true := by
    intro e he
    have hf := List.mem_filter.mp (hperm.subset he)
    have hset : e.2.2 ∈ _ := List.mem_map_of_mem (fun e => e.2.2) hf.1
    rw [specEvents_sets] at hset
    obtain ⟨k, h1, h2', hcomb⟩ := (mem_allLevels g L' _).mp hset
    exact ⟨k, h1, h2', hcomb, hf.2⟩
  have hp : ∀ e ∈ evs, (mapFind (e.2.2.length : Int) table).isSome := by
    intro e he
    obtain ⟨k, h1, h2', hcomb, hkept⟩ := hsets e he
    rw [hcomb.2.1]
    apply hcover k h1 h2'
    intro hk
    simp only [keptLevel, hk, if_true, decide_eq_true_eq, hcomb.2.1] at hkept
    rcases hkept with e1 | e1
    · exact Or.inl (by exact_mod_cast e1)
    · exact Or.inr (by exact_mod_cast e1)
  have hg : ∀ e ∈ evs, ∀ k ∈ e.2.2, k ∈ (g.makeGates g.members_ []).map Prod.fst := by
    intro e he k hk
    obtain ⟨_, _, _, hcomb, _⟩ := hsets e he
    exact keys_makeGates g hkeys k (hcomb.2.2 k hk)
  obtain ⟨res, hres, _⟩ := assignEvents_ok table evs _ hp hg
  have hne : evs.isEmpty = false := by
    have hpos : 0 < g.keys.length := by
      have : g.keys.length = g.members_.length := by simp [CcfGroup.keys]
      omega
    obtain ⟨k, hk⟩ := List.exists_mem_of_length_pos hpos
    have hin : [k] ∈ (g.levelsFrom L' [[]]).filter (keptSet g.kind (L' : Int)) := by
      rw [List.mem_filter]
      refine ⟨(mem_allLevels g L' _).mpr ⟨1, by omega, by omega,
        ((isCombination_single g.keys k hk [k]).mpr rfl).1⟩, ?_⟩
      by_cases hkind : g.kind = Model.BetaFactorModel
      · simp [keptSet, hkind]
      · simp [keptSet, hkind]
    have hsets' := sets_of_new_events alloc g L' evs table hperm
    rw [sets_assignExpression] at hsets'
    have := hsets'.symm.subset hin
    cases evs with
    | nil => simp at this
    | cons _ _ => rfl
  unfold CcfGroup.ApplyModel
  simp only [hback, hL, htable, hc, hne, Bool.false_eq_true, if_false, hres]
  exact ⟨_, rfl⟩

/-- `ApplyModel` returns for a Beta-Factor group with at least two members whose
single factor is declared at level `n` and whose distribution is set. -/
theorem applyModel_returns_beta (alloc : Nat → Nat) (halloc : Function.Injective alloc)
    (g : CcfGroup) (hkeys : g.keys.Sorted (· < ·)) (hkind : g.kind = Model.BetaFactorModel)
    (beta Q : Expression) (hfactor : g.factors_ = [((g.members_.length : Int), beta)])
    (hQ : g.distribution_ = some Q) (h2 : 2 ≤ g.members_.length) :
    ∃ r, g.ApplyModel alloc = .ok r := by
  have htable := beta_table_eq g beta Q g.members_.length h2 hfactor hQ
  refine applyModel_returns alloc halloc g hkeys ((g.members_.length : Int), beta)
    g.members_.length (by rw [hfactor]; rfl) rfl h2 (le_refl _)
    (fun _ => by rw [hfactor]; rfl) _
    (by unfold CcfGroup.CalculateProb; rw [hkind]; exact htable) ?_
  intro k _ _ hk
  have hne : ¬ ((1 : Int) = (g.members_.length : Int)) := by omega
  rcases hk hkind with rfl | rfl
  · simp [mapFind]
  · simp [mapFind, hne]

/-- `ApplyModel` returns for an MGL group with `L - 1` factors, the last one at
level `L`, `2 ≤ L ≤ n`, and the distribution set. -/
theorem applyModel_returns_mgl (alloc : Nat → Nat) (halloc : Function.Injective alloc)
    (g : CcfGroup) (hkeys : g.keys.Sorted (· < ·)) (hkind : g.kind = Model.MglModel)
    (back : Int × Expression) (L : Nat) (Q : Expression)
    (hback : g.factors_.getLast? = some back) (hL : back.1 = (L : Int)) (h2 : 2 ≤ L)
    (hn : L ≤ g.members_.length) (hf : g.factors_.length = L - 1)
    (hQ : g.distribution_ = some Q) :
    ∃ r, g.ApplyModel alloc = .ok r := by
  have htable := mgl_table_eq g Q L (by omega) hn hf hQ
  refine applyModel_returns alloc halloc g hkeys back L hback hL h2 hn
    (fun hk => by rw [hkind] at hk; cases hk) _
    (by unfold CcfGroup.CalculateProb; rw [hkind]; exact htable) ?_
  intro k h1 hk _
  have := mapFind_entry (MglModel.entry g Q L) (fun _ => rfl) L (k - 1) (by omega)
  have hcast : ((k - 1 : Nat) : Int) + 1 = (k : Int) := by omega
  rw [hcast] at this
  rw [this]
  rfl

/-- `ApplyModel` returns for an Alpha-Factor group with `L` factors, the last
one at level `L`, `2 ≤ L ≤ n`, and the distribution set. -/
theorem applyModel_returns_alpha (alloc : Nat → Nat) (halloc : Function.Injective alloc)
    (g : CcfGroup) (hkeys : g.keys.Sorted (· < ·)) (hkind : g.kind = Model.AlphaFactorModel)
    (back : Int × Expression) (L : Nat) (Q : Expression)
    (hback : g.factors_.getLast? = some back) (hL : back.1 = (L : Int)) (h2 : 2 ≤ L)
    (hn : L ≤ g.members_.length) (hf : g.factors_.length = L)
    (hQ : g.distribution_ = some Q) :
    ∃ r, g.ApplyModel alloc = .ok r := by
  have htable := alpha_table_eq g Q L hn hf hQ
  refine applyModel_returns alloc halloc g hkeys back L hback hL h2 hn
    (fun hk => by rw [hkind] at hk; cases hk) _
    (by unfold CcfGroup.CalculateProb; rw [hkind]; exact htable) ?_
  intro k h1 hk _
  have := mapFind_entry (fun i =>
    AlphaFactorModel.entry g Q (((g.factors_.drop i).head?.map Prod.snd).getD Q) i)
    (fun _ => rfl) L (k - 1) (by omega)
  have hcast : ((k - 1 : Nat) : Int) + 1 = (k : Int) := by omega
  rw [hcast] at this
  rw [this]
  rfl

/-- `ApplyModel` returns for a Phi-Factor group with factors at levels `1..L`,
`2 ≤ L ≤ n`, and the distribution set. -/
theorem applyModel_returns_phi (alloc : Nat → Nat) (halloc : Function.Injective alloc)
    (g : CcfGroup) (hkeys : g.keys.Sorted (· < ·)) (hkind : g.kind = Model.PhiFactorModel)
    (L : Nat) (Q : Expression)
    (hlevels : g.factors_.map Prod.fst = (List.range L).map (fun i : Nat => (i : Int) + 1))
    (h2 : 2 ≤ L) (hn : L ≤ g.members_.length) (hQ : g.distribution_ = some Q) :
    ∃ r, g.ApplyModel alloc = .ok r := by
  have htable := phi_table_eq g Q L hQ hlevels
  obtain ⟨phi, hget, _⟩ := phi_table_find g Q L hlevels L (by omega) (le_refl L)
  have hlen : g.factors_.length = L := by
    have := congrArg List.length hlevels
    simpa using this
  have hback : g.factors_.getLast? = some ((L : Int), phi) := by
    rw [List.getLast?_eq_getElem?, hlen, ← List.get?_eq_getElem?]
    exact hget
  refine applyModel_returns alloc halloc g hkeys ((L : Int), phi) L hback rfl h2 hn
    (fun hk => by rw [hkind] at hk; cases hk) _
    (by unfold CcfGroup.CalculateProb; rw [hkind]; exact htable) ?_
  intro k h1 hk _
  obtain ⟨phi', _, hfind⟩ := phi_table_find g Q L hlevels k h1 hk
  rw [hfind]
  rfl

/-! ## Beta-Factor groups: the events and gates after `ApplyModel` (claim C4) -/

/-- C4: for a Beta-Factor group with `n ≥ 2` members whose single factor is
declared at level `n`, `ApplyModel` returns, and afterwards every event has a
set of size 1 or `n`, there are `n` events of size 1 and one event of size `n`,
which holds all member keys, and the replacement gate of each member is an `or`
of exactly two events: the event named after the member alone and the event
named after all members. -/
theorem beta_applyModel_events (alloc : Nat → Nat) (halloc : Function.Injective alloc)
    (g : CcfGroup) (hkeys : g.keys.Sorted (· < ·)) (hkind : g.kind = Model.BetaFactorModel)
    (beta Q : Expression) (hfactor : g.factors_ = [((g.members_.length : Int), beta)])
    (hQ : g.distribution_ = some Q) (h2 : 2 ≤ g.members_.length) :
    ∃ r, g.ApplyModel alloc = .ok r ∧
      (∀ e ∈ r.new_events, e.2.2.length = 1 ∨ e.2.2.length = g.members_.length) ∧
      (r.new_events.filter (fun e => e.2.2.length = 1)).length = g.members_.length ∧
      (r.new_events.filter (fun e => e.2.2.length = g.members_.length)).length = 1 ∧
      (r.new_events.filter (fun e => e.2.2 = g.keys)).length = 1 ∧
      ∀ it_m ∈ g.members_, ∃ (gate : Gate) (e1 e2 : CcfEvent),
        mapFind it_m.1 r.gates = some gate ∧
        (it_m.1, { it_m.2 with ccf_gate := some gate }) ∈ r.members_ ∧
        gate.formula.type = "or".toList ∧
        gate.formula.event_args.Perm [e1, e2] ∧
        e1.name = "[".toList ++ it_m.2.name ++ "]".toList ∧
        e1.member_names = [it_m.2.name] ∧
        e2.name = "[".toList ++
          List.intercalate " ".toList (g.members_.map (fun m => m.2.name)) ++ "]".toList ∧
        e2.member_names = g.members_.map (fun m => m.2.name) := by
  obtain ⟨r, hr⟩ := applyModel_returns_beta alloc halloc g hkeys hkind beta Q hfactor hQ h2
  exact ⟨r, hr, (beta_events_of_applied alloc halloc g hkeys hkind beta hfactor r hr).2⟩

/-- C4 on scenario S1: members A, B and C, three singleton events and the event `[A B C]`. -/
theorem beta_applyModel_events_witness :
    ∃ r, scenarioBeta.ApplyModel id = .ok r ∧
      (∀ e ∈ r.new_events, e.2.2.length = 1 ∨ e.2.2.length = 3) ∧
      (r.new_events.filter (fun e => e.2.2.length = 1)).length = 3 ∧
      (r.new_events.filter (fun e => e.2.2.length = 3)).length = 1 ∧
      (r.new_events.filter (fun e => e.2.2 = scenarioBeta.keys)).length = 1 ∧
      ∀ it_m ∈ scenarioBeta.members_, ∃ (gate : Gate) (e1 e2 : CcfEvent),
        mapFind it_m.1 r.gates = some gate ∧
        (it_m.1, { it_m.2 with ccf_gate := some gate }) ∈ r.members_ ∧
        gate.formula.type = "or".toList ∧
        gate.formula.event_args.Perm [e1, e2] ∧
        e1.name = "[".toList ++ it_m.2.name ++ "]".toList ∧
        e1.member_names = [it_m.2.name] ∧
        e2.name = "[A B C]".toList ∧
        e2.member_names = ["A".toList, "B".toList, "C".toList] :=
  beta_applyModel_events id Function.injective_id scenarioBeta (by decide) rfl
    (Expression.ConstantExpression (1 / 10)) scenarioQ rfl rfl (by decide)

/-! ## The member map stays well formed -/

/-- `AddMember` keeps the member map a well-formed `std::map`. -/
theorem addMember_keys_sorted (g g' : CcfGroup) (basic_event : BasicEvent)
    (hkeys : g.keys.Sorted (· < ·)) (h : g.AddMember basic_event = .ok g') :
    g'.keys.Sorted (· < ·) := by
  unfold CcfGroup.AddMember at h
  dsimp only at h
  split_ifs at h
  cases h
  simp only [CcfGroup.keys]
  rw [keys_mapInsert]
  exact sorted_setInsert _ _ hkeys

/-- `AddDistribution` leaves the keys of the member map as they are. -/
theorem addDistribution_keys (g g' : CcfGroup) (distr : Expression)
    (h : g.AddDistribution distr = .ok g') : g'.keys = g.keys := by
  unfold CcfGroup.AddDistribution at h
  split_ifs at h
  cases h
  simp [CcfGroup.keys, Function.comp]

/-- `AddFactor` leaves the member map as it is. -/
theorem addFactor_members (g g' : CcfGroup) (factor : Expression) (level : Int)
    (h : g.AddFactor factor level = .ok g') : g'.members_ = g.members_ := by
  unfold CcfGroup.AddFactor at h
  cases hk : g.kind <;> simp only [hk] at h
  · unfold BetaFactorModel.AddFactor at h
    split_ifs at h
    cases h
    rfl
  · unfold MglModel.AddFactor at h
    split_ifs at h
    cases h
    rfl
  · unfold CcfGroup.AddFactorBase at h
    split_ifs at h
    cases h
    rfl
  · unfold CcfGroup.AddFactorBase at h
    split_ifs at h
    cases h
    rfl

/-! ## `AddMember`: admission of members (claims C11, C12) -/

/-- Inserting under one key leaves the lookup of every other key as it was. -/
theorem mapFind_mapInsert_ne {κ β : Type} [LinearOrder κ] [DecidableEq κ] (k k' : κ) (v : β)
    (m : List (κ × β)) (h : k ≠ k') : mapFind k (mapInsert k' v m) = mapFind k m := by
  induction m with
  | nil => simp [mapInsert, mapFind, Ne.symm h]
  | cons p m ih =>
    unfold mapInsert
    split_ifs with h1 h2
    · simp [mapFind, Ne.symm h]
    · simp only [mapFind, ih]
    · rfl

/-- A key that was absent is found with the inserted value. -/
theorem mapFind_mapInsert_self {κ β : Type} [LinearOrder κ] [DecidableEq κ] (k : κ) (v : β)
    (m : List (κ × β)) (h : k ∉ m.map Prod.fst) : mapFind k (mapInsert k v m) = some v := by
  induction m with
  | nil => simp [mapInsert, mapFind]
  | cons p m ih =>
    have hp : p.1 ≠ k := fun e => h (by simp [e])
    have hm : k ∉ m.map Prod.fst := fun e => h (by simp at e ⊢; exact Or.inr e)
    unfold mapInsert
    split_ifs with h1 h2
    · simp [mapFind]
    · simp [mapFind, hp, ih hm]
    · exact absurd (le_antisymm (not_lt.mp h1) (not_lt.mp h2)) hp

/-- Inserting under an absent key makes the map one entry longer. -/
theorem length_mapInsert {κ β : Type} [LinearOrder κ] (k : κ) (v : β) (m : List (κ × β))
    (h : k ∉ m.map Prod.fst) : (mapInsert k v m).length = m.length + 1 := by
  have := (perm_mapInsert k v m h).length_eq
  simpa using this

/-- What `AddMember` returns, by the three cases of its two tests. -/
theorem addMember_cases (g : CcfGroup) (basic_event : BasicEvent) :
    (g.distribution_.isSome = true →
      g.AddMember basic_event =
        .error (.IllegalOperation ("No more members accepted. The distribution for ".toList ++
          g.name_ ++ " CCF group has already been defined.".toList))) ∧
    (g.distribution_.isSome = false →
      (mapFind (to_lower basic_event.name) g.members_).isSome = true →
      g.AddMember basic_event =
        .error (.DuplicateArgumentError ("Duplicate member ".toList ++ basic_event.name ++
          " in ".toList ++ g.name_ ++ " CCF group.".toList))) ∧
    (g.distribution_.isSome = false →
      (mapFind (to_lower basic_event.name) g.members_).isSome = false →
      g.AddMember basic_event =
        .ok { g with members_ := mapInsert (to_lower basic_event.name) basic_event g.members_ }) := by
  refine ⟨?_, ?_, ?_⟩
  · intro h
    simp [CcfGroup.AddMember, h]
  · intro h1 h2
    simp [CcfGroup.AddMember, h1, h2]
  · intro h1 h2
    simp [CcfGroup.AddMember, h1, h2]

theorem addDistribution_sets (g g' : CcfGroup) (distr : Expression)
    (h : g.AddDistribution distr = .ok g') : g'.distribution_ = some distr := by
  unfold CcfGroup.AddDistribution at h
  split_ifs at h
  cases h
  rfl

/-- C11: `AddMember` fails with `IllegalOperation` exactly when the distribution
of the group is set, also when the event offered is already a member; so after
a call of `AddDistribution` has returned every `AddMember` fails with
`IllegalOperation`; and after a failed `AddMember` the member map, the factors
and the distribution are as before. -/
theorem addMember_illegal_iff (g : CcfGroup) (basic_event : BasicEvent) :
    ((∃ msg, g.AddMember basic_event = .error (.IllegalOperation msg)) ↔
      g.distribution_.isSome = true) ∧
    (g.distribution_.isSome = true →
      (mapFind (to_lower basic_event.name) g.members_).isSome = true →
      ∃ msg, g.AddMember basic_event = .error (.IllegalOperation msg)) ∧
    (∀ distr g', g.AddDistribution distr = .ok g' →
      ∃ msg, g'.AddMember basic_event = .error (.IllegalOperation msg)) ∧
    (∀ err, g.AddMember basic_event = .error err →
      (g.after (g.AddMember basic_event)).members_ = g.members_ ∧
      (g.after (g.AddMember basic_event)).factors_ = g.factors_ ∧
      (g.after (g.AddMember basic_event)).distribution_ = g.distribution_) := by
  obtain ⟨h1, h2, h3⟩ := addMember_cases g basic_event
  refine ⟨⟨?_, fun h => ⟨_, h1 h⟩⟩, fun h _ => ⟨_, h1 h⟩, ?_, ?_⟩
  · rintro ⟨msg, hmsg⟩
    cases hd : g.distribution_.isSome with
    | true => rfl
    | false =>
      cases hf : (mapFind (to_lower basic_event.name) g.members_).isSome with
      | true => rw [h2 hd hf] at hmsg; cases hmsg
      | false => rw [h3 hd hf] at hmsg; cases hmsg
  · intro distr g' hg'
    have hset := addDistribution_sets g g' distr hg'
    exact ⟨_, (addMember_cases g' basic_event).1 (by rw [hset]; rfl)⟩
  · intro err herr
    rw [herr]
    exact ⟨rfl, rfl, rfl⟩

/-- C11 on scenario groups: the open group accepts the distribution 0.01 and
then refuses a new member, and the group of scenario S2, whose distribution is
set, refuses the member A that it already holds with `IllegalOperation`. -/
theorem addMember_illegal_iff_witness :
    (∃ g', scenarioOpen.AddDistribution scenarioQ = .ok g' ∧
      ∃ msg, g'.AddMember (scenarioEvent "A".toList) = .error (.IllegalOperation msg)) ∧
    (∃ msg, scenarioMgl.AddMember (scenarioEvent "A".toList) = .error (.IllegalOperation msg)) ∧
    (scenarioMgl.after (scenarioMgl.AddMember (scenarioEvent "A".toList))).members_ =
      scenarioMgl.members_ :=
  ⟨⟨_, rfl, (addMember_illegal_iff scenarioOpen (scenarioEvent "A".toList)).2.2.1 scenarioQ _ rfl⟩,
    (addMember_illegal_iff scenarioMgl (scenarioEvent "A".toList)).2.1 rfl rfl,
    ((addMember_illegal_iff scenarioMgl (scenarioEvent "A".toList)).2.2.2 _ rfl).1⟩

/-- `AddMember` keeps the member map keyed by the lowercase names of the members. -/
theorem addMember_keyed (g g' : CcfGroup) (basic_event : BasicEvent)
    (hkeyed : ∀ it ∈ g.members_, it.1 = to_lower it.2.name)
    (h : g.AddMember basic_event = .ok g') :
    ∀ it ∈ g'.members_, it.1 = to_lower it.2.name := by
  unfold CcfGroup.AddMember at h
  dsimp only at h
  split_ifs at h
  cases h
  intro it hit
  rcases mem_mapInsert _ _ _ _ hit with e | e
  · rw [e]
  · exact hkeyed it e

/-- `AddDistribution` keeps the member map keyed by the lowercase names of the members. -/
theorem addDistribution_keyed (g g' : CcfGroup) (distr : Expression)
    (hkeyed : ∀ it ∈ g.members_, it.1 = to_lower it.2.name)
    (h : g.AddDistribution distr = .ok g') :
    ∀ it ∈ g'.members_, it.1 = to_lower it.2.name := by
  unfold CcfGroup.AddDistribution at h
  split_ifs at h
  cases h
  intro it hit
  obtain ⟨it0, h0, rfl⟩ := List.mem_map.mp hit
  exact hkeyed it0 h0

/-- In a map keyed by lowercase names, a key is present exactly when some member
has that lowercase name. -/
theorem holds_name_iff (g : CcfGroup) (hkeyed : ∀ it ∈ g.members_, it.1 = to_lower it.2.name)
    (name : Str) :
    (mapFind (to_lower name) g.members_).isSome = true ↔
      ∃ it ∈ g.members_, to_lower it.2.name = to_lower name := by
  rw [mapFind_isSome, List.mem_map]
  constructor
  · rintro ⟨it, hit, e⟩
    exact ⟨it, hit, by rw [← hkeyed it hit, e]⟩
  · rintro ⟨it, hit, e⟩
    exact ⟨it, hit, by rw [hkeyed it hit, e]⟩

/-- C12 as amended: while the distribution is unset, `AddMember` fails with
`DuplicateArgumentError` exactly when the group already holds a member whose
lowercase name equals the lowercase name of the event offered; otherwise it
returns the group with the event stored under its lowercase name, one member
more, every other binding of the member map as before, and the factors and the
distribution untouched. -/
theorem addMember_duplicate_iff (g : CcfGroup) (hopen : g.distribution_ = none)
    (hkeyed : ∀ it ∈ g.members_, it.1 = to_lower it.2.name) (basic_event : BasicEvent) :
    ((∃ msg, g.AddMember basic_event = .error (.DuplicateArgumentError msg)) ↔
      ∃ it ∈ g.members_, to_lower it.2.name = to_lower basic_event.name) ∧
    ((¬ ∃ it ∈ g.members_, to_lower it.2.name = to_lower basic_event.name) →
      ∃ g', g.AddMember basic_event = .ok g' ∧
        g'.members_.length = g.members_.length + 1 ∧
        mapFind (to_lower basic_event.name) g'.members_ = some basic_event ∧
        (∀ k, k ≠ to_lower basic_event.name → mapFind k g'.members_ = mapFind k g.members_) ∧
        (∀ it, it ∈ g'.members_ ↔ it = (to_lower basic_event.name, basic_event) ∨
          it ∈ g.members_) ∧
        g'.factors_ = g.factors_ ∧ g'.distribution_ = g.distribution_) := by
  obtain ⟨_, h2, h3⟩ := addMember_cases g basic_event
  have hd : g.distribution_.isSome = false := by rw [hopen]; rfl
  have hiff := holds_name_iff g hkeyed basic_event.name
  refine ⟨⟨?_, fun h => ⟨_, h2 hd (hiff.mpr h)⟩⟩, ?_⟩
  · rintro ⟨msg, hmsg⟩
    cases hf : (mapFind (to_lower basic_event.name) g.members_).isSome with
    | true => exact hiff.mp hf
    | false => rw [h3 hd hf] at hmsg; cases hmsg
  · intro hno
    have hf : (mapFind (to_lower basic_event.name) g.members_).isSome = false := by
      cases hf : (mapFind (to_lower basic_event.name) g.members_).isSome with
      | true => exact absurd (hiff.mp hf) hno
      | false => rfl
    have hk : to_lower basic_event.name ∉ g.members_.map Prod.fst := by
      intro hm
      rw [(mapFind_isSome _ _).mpr hm] at hf
      cases hf
    refine ⟨_, h3 hd hf, length_mapInsert _ _ _ hk, mapFind_mapInsert_self _ _ _ hk,
      fun k hne => mapFind_mapInsert_ne k _ _ _ hne, ?_, rfl, rfl⟩
    intro it
    have hp := perm_mapInsert (to_lower basic_event.name) basic_event g.members_ hk
    simp only
    rw [hp.mem_iff, List.mem_cons]

/-- C12 as amended, on the open scenario group after the member A was added:
a second event named `a` is refused as a duplicate, an event named B is added. -/
theorem addMember_duplicate_iff_witness :
    ∃ g, scenarioOpen.AddMember (scenarioEvent "A".toList) = .ok g ∧
      (∃ msg, g.AddMember (scenarioEvent "a".toList) = .error (.DuplicateArgumentError msg)) ∧
      ∃ g', g.AddMember (scenarioEvent "B".toList) = .ok g' ∧
        g'.members_.length = g.members_.length + 1 ∧
        mapFind (to_lower "B".toList) g'.members_ = some (scenarioEvent "B".toList) := by
  have hkeyed := addMember_keyed scenarioOpen _ (scenarioEvent "A".toList)
    (fun it hit => by cases hit) rfl
  obtain ⟨g', h1, h2, h3, _⟩ :=
    (addMember_duplicate_iff _ rfl hkeyed (scenarioEvent "B".toList)).2 (by
      rintro ⟨it, hit, e⟩
      simp only [List.mem_singleton, mapInsert] at hit
      rw [hit] at e
      revert e
      decide)
  exact ⟨_, rfl,
    (addMember_duplicate_iff _ rfl hkeyed (scenarioEvent "a".toList)).1.mpr
      ⟨_, List.mem_singleton.mpr rfl, by decide⟩,
    g', h1, h2, h3⟩

/-- C12, counterexample: two non-public events named `Pump` in the scopes `A`
and `B` have different ids, `a.pump` and `b.pump`; after the first was added
no member has the id of the second, and yet `AddMember` refuses the second
with `DuplicateArgumentError`, because the key is the lowercase name. -/
theorem addMember_id_counterexample :
    (scenarioPrivate "A".toList).id = "a.pump".toList ∧
    (scenarioPrivate "B".toList).id = "b.pump".toList ∧
    ∃ g, scenarioOpen.AddMember (scenarioPrivate "A".toList) = .ok g ∧
      g.distribution_ = none ∧
      (¬ ∃ it ∈ g.members_, it.2.id = (scenarioPrivate "B".toList).id) ∧
      ∃ msg, g.AddMember (scenarioPrivate "B".toList) = .error (.DuplicateArgumentError msg) := by
  refine ⟨by decide, by decide, _, rfl, rfl, ?_, _, rfl⟩
  rintro ⟨it, hit, e⟩
  simp only [List.mem_singleton, mapInsert] at hit
  rw [hit] at e
  revert e
  decide

/-! ## `AddFactor`: the levels each model accepts (claims C13 to C16) -/

/-- What the base `AddFactor` returns for a positive level. -/
theorem addFactorBase_cases (g : CcfGroup) (factor : Expression) (level : Int)
    (hpos : level > 0) :
    (level = (g.factors_.length : Int) + 1 →
      g.AddFactorBase factor level = .ok { g with factors_ := g.factors_ ++ [(level, factor)] }) ∧
    (level ≠ (g.factors_.length : Int) + 1 →
      g.AddFactorBase factor level =
        .error (.ValidationError (g.name_ ++ " ".toList ++ g.model_ ++
          " CCF group level expected ".toList ++ showNat (g.factors_.length + 1) ++
          ". Instead was given ".toList ++ showInt level))) := by
  constructor
  · intro h
    have hp : (0 : Int) < (g.factors_.length : Int) + 1 := by omega
    simp [CcfGroup.AddFactorBase, h, hp]
  · intro h
    simp [CcfGroup.AddFactorBase, hpos, h]

/-- What `MglModel::AddFactor` returns for a positive level. -/
theorem mgl_addFactor_cases (g : CcfGroup) (factor : Expression) (level : Int)
    (hpos : level > 0) :
    (level = (g.factors_.length : Int) + 2 →
      MglModel.AddFactor g factor level =
        .ok { g with factors_ := g.factors_ ++ [(level, factor)] }) ∧
    (level ≠ (g.factors_.length : Int) + 2 →
      MglModel.AddFactor g factor level =
        .error (.ValidationError (g.name_ ++ " MGL model CCF group level expected ".toList ++
          showNat (g.factors_.length + 2) ++ ". Instead was given ".toList ++
          showInt level))) := by
  constructor
  · intro h
    have hp : (0 : Int) < (g.factors_.length : Int) + 2 := by omega
    simp [MglModel.AddFactor, h, hp]
  · intro h
    simp [MglModel.AddFactor, hpos, h]

/-- Alpha-Factor and Phi-Factor groups run the base `AddFactor`. -/
theorem addFactor_of_base (g : CcfGroup)
    (hkind : g.kind = Model.AlphaFactorModel ∨ g.kind = Model.PhiFactorModel)
    (factor : Expression) (level : Int) :
    g.AddFactor factor level = g.AddFactorBase factor level := by
  unfold CcfGroup.AddFactor
  rcases hkind with h | h <;> rw [h]

/-- MGL groups run `MglModel::AddFactor`. -/
theorem addFactor_of_mgl (g : CcfGroup) (hkind : g.kind = Model.MglModel)
    (factor : Expression) (level : Int) :
    g.AddFactor factor level = MglModel.AddFactor g factor level := by
  unfold CcfGroup.AddFactor
  rw [hkind]

/-- Beta-Factor groups run `BetaFactorModel::AddFactor`. -/
theorem addFactor_of_beta (g : CcfGroup) (hkind : g.kind = Model.BetaFactorModel)
    (factor : Expression) (level : Int) :
    g.AddFactor factor level = BetaFactorModel.AddFactor g factor level := by
  unfold CcfGroup.AddFactor
  rw [hkind]

/-- C13: for an Alpha-Factor or Phi-Factor group and a level above 0, `AddFactor`
returns exactly when the level is the number of factors plus 1, and then the
pair of level and factor is the new last factor; otherwise it fails with the
`ValidationError` whose message holds the name and the model of the group, the
expected level and the level given, and the factor list is as before. -/
theorem addFactor_base_level (g : CcfGroup)
    (hkind : g.kind = Model.AlphaFactorModel ∨ g.kind = Model.PhiFactorModel)
    (factor : Expression) (level : Int) (hpos : level > 0) :
    ((∃ g', g.AddFactor factor level = .ok g') ↔ level = (g.factors_.length : Int) + 1) ∧
    (level = (g.factors_.length : Int) + 1 →
      g.AddFactor factor level = .ok { g with factors_ := g.factors_ ++ [(level, factor)] }) ∧
    (level ≠ (g.factors_.length : Int) + 1 →
      g.AddFactor factor level =
        .error (.ValidationError (g.name_ ++ " ".toList ++ g.model_ ++
          " CCF group level expected ".toList ++ showNat (g.factors_.length + 1) ++
          ". Instead was given ".toList ++ showInt level)) ∧
      (g.after (g.AddFactor factor level)).factors_ = g.factors_) := by
  rw [addFactor_of_base g hkind]
  obtain ⟨h1, h2⟩ := addFactorBase_cases g factor level hpos
  refine ⟨⟨?_, fun h => ⟨_, h1 h⟩⟩, h1, fun h => ⟨h2 h, by rw [h2 h]; rfl⟩⟩
  rintro ⟨g', hg'⟩
  by_contra hne
  rw [h2 hne] at hg'
  cases hg'

/-- C13 on the Alpha-Factor group of scenario S3, which has three factors: level
4 is accepted, level 7 is refused with the message naming the model
`alpha-factor`, the expected level 4 and the level 7. -/
theorem addFactor_base_level_witness :
    (∃ g', ({ scenarioAlpha with model_ := "alpha-factor".toList } : CcfGroup).AddFactor
      scenarioQ 4 = .ok g' ∧ g'.factors_.getLast? = some (4, scenarioQ)) ∧
    ({ scenarioAlpha with model_ := "alpha-factor".toList } : CcfGroup).AddFactor scenarioQ 7 =
      .error (.ValidationError
        "G alpha-factor CCF group level expected 4. Instead was given 7".toList) :=
  ⟨⟨_, (addFactor_base_level { scenarioAlpha with model_ := "alpha-factor".toList }
      (Or.inl rfl) scenarioQ 4 (by decide)).2.1 (by decide), rfl⟩,
    ((addFactor_base_level { scenarioAlpha with model_ := "alpha-factor".toList }
      (Or.inl rfl) scenarioQ 7 (by decide)).2.2 (by decide)).1⟩

/-- C14: for an MGL group and a level above 0, `AddFactor` returns exactly when
the level is the number of factors plus 2, so the first level accepted is 2,
and then the pair of level and factor is the new last factor; otherwise it
fails with the `ValidationError` whose message holds the name of the group, the
words `MGL model`, the expected level and the level given, and the factor list
is as before. -/
theorem addFactor_mgl_level (g : CcfGroup) (hkind : g.kind = Model.MglModel)
    (factor : Expression) (level : Int) (hpos : level > 0) :
    ((∃ g', g.AddFactor factor level = .ok g') ↔ level = (g.factors_.length : Int) + 2) ∧
    (level = (g.factors_.length : Int) + 2 →
      g.AddFactor factor level = .ok { g with factors_ := g.factors_ ++ [(level, factor)] }) ∧
    (level ≠ (g.factors_.length : Int) + 2 →
      g.AddFactor factor level =
        .error (.ValidationError (g.name_ ++ " MGL model CCF group level expected ".toList ++
          showNat (g.factors_.length + 2) ++ ". Instead was given ".toList ++ showInt level)) ∧
      (g.after (g.AddFactor factor level)).factors_ = g.factors_) := by
  rw [addFactor_of_mgl g hkind]
  obtain ⟨h1, h2⟩ := mgl_addFactor_cases g factor level hpos
  refine ⟨⟨?_, fun h => ⟨_, h1 h⟩⟩, h1, fun h => ⟨h2 h, by rw [h2 h]; rfl⟩⟩
  rintro ⟨g', hg'⟩
  by_contra hne
  rw [h2 hne] at hg'
  cases hg'

/-- C14 on the open MGL scenario group, which has no factor: level 2 is accepted,
level 1 is refused with the message naming the MGL model, the expected level 2
and the level 1. -/
theorem addFactor_mgl_level_witness :
    (∃ g', scenarioOpen.AddFactor scenarioQ 2 = .ok g' ∧ g'.factors_ = [(2, scenarioQ)]) ∧
    scenarioOpen.AddFactor scenarioQ 1 =
      .error (.ValidationError
        "Pumps MGL model CCF group level expected 2. Instead was given 1".toList) :=
  ⟨⟨_, (addFactor_mgl_level scenarioOpen rfl scenarioQ 2 (by decide)).2.1 (by decide), rfl⟩,
    ((addFactor_mgl_level scenarioOpen rfl scenarioQ 1 (by decide)).2.2 (by decide)).1⟩

/-- What `BetaFactorModel::AddFactor` returns, case by case. -/
theorem beta_addFactor_cases (g : CcfGroup) (factor : Expression) (level : Int) :
    (g.factors_ = [] → level = (g.members_.length : Int) →
      BetaFactorModel.AddFactor g factor level =
        .ok { g with factors_ := [(level, factor)] }) ∧
    (g.factors_ ≠ [] →
      BetaFactorModel.AddFactor g factor level =
        .error (.ValidationError ("Beta-Factor Model ".toList ++ g.name_ ++
          " CCF group".toList ++ " must have exactly one factor.".toList))) ∧
    (g.factors_ = [] → level ≠ (g.members_.length : Int) →
      BetaFactorModel.AddFactor g factor level =
        .error (.ValidationError ("Beta-Factor Model ".toList ++ g.name_ ++
          " CCF group".toList ++ " must have the level matching the number of".toList ++
          " its members.".toList))) := by
  refine ⟨fun h1 h2 => ?_, fun h1 => ?_, fun h1 h2 => ?_⟩
  · simp [BetaFactorModel.AddFactor, h1, h2]
  · simp [BetaFactorModel.AddFactor, h1]
  · simp [BetaFactorModel.AddFactor, h1, h2]

/-- C15: for a Beta-Factor group, `AddFactor` returns exactly when the group has
no factor yet and the level is the number of members, and then the pair of
level and factor is the only factor; with a factor already there it fails with
the `ValidationError` saying the group must have exactly one factor, whatever
the level, so every second `AddFactor` fails; a first `AddFactor` with another
level fails with the `ValidationError` saying the level must match the number of
members; a call that fails leaves the factor list as it was. -/
theorem beta_addFactor_iff (g : CcfGroup) (hkind : g.kind = Model.BetaFactorModel)
    (factor : Expression) (level : Int) :
    ((∃ g', g.AddFactor factor level = .ok g') ↔
      g.factors_ = [] ∧ level = (g.members_.length : Int)) ∧
    (g.factors_ = [] → level = (g.members_.length : Int) →
      g.AddFactor factor level = .ok { g with factors_ := [(level, factor)] }) ∧
    (g.factors_ ≠ [] →
      g.AddFactor factor level =
        .error (.ValidationError ("Beta-Factor Model ".toList ++ g.name_ ++
          " CCF group".toList ++ " must have exactly one factor.".toList))) ∧
    (g.factors_ = [] → level ≠ (g.members_.length : Int) →
      g.AddFactor factor level =
        .error (.ValidationError ("Beta-Factor Model ".toList ++ g.name_ ++
          " CCF group".toList ++ " must have the level matching the number of".toList ++
          " its members.".toList))) ∧
    (∀ g', g.AddFactor factor level = .ok g' → ∀ factor' level',
      g'.AddFactor factor' level' =
        .error (.ValidationError ("Beta-Factor Model ".toList ++ g.name_ ++
          " CCF group".toList ++ " must have exactly one factor.".toList))) ∧
    (∀ err, g.AddFactor factor level = .error err →
      (g.after (g.AddFactor factor level)).factors_ = g.factors_) := by
  rw [addFactor_of_beta g hkind]
  obtain ⟨h1, h2, h3⟩ := beta_addFactor_cases g factor level
  have hiff : (∃ g', BetaFactorModel.AddFactor g factor level = .ok g') →
      g.factors_ = [] ∧ level = (g.members_.length : Int) := by
    rintro ⟨g', hg'⟩
    by_cases he : g.factors_ = []
    · refine ⟨he, ?_⟩
      by_contra hne
      rw [h3 he hne] at hg'
      cases hg'
    · rw [h2 he] at hg'
      cases hg'
  refine ⟨⟨hiff, fun h => ⟨_, h1 h.1 h.2⟩⟩, h1, h2, h3, ?_, ?_⟩
  · intro g' hg' factor' level'
    obtain ⟨he, hl⟩ := hiff ⟨g', hg'⟩
    rw [h1 he hl] at hg'
    cases hg'
    exact (addFactor_of_beta { g with factors_ := [(level, factor)] } hkind _ _).trans
      ((beta_addFactor_cases { g with factors_ := [(level, factor)] } factor' level').2.1
        (by simp))
  · intro err herr
    rw [herr]
    rfl

/-- C15 on a Beta-Factor group with the members A, B and C and no factor: a
factor at level 3 is accepted, a factor at level 2 is refused, and after the
accepted call a second factor at level 3 is refused. -/
theorem beta_addFactor_iff_witness :
    (scenarioGroup Model.BetaFactorModel []).AddFactor scenarioQ 3 =
      .ok (scenarioGroup Model.BetaFactorModel [(3, scenarioQ)]) ∧
    (scenarioGroup Model.BetaFactorModel []).AddFactor scenarioQ 2 =
      .error (.ValidationError
        "Beta-Factor Model G CCF group must have the level matching the number of its members.".toList) ∧
    (scenarioGroup Model.BetaFactorModel [(3, scenarioQ)]).AddFactor scenarioQ 3 =
      .error (.ValidationError
        "Beta-Factor Model G CCF group must have exactly one factor.".toList) :=
  ⟨(beta_addFactor_iff (scenarioGroup Model.BetaFactorModel []) rfl scenarioQ 3).2.1 rfl
      (by decide),
    (beta_addFactor_iff (scenarioGroup Model.BetaFactorModel []) rfl scenarioQ 2).2.2.2.1 rfl
      (by decide),
    (beta_addFactor_iff (scenarioGroup Model.BetaFactorModel [(3, scenarioQ)]) rfl
      scenarioQ 3).2.2.1 (by simp [scenarioGroup])⟩

/-- C16, the input at which the code leaves its own requirement unmet: a
Beta-Factor group is constructed, A and B are added, the factor 0.1 is added at
level 2 (accepted, as the group has 2 members), then C is added (accepted, as
no distribution is defined yet) and the distribution is defined. Every call
returns, the group reached is accepted by `Validate`, and it has 3 members
while the level of its only factor is 2. -/
theorem beta_level_after_addMember :
    (∃ g0 g1 g2 g3 g4,
      CcfGroup.create Model.BetaFactorModel "G".toList "model".toList [] true = .ok g0 ∧
      g0.AddMember (scenarioEvent "A".toList) = .ok g1 ∧
      g1.AddMember (scenarioEvent "B".toList) = .ok g2 ∧
      g2.AddFactor (Expression.ConstantExpression (1 / 10)) 2 = .ok g3 ∧
      g3.AddMember (scenarioEvent "C".toList) = .ok g4 ∧
      g4.AddDistribution scenarioQ =
        .ok (scenarioGroup Model.BetaFactorModel
          [(2, Expression.ConstantExpression (1 / 10))])) ∧
    Reachable (scenarioGroup Model.BetaFactorModel
      [(2, Expression.ConstantExpression (1 / 10))]) ∧
    (scenarioGroup Model.BetaFactorModel
      [(2, Expression.ConstantExpression (1 / 10))]).Validate = .ok () ∧
    (scenarioGroup Model.BetaFactorModel
      [(2, Expression.ConstantExpression (1 / 10))]).factors_.map Prod.fst = [2] ∧
    (scenarioGroup Model.BetaFactorModel
      [(2, Expression.ConstantExpression (1 / 10))]).members_.length = 3 := by
  have hr : Reachable (scenarioGroup Model.BetaFactorModel
      [(2, Expression.ConstantExpression (1 / 10))]) :=
    Reachable.addDistribution _ _ scenarioQ
      (Reachable.addMember _ _ (scenarioEvent "C".toList)
        (Reachable.addFactor _ _ (Expression.ConstantExpression (1 / 10)) 2
          (Reachable.addMember _ _ (scenarioEvent "B".toList)
            (Reachable.addMember _ _ (scenarioEvent "A".toList)
              (Reachable.create Model.BetaFactorModel "G".toList "model".toList [] true _ rfl)
              rfl) rfl) rfl) rfl) rfl
  refine ⟨⟨_, _, _, _, _, rfl, rfl, rfl, rfl, rfl, rfl⟩, hr, ?_, rfl, rfl⟩
  norm_num [CcfGroup.Validate, CcfGroup.ValidateBase, scenarioGroup, CcfGroup.validateFactors,
    Expression.Min, Expression.Max, Expression.Interval]

/-! ## `Validate` and `ValidateDistribution` (claims C17, C18) -/

/-- The loop over the factors returns exactly when every factor has `Min ≥ 0` and
`Max ≤ 1`, and otherwise fails with the message about illegal factor values. -/
theorem validateFactors_cases (g : CcfGroup) (factors : List (Int × Expression)) :
    ((∃ it ∈ factors, it.2.Min < 0 ∨ it.2.Max > 1) →
      g.validateFactors factors =
        .error (.ValidationError ("Factors for ".toList ++ g.name_ ++ " CCF group".toList ++
          " have illegal values.".toList))) ∧
    ((¬ ∃ it ∈ factors, it.2.Min < 0 ∨ it.2.Max > 1) → g.validateFactors factors = .ok ()) := by
  induction factors with
  | nil => simp [CcfGroup.validateFactors]
  | cons it rest ih =>
    by_cases hit : it.2.Max > 1 ∨ it.2.Min < 0
    · have hit' : it.2.Min < 0 ∨ it.2.Max > 1 := hit.symm
      constructor
      · intro _
        simp only [CcfGroup.validateFactors, if_pos hit]
      · intro h
        exact absurd ⟨it, List.mem_cons_self _ _, hit'⟩ h
    · have hit' : ¬ (it.2.Min < 0 ∨ it.2.Max > 1) := fun h => hit h.symm
      have hex : (∃ x ∈ it :: rest, x.2.Min < 0 ∨ x.2.Max > 1) ↔
          ∃ x ∈ rest, x.2.Min < 0 ∨ x.2.Max > 1 := by
        constructor
        · rintro ⟨x, hx, hbad⟩
          rcases List.mem_cons.1 hx with rfl | hx
          · exact absurd hbad hit'
          · exact ⟨x, hx, hbad⟩
        · rintro ⟨x, hx, hbad⟩
          exact ⟨x, List.mem_cons_of_mem _ hx, hbad⟩
      simp only [CcfGroup.validateFactors, if_neg hit, hex]
      exact ih

/-- `Validate` of a group that is not a Phi-Factor group is the base function. -/
theorem validate_of_not_phi (g : CcfGroup) (hkind : g.kind ≠ Model.PhiFactorModel) :
    g.Validate = g.ValidateBase := by
  unfold CcfGroup.Validate
  cases hk : g.kind <;> simp_all

/-- `Validate` of a Phi-Factor group is the override. -/
theorem validate_of_phi (g : CcfGroup) (hkind : g.kind = Model.PhiFactorModel) :
    g.Validate = PhiFactorModel.Validate g := by
  unfold CcfGroup.Validate
  rw [hkind]

/-- C17: for a group with at least one factor, the last of them at a level that
is not negative, `CcfGroup::Validate` fails with a `ValidationError` exactly when
the group has fewer than 2 members, or the level of the last factor is above the
number of members, or some factor has `Min < 0` or `Max > 1`. The error is that
of the first failing check in the order members, level, factor range, and with
no failing check the function returns; its result carries no group, as it
assigns no data member. For every model but Phi-Factor this function is what
`Validate` runs. -/
theorem validate_base_iff (g : CcfGroup) (back : Int × Expression)
    (hback : g.factors_.getLast? = some back) (hlevel : 0 ≤ back.1) :
    ((∃ msg, g.ValidateBase = .error (.ValidationError msg)) ↔
      (g.members_.length < 2 ∨ back.1 > (g.members_.length : Int) ∨
        ∃ it ∈ g.factors_, it.2.Min < 0 ∨ it.2.Max > 1)) ∧
    (g.members_.length < 2 →
      g.ValidateBase =
        .error (.ValidationError (g.name_ ++ " CCF group must have at least 2 members.".toList))) ∧
    (¬ g.members_.length < 2 → back.1 > (g.members_.length : Int) →
      g.ValidateBase =
        .error (.ValidationError ("The level of factors for ".toList ++ g.name_ ++
          " CCF group".toList ++ " cannot be more than # of members.".toList))) ∧
    (¬ g.members_.length < 2 → ¬ back.1 > (g.members_.length : Int) →
      (∃ it ∈ g.factors_, it.2.Min < 0 ∨ it.2.Max > 1) →
      g.ValidateBase =
        .error (.ValidationError ("Factors for ".toList ++ g.name_ ++ " CCF group".toList ++
          " have illegal values.".toList))) ∧
    (¬ (g.members_.length < 2 ∨ back.1 > (g.members_.length : Int) ∨
        ∃ it ∈ g.factors_, it.2.Min < 0 ∨ it.2.Max > 1) → g.ValidateBase = .ok ()) ∧
    (g.kind ≠ Model.PhiFactorModel → g.Validate = g.ValidateBase) := by
  obtain ⟨hbad, hgood⟩ := validateFactors_cases g g.factors_
  have h1 : g.members_.length < 2 →
      g.ValidateBase =
        .error (.ValidationError
          (g.name_ ++ " CCF group must have at least 2 members.".toList)) := by
    intro h
    simp only [CcfGroup.ValidateBase, if_pos h]
  have h2 : ¬ g.members_.length < 2 → back.1 > (g.members_.length : Int) →
      g.ValidateBase =
        .error (.ValidationError ("The level of factors for ".toList ++ g.name_ ++
          " CCF group".toList ++ " cannot be more than # of members.".toList)) := by
    intro h hl
    simp only [CcfGroup.ValidateBase, if_neg h, hback, if_pos (Or.inr hl)]
  have hno : ¬ back.1 > (g.members_.length : Int) →
      ¬ (back.1 < 0 ∨ back.1 > (g.members_.length : Int)) := by
    intro hl h
    rcases h with h | h
    · omega
    · exact hl h
  have h3 : ¬ g.members_.length < 2 → ¬ back.1 > (g.members_.length : Int) →
      g.ValidateBase = g.validateFactors g.factors_ := by
    intro h hl
    simp only [CcfGroup.ValidateBase, if_neg h, hback, if_neg (hno hl)]
  refine ⟨⟨?_, ?_⟩, h1, h2, fun h hl hx => (h3 h hl).trans (hbad hx), ?_,
    validate_of_not_phi g⟩
  · rintro ⟨msg, hmsg⟩
    by_contra hn
    push_neg at hn
    obtain ⟨hn1, hn2, hn3⟩ := hn
    have hok : g.ValidateBase = .ok () := by
      rw [h3 (by omega) (by omega)]
      apply hgood
      rintro ⟨it, hit, hb⟩
      have := hn3 it hit
      rcases hb with hb | hb
      · exact absurd hb (not_lt.2 this.1)
      · exact absurd hb (not_lt.2 this.2)
    rw [hok] at hmsg
    cases hmsg
  · intro h
    by_cases c1 : g.members_.length < 2
    · exact ⟨_, h1 c1⟩
    · by_cases c2 : back.1 > (g.members_.length : Int)
      · exact ⟨_, h2 c1 c2⟩
      · rcases h with h | h | h
        · exact absurd h c1
        · exact absurd h c2
        · exact ⟨_, (h3 c1 c2).trans (hbad h)⟩
  · intro hn
    have c1 : ¬ g.members_.length < 2 := fun h => hn (Or.inl h)
    have c2 : ¬ back.1 > (g.members_.length : Int) := fun h => hn (Or.inr (Or.inl h))
    have c3 : ¬ ∃ it ∈ g.factors_, it.2.Min < 0 ∨ it.2.Max > 1 :=
      fun h => hn (Or.inr (Or.inr h))
    exact (h3 c1 c2).trans (hgood c3)

/-- C17 on three groups: the MGL group of scenario S2 passes every check and
`Validate` returns; with the second factor at level 4 the group of 3 members
fails the level check; and with that level and the factor 1.5 besides, the error
is still that of the level check, which comes first. -/
theorem validate_base_iff_witness :
    scenarioMgl.ValidateBase = .ok () ∧
    (scenarioGroup Model.MglModel
      [(2, Expression.ConstantExpression (1 / 10)),
       (4, Expression.ConstantExpression (2 / 10))]).ValidateBase =
      .error (.ValidationError
        "The level of factors for G CCF group cannot be more than # of members.".toList) ∧
    (scenarioGroup Model.MglModel
      [(2, Expression.ConstantExpression (15 / 10)),
       (4, Expression.ConstantExpression (2 / 10))]).ValidateBase =
      .error (.ValidationError
        "The level of factors for G CCF group cannot be more than # of members.".toList) :=
  ⟨(validate_base_iff scenarioMgl (3, Expression.ConstantExpression (2 / 10)) rfl
      (by decide)).2.2.2.2.1
      (by
        norm_num [scenarioMgl, scenarioGroup, Expression.Min, Expression.Max,
          Expression.Interval]),
    (validate_base_iff (scenarioGroup Model.MglModel
      [(2, Expression.ConstantExpression (1 / 10)),
       (4, Expression.ConstantExpression (2 / 10))])
      (4, Expression.ConstantExpression (2 / 10)) rfl (by decide)).2.2.1
      (by decide) (by decide),
    (validate_base_iff (scenarioGroup Model.MglModel
      [(2, Expression.ConstantExpression (15 / 10)),
       (4, Expression.ConstantExpression (2 / 10))])
      (4, Expression.ConstantExpression (2 / 10)) rfl (by decide)).2.2.1
      (by decide) (by decide)⟩

/-- The base function `CcfGroup::Validate` never reads the distribution. -/
theorem validateFactors_distribution (g : CcfGroup) (d : Option Expression)
    (factors : List (Int × Expression)) :
    ({ g with distribution_ := d } : CcfGroup).validateFactors factors =
      g.validateFactors factors := by
  induction factors with
  | nil => rfl
  | cons it rest ih =>
    simp only [CcfGroup.validateFactors]
    rw [ih]

/-- The base `Validate` gives the same result whatever the distribution is. -/
theorem validateBase_distribution (g : CcfGroup) (d : Option Expression) :
    ({ g with distribution_ := d } : CcfGroup).ValidateBase = g.ValidateBase := by
  simp only [CcfGroup.ValidateBase, validateFactors_distribution]

/-- `Validate` of every model gives the same result whatever the distribution is. -/
theorem validate_distribution_eq (g : CcfGroup) (d : Option Expression) :
    ({ g with distribution_ := d } : CcfGroup).Validate = g.Validate := by
  simp only [CcfGroup.Validate, PhiFactorModel.Validate, validateBase_distribution]

/-- C18 as amended: `Validate` has no check of the shared distribution, and its
result is the same whatever the distribution is. The check that the
distribution has `Min ≥ 0` and `Max ≤ 1` is the separate function
`ValidateDistribution`: on a group whose distribution is defined it fails with
the `ValidationError` about illegal values of the distribution exactly when the
distribution has `Min < 0` or `Max > 1`, and returns otherwise. -/
theorem validate_without_distribution (g : CcfGroup) (distr : Expression)
    (hdistr : g.distribution_ = some distr) :
    (∀ d, ({ g with distribution_ := d } : CcfGroup).Validate = g.Validate) ∧
    ((distr.Min < 0 ∨ distr.Max > 1) →
      g.ValidateDistribution =
        .error (.ValidationError ("Distribution for ".toList ++ g.name_ ++
          " CCF group".toList ++ " has illegal values.".toList))) ∧
    (¬ (distr.Min < 0 ∨ distr.Max > 1) → g.ValidateDistribution = .ok ()) := by
  refine ⟨validate_distribution_eq g, fun h => ?_, fun h => ?_⟩
  · simp only [CcfGroup.ValidateDistribution, hdistr, if_pos h]
  · simp only [CcfGroup.ValidateDistribution, hdistr, if_neg h]

/-- C18 as amended, on the MGL group whose distribution is the constant 2:
`ValidateDistribution` refuses it. -/
theorem validate_without_distribution_witness :
    scenarioDistribution.ValidateDistribution =
      .error (.ValidationError "Distribution for G CCF group has illegal values.".toList) :=
  (validate_without_distribution scenarioDistribution (Expression.ConstantExpression 2)
    rfl).2.1 (by norm_num [Expression.Min, Expression.Max, Expression.Interval])

/-- C18, a group at which the claim fails: an MGL group is constructed, A, B and C
are added, the constant 2 is defined as the distribution, and the factors 0.1
and 0.2 are added at levels 2 and 3. The group has 3 members, its last level is
3, its factors lie in [0, 1] and its distribution has `Max = 2 > 1`, and
`Validate` returns without an error. -/
theorem validate_distribution_counterexample :
    Reachable scenarioDistribution ∧
    scenarioDistribution.distribution_ = some (Expression.ConstantExpression 2) ∧
    (Expression.ConstantExpression 2).Max > 1 ∧
    scenarioDistribution.Validate = .ok () := by
  have hr : Reachable scenarioDistribution :=
    Reachable.addFactor _ _ (Expression.ConstantExpression (2 / 10)) 3
      (Reachable.addFactor _ _ (Expression.ConstantExpression (1 / 10)) 2
        (Reachable.addDistribution _ _ (Expression.ConstantExpression 2)
          (Reachable.addMember _ _ (scenarioEvent "C".toList)
            (Reachable.addMember _ _ (scenarioEvent "B".toList)
              (Reachable.addMember _ _ (scenarioEvent "A".toList)
                (Reachable.create Model.MglModel "G".toList "model".toList [] true _ rfl)
                rfl) rfl) rfl) rfl) rfl) rfl
  refine ⟨hr, rfl, ?_, ?_⟩
  · norm_num [Expression.Max, Expression.Interval]
  · norm_num [CcfGroup.Validate, CcfGroup.ValidateBase, scenarioDistribution,
      CcfGroup.validateFactors, Expression.Min, Expression.Max, Expression.Interval]

/-! ## The rounding of `double` arithmetic -/

/-- A rational within less than one half of an integer rounds to that integer. -/
theorem roundHalfEven_eq (q : ℚ) (n : Int) (h : |q - (n : ℚ)| < 1 / 2) :
    roundHalfEven q = n := by
  rw [abs_lt] at h
  obtain ⟨h1, h2⟩ := h
  unfold roundHalfEven
  dsimp only
  by_cases hq : (n : ℚ) ≤ q
  · have hf : ⌊q⌋ = n := Int.floor_eq_iff.mpr ⟨hq, by linarith⟩
    rw [hf, if_pos (by linarith)]
  · push_neg at hq
    have hf : ⌊q⌋ = n - 1 :=
      Int.floor_eq_iff.mpr ⟨by push_cast; linarith, by push_cast; linarith⟩
    rw [hf, if_neg (by push_cast; linarith), if_pos (by push_cast; linarith)]
    ring

/-- The binary logarithm of a rational between two consecutive powers of two. -/
theorem log_two_eq (x : ℚ) (e : Int) (h1 : (2 : ℚ) ^ e ≤ x) (h2 : x < (2 : ℚ) ^ (e + 1)) :
    Int.log 2 x = e := by
  have hx : 0 < x := lt_of_lt_of_le (zpow_pos (by norm_num) e) h1
  have a : e ≤ Int.log 2 x :=
    (Int.zpow_le_iff_le_log (by norm_num) hx).mp (by exact_mod_cast h1)
  have b : Int.log 2 x < e + 1 :=
    (Int.lt_zpow_iff_log_lt (by norm_num) hx).mp (by exact_mod_cast h2)
  omega

/-- The rounding of a positive normal value: when `x` lies in the binade of the
exponent `e` and within less than half a unit `2^(e-52)` of `n` units, the
double nearest to `x` is `n` units. -/
theorem roundDouble_eq (x : ℚ) (e n : Int) (h1 : (2 : ℚ) ^ e ≤ x) (h2 : x < (2 : ℚ) ^ (e + 1))
    (he : -1022 ≤ e) (hn : |x / (2 : ℚ) ^ (e - 52) - (n : ℚ)| < 1 / 2) :
    roundDouble x = (n : ℚ) * (2 : ℚ) ^ (e - 52) := by
  have hx : 0 < x := lt_of_lt_of_le (zpow_pos (by norm_num) e) h1
  have hlog : doubleExponent x = e := by
    unfold doubleExponent
    rw [abs_of_pos hx, log_two_eq x e h1 h2]
    exact max_eq_left he
  unfold roundDouble
  dsimp only
  rw [hlog, abs_of_pos hx, roundHalfEven_eq _ n hn, if_neg (not_lt.mpr hx.le)]
  ring

/-- Zero is a double. -/
theorem roundDouble_zero : roundDouble 0 = 0 := by
  unfold roundDouble roundHalfEven
  simp

/-- Rounding is odd: the double nearest to `-x` is the negative of the double
nearest to `x`. -/
theorem roundDouble_neg (x : ℚ) : roundDouble (-x) = -roundDouble x := by
  rcases lt_trichotomy x 0 with h | h | h
  · unfold roundDouble doubleExponent
    dsimp only
    rw [abs_neg, if_neg (by linarith), if_pos h]
    ring
  · subst h
    simp [roundDouble_zero]
  · unfold roundDouble doubleExponent
    dsimp only
    rw [abs_neg, if_pos (by linarith), if_neg (by linarith)]
    ring

/-- One is a double. -/
theorem roundDouble_one : roundDouble 1 = 1 := by
  rw [roundDouble_eq 1 0 (2 ^ 52) (by norm_num) (by norm_num) (by norm_num) (by norm_num)]
  norm_num

/-- The double that the literal `1e-4` denotes: `7378697629483821 / 2^66`, which is
above `10⁻⁴` by about `4.8·10⁻²¹`. -/
theorem roundDouble_epsilon :
    roundDouble (1 / 10000) = 7378697629483821 / 73786976294838206464 := by
  rw [roundDouble_eq (1 / 10000) (-14) 7378697629483821 (by norm_num) (by norm_num)
    (by norm_num) (by norm_num [abs_lt])]
  norm_num

/-- Rounding to the nearest integer does not go below an integer lower bound. -/
theorem roundHalfEven_ge (q : ℚ) (k : Int) (h : (k : ℚ) ≤ q) : k ≤ roundHalfEven q := by
  have hf : k ≤ ⌊q⌋ := Int.le_floor.mpr h
  unfold roundHalfEven
  dsimp only
  split_ifs <;> omega

/-- Rounding to the nearest integer does not go above an integer upper bound. -/
theorem roundHalfEven_le (q : ℚ) (k : Int) (h : q ≤ (k : ℚ)) : roundHalfEven q ≤ k := by
  have hf : ⌊q⌋ ≤ k := Int.floor_le_iff.mpr (by linarith)
  by_cases hq : q = ((⌊q⌋ : Int) : ℚ)
  · have : roundHalfEven q = ⌊q⌋ := roundHalfEven_eq q ⌊q⌋ (by rw [← hq]; norm_num)
    omega
  · have hlt : ((⌊q⌋ : Int) : ℚ) < q := lt_of_le_of_ne (Int.floor_le q) (Ne.symm hq)
    have hne : ⌊q⌋ ≠ k := by
      intro e
      rw [e] at hlt
      linarith
    unfold roundHalfEven
    dsimp only
    split_ifs <;> omega

/-- The value `roundDouble x` lies on the grid of its exponent: it is a whole
number of units, at most `2^53` of them, and at least `2^52` when `x` is not
below the smallest normal power of two. -/
theorem roundDouble_grid (x : ℚ) :
    ∃ N : Int, 0 ≤ N ∧ N ≤ 2 ^ 53 ∧
      roundDouble x = (if x < 0 then -1 else 1) * (N : ℚ) * (2 : ℚ) ^ (doubleExponent x - 52) ∧
      |roundDouble x| = (N : ℚ) * (2 : ℚ) ^ (doubleExponent x - 52) ∧
      ((2 : ℚ) ^ doubleExponent x ≤ |x| → 2 ^ 52 ≤ N) := by
  have hulp : (0 : ℚ) < (2 : ℚ) ^ (doubleExponent x - 52) := zpow_pos (by norm_num) _
  have hq0 : (0 : ℚ) ≤ |x| / (2 : ℚ) ^ (doubleExponent x - 52) :=
    div_nonneg (abs_nonneg x) hulp.le
  have hN0 : 0 ≤ roundHalfEven (|x| / (2 : ℚ) ^ (doubleExponent x - 52)) :=
    roundHalfEven_ge _ 0 (by exact_mod_cast hq0)
  have hsplit : (2 : ℚ) ^ (doubleExponent x + 1) =
      2 ^ 53 * (2 : ℚ) ^ (doubleExponent x - 52) := by
    rw [show doubleExponent x + 1 = 53 + (doubleExponent x - 52) by ring,
      zpow_add₀ (by norm_num : (2 : ℚ) ≠ 0)]
    norm_num
  have hsplit2 : (2 : ℚ) ^ doubleExponent x = 2 ^ 52 * (2 : ℚ) ^ (doubleExponent x - 52) := by
    rw [show doubleExponent x = 52 + (doubleExponent x - 52) by ring,
      zpow_add₀ (by norm_num : (2 : ℚ) ≠ 0)]
    norm_num
  have hlt : |x| < (2 : ℚ) ^ (doubleExponent x + 1) := by
    have h1 : |x| < (2 : ℚ) ^ (Int.log 2 |x| + 1) := by
      exact_mod_cast Int.lt_zpow_succ_log_self (by norm_num : 1 < 2) |x|
    have h2 : (2 : ℚ) ^ (Int.log 2 |x| + 1) ≤ (2 : ℚ) ^ (doubleExponent x + 1) :=
      zpow_le_zpow_right₀ (by norm_num) (by unfold doubleExponent; omega)
    exact lt_of_lt_of_le h1 h2
  have hNq :
      (0 : ℚ) ≤ ((roundHalfEven (|x| / (2 : ℚ) ^ (doubleExponent x - 52)) : Int) : ℚ) := by
    exact_mod_cast hN0
  refine ⟨roundHalfEven (|x| / (2 : ℚ) ^ (doubleExponent x - 52)), hN0, ?_, rfl, ?_, ?_⟩
  · apply roundHalfEven_le
    rw [div_le_iff₀ hulp]
    have h' : |x| ≤ ((2 ^ 53 : Int) : ℚ) * (2 : ℚ) ^ (doubleExponent x - 52) := by
      have h0 := hlt.le
      rw [hsplit] at h0
      norm_num at h0 ⊢
      exact h0
    exact h'
  · unfold roundDouble
    dsimp only
    by_cases hx : x < 0
    · rw [if_pos hx, abs_mul, abs_mul, abs_of_pos hulp, abs_of_nonneg hNq]
      simp
    · rw [if_neg hx, abs_mul, abs_mul, abs_of_pos hulp, abs_of_nonneg hNq]
      simp
  · intro h
    apply roundHalfEven_ge
    rw [le_div_iff₀ hulp]
    have h' : ((2 ^ 52 : Int) : ℚ) * (2 : ℚ) ^ (doubleExponent x - 52) ≤ |x| := by
      have h0 := h
      rw [hsplit2] at h0
      norm_num at h0 ⊢
      exact h0
    exact h'

/-- Rounding does not take a value below a normal power of two that it reaches. -/
theorem roundDouble_abs_ge (x : ℚ) (a : Int) (ha : -1022 ≤ a) (h : (2 : ℚ) ^ a ≤ |x|) :
    (2 : ℚ) ^ a ≤ |roundDouble x| := by
  have hpos : 0 < |x| := lt_of_lt_of_le (zpow_pos (by norm_num) a) h
  have hlog : a ≤ Int.log 2 |x| :=
    (Int.zpow_le_iff_le_log (by norm_num) hpos).mp (by exact_mod_cast h)
  have hE : doubleExponent x = Int.log 2 |x| := by
    unfold doubleExponent
    exact max_eq_left (by omega)
  have hle : (2 : ℚ) ^ doubleExponent x ≤ |x| := by
    rw [hE]
    exact_mod_cast Int.zpow_log_le_self (by norm_num : 1 < 2) hpos
  obtain ⟨N, _, _, _, habs, hN⟩ := roundDouble_grid x
  have hN' : ((2 ^ 52 : Int) : ℚ) ≤ (N : ℚ) := by exact_mod_cast hN hle
  have hulp : (0 : ℚ) < (2 : ℚ) ^ (doubleExponent x - 52) := zpow_pos (by norm_num) _
  rw [habs]
  calc (2 : ℚ) ^ a ≤ (2 : ℚ) ^ doubleExponent x :=
        zpow_le_zpow_right₀ (by norm_num) (by omega)
    _ = ((2 ^ 52 : Int) : ℚ) * (2 : ℚ) ^ (doubleExponent x - 52) := by
        rw [show doubleExponent x = 52 + (doubleExponent x - 52) by ring,
          zpow_add₀ (by norm_num : (2 : ℚ) ≠ 0)]
        norm_num
    _ ≤ (N : ℚ) * (2 : ℚ) ^ (doubleExponent x - 52) :=
        mul_le_mul_of_nonneg_right hN' hulp.le

/-- Rounding does not take a value above a power of two that it stays below. -/
theorem roundDouble_abs_le (x : ℚ) (a : Int) (ha : -1021 ≤ a) (h : |x| < (2 : ℚ) ^ a) :
    |roundDouble x| ≤ (2 : ℚ) ^ a := by
  by_cases hx : x = 0
  · subst hx
    rw [roundDouble_zero, abs_zero]
    exact (zpow_pos (by norm_num) a).le
  have hpos : 0 < |x| := abs_pos.mpr hx
  have hlog : Int.log 2 |x| < a :=
    (Int.lt_zpow_iff_log_lt (by norm_num) hpos).mp (by exact_mod_cast h)
  have hE : doubleExponent x + 1 ≤ a := by
    unfold doubleExponent
    rcases max_cases (Int.log 2 |x|) (-1022) with ⟨e, _⟩ | ⟨e, _⟩ <;> rw [e] <;> omega
  obtain ⟨N, _, hN, _, habs, _⟩ := roundDouble_grid x
  have hN' : (N : ℚ) ≤ ((2 ^ 53 : Int) : ℚ) := by exact_mod_cast hN
  have hulp : (0 : ℚ) < (2 : ℚ) ^ (doubleExponent x - 52) := zpow_pos (by norm_num) _
  rw [habs]
  calc (N : ℚ) * (2 : ℚ) ^ (doubleExponent x - 52)
      ≤ ((2 ^ 53 : Int) : ℚ) * (2 : ℚ) ^ (doubleExponent x - 52) :=
        mul_le_mul_of_nonneg_right hN' hulp.le
    _ = (2 : ℚ) ^ (doubleExponent x + 1) := by
        rw [show doubleExponent x + 1 = 53 + (doubleExponent x - 52) by ring,
          zpow_add₀ (by norm_num : (2 : ℚ) ≠ 0)]
        norm_num
    _ ≤ (2 : ℚ) ^ a := zpow_le_zpow_right₀ (by norm_num) hE

/-- A rounded value above one half is a whole multiple of `2^-53`. -/
theorem roundDouble_multiple (y : ℚ) (h : 1 / 2 < |roundDouble y|) :
    ∃ k : Int, roundDouble y = (k : ℚ) / 2 ^ 53 := by
  obtain ⟨N, _, hN, hval, habs, _⟩ := roundDouble_grid y
  have hN' : (N : ℚ) ≤ ((2 ^ 53 : Int) : ℚ) := by exact_mod_cast hN
  have hulp : (0 : ℚ) < (2 : ℚ) ^ (doubleExponent y - 52) := zpow_pos (by norm_num) _
  have hsplit : ((2 ^ 53 : Int) : ℚ) * (2 : ℚ) ^ (doubleExponent y - 52) =
      (2 : ℚ) ^ (doubleExponent y + 1) := by
    rw [show doubleExponent y + 1 = 53 + (doubleExponent y - 52) by ring,
      zpow_add₀ (by norm_num : (2 : ℚ) ≠ 0)]
    norm_num
  have hE : -1 ≤ doubleExponent y := by
    by_contra hc
    push_neg at hc
    have h1 : |roundDouble y| ≤ (2 : ℚ) ^ (doubleExponent y + 1) := by
      rw [habs, ← hsplit]
      exact mul_le_mul_of_nonneg_right hN' hulp.le
    have h2 : (2 : ℚ) ^ (doubleExponent y + 1) ≤ (2 : ℚ) ^ (-1 : Int) :=
      zpow_le_zpow_right₀ (by norm_num) (by omega)
    have h3 : (2 : ℚ) ^ (-1 : Int) = 1 / 2 := by norm_num
    have h4 := h1.trans (h2.trans (le_of_eq h3))
    linarith
  obtain ⟨m, hm⟩ := Int.eq_ofNat_of_zero_le (by omega : 0 ≤ doubleExponent y + 1)
  have hu : (2 : ℚ) ^ (doubleExponent y - 52) = (2 : ℚ) ^ m / 2 ^ 53 := by
    rw [show doubleExponent y - 52 = (doubleExponent y + 1) + (-53) by ring,
      zpow_add₀ (by norm_num : (2 : ℚ) ≠ 0), hm, zpow_natCast]
    norm_num
    ring
  refine ⟨(if y < 0 then -1 else 1) * N * 2 ^ m, ?_⟩
  rw [hval, hu]
  split_ifs <;> push_cast <;> ring

/-- A multiple of `2^-53` between `2^-14` and `2^-13` in size is a double: rounding
leaves it as it is. -/
theorem roundDouble_fixed (d : ℚ) (k : Int) (hk : d = (k : ℚ) / 2 ^ 53)
    (h1 : 1 / 16384 ≤ |d|) (h2 : |d| < 1 / 8192) : roundDouble d = d := by
  have key : ∀ (d : ℚ) (k : Int), d = (k : ℚ) / 2 ^ 53 → 0 < d → 1 / 16384 ≤ d →
      d < 1 / 8192 → roundDouble d = d := by
    intro d k hk _ h1 h2
    rw [roundDouble_eq d (-14) (k * 2 ^ 13) (by norm_num; linarith) (by norm_num; linarith)
      (by norm_num) (by
        rw [hk]
        norm_num
        have : (k : ℚ) / 9007199254740992 / (1 / 73786976294838206464) -
            (k : ℚ) * 8192 = 0 := by
          ring
        rw [this]
        norm_num)]
    rw [hk]
    norm_num
    ring
  rcases lt_trichotomy d 0 with hd | hd | hd
  · have := key (-d) (-k) (by rw [hk]; push_cast; ring) (by linarith)
      (by rwa [abs_of_neg hd] at h1) (by rwa [abs_of_neg hd] at h2)
    rw [roundDouble_neg] at this
    linarith
  · subst hd
    norm_num at h1
  · exact key d k hk hd (by rwa [abs_of_pos hd] at h1) (by rwa [abs_of_pos hd] at h2)

/-- The difference from 1 of a value computed in double arithmetic, itself
computed in double arithmetic, is never the double `1e-4`. -/
theorem roundDouble_diff_ne (y : ℚ) :
    |roundDouble (roundDouble y - 1)| ≠ roundDouble (1 / 10000) := by
  rw [roundDouble_epsilon]
  intro heq
  by_cases hsmall : |roundDouble y - 1| < 1 / 16384
  · have := roundDouble_abs_le (roundDouble y - 1) (-14) (by norm_num)
      (by norm_num; linarith)
    rw [heq] at this
    norm_num at this
  by_cases hbig : 1 / 8192 ≤ |roundDouble y - 1|
  · have := roundDouble_abs_ge (roundDouble y - 1) (-13) (by norm_num)
      (by norm_num; linarith)
    rw [heq] at this
    norm_num at this
  push_neg at hsmall hbig
  have hs : 1 / 2 < |roundDouble y| := by
    have h1 := (abs_lt.mp hbig).1
    have : 1 / 2 < roundDouble y := by linarith
    exact lt_of_lt_of_le this (le_abs_self _)
  obtain ⟨k, hk⟩ := roundDouble_multiple y hs
  have hd : roundDouble y - 1 = ((k - 2 ^ 53 : Int) : ℚ) / 2 ^ 53 := by
    rw [hk]
    push_cast
    ring
  rw [roundDouble_fixed _ _ hd hsmall hbig, hd] at heq
  have hodd : |((k - 2 ^ 53 : Int) : ℚ)| * 8192 = 7378697629483821 := by
    have e : ((k - 2 ^ 53 : Int) : ℚ) = (k : ℚ) - 9007199254740992 := by
      push_cast
      norm_num
    rw [abs_div] at heq
    norm_num at heq
    field_simp at heq
    rw [e]
    linarith
  have hint : (|k - 2 ^ 53| : Int) * 8192 = 7378697629483821 := by
    have : ((|k - 2 ^ 53| * 8192 : Int) : ℚ) = ((7378697629483821 : Int) : ℚ) := by
      push_cast
      rw [← hodd]
      norm_num
    exact_mod_cast this
  omega

/-- The rounding of a tie: when the value lies exactly between two neighbours of
the grid of its exponent, the one with the even multiplier is taken. -/
theorem roundDouble_tie (x : ℚ) (e f : Int) (h1 : (2 : ℚ) ^ e ≤ x)
    (h2 : x < (2 : ℚ) ^ (e + 1)) (he : -1022 ≤ e)
    (hq : x / (2 : ℚ) ^ (e - 52) = (f : ℚ) + 1 / 2) :
    roundDouble x = (((if f % 2 = 0 then f else f + 1) : Int) : ℚ) * (2 : ℚ) ^ (e - 52) := by
  have hx : 0 < x := lt_of_lt_of_le (zpow_pos (by norm_num) e) h1
  have hlog : doubleExponent x = e := by
    unfold doubleExponent
    rw [abs_of_pos hx, log_two_eq x e h1 h2]
    exact max_eq_left he
  have hr : roundHalfEven (x / (2 : ℚ) ^ (e - 52)) = if f % 2 = 0 then f else f + 1 := by
    have hf : ⌊x / (2 : ℚ) ^ (e - 52)⌋ = f :=
      Int.floor_eq_iff.mpr ⟨by rw [hq]; linarith, by rw [hq]; linarith⟩
    unfold roundHalfEven
    dsimp only
    rw [hf, hq, if_neg (by norm_num), if_neg (by norm_num)]
  unfold roundDouble
  dsimp only
  rw [hlog, abs_of_pos hx, hr, if_neg (not_lt.mpr hx.le)]
  ring

/-- The doubles 0.0999, 0.3 and 0.6, their sum as accumulated in this order in
`double` arithmetic, and the computed distance of that sum from 1. -/
theorem phiDoubles_rounding :
    roundDouble (999 / 10000) = 7198553644389001 / 72057594037927936 ∧
    roundDouble (3 / 10) = 5404319552844595 / 18014398509481984 ∧
    roundDouble (3 / 5) = 5404319552844595 / 9007199254740992 ∧
    roundDouble (roundDouble (roundDouble (roundDouble (999 / 10000)) + roundDouble (3 / 10)) +
        roundDouble (3 / 5)) = 4503149267407759 / 4503599627370496 ∧
    |roundDouble (4503149267407759 / 4503599627370496 - 1)| =
      450359962737 / 4503599627370496 := by
  have ha :
      roundDouble (999 / 10000) =
        7198553644389001 / 72057594037927936 := by
    rw [roundDouble_eq
      (999 / 10000)
      (-4) 7198553644389001
      (by norm_num) (by norm_num) (by norm_num) (by norm_num [abs_lt])]
    norm_num
  have hb :
      roundDouble (3 / 10) =
        5404319552844595 / 18014398509481984 := by
    rw [roundDouble_eq
      (3 / 10)
      (-2) 5404319552844595
      (by norm_num) (by norm_num) (by norm_num) (by norm_num [abs_lt])]
    norm_num
  have hc :
      roundDouble (3 / 5) =
        5404319552844595 / 9007199254740992 := by
    rw [roundDouble_eq
      (3 / 5)
      (-1) 5404319552844595
      (by norm_num) (by norm_num) (by norm_num) (by norm_num [abs_lt])]
    norm_num
  have h1 :
      roundDouble (7198553644389001 / 72057594037927936) =
        7198553644389001 / 72057594037927936 := by
    rw [roundDouble_eq
      (7198553644389001 / 72057594037927936)
      (-4) 7198553644389001
      (by norm_num) (by norm_num) (by norm_num) (by norm_num [abs_lt])]
    norm_num
  have h2 :
      roundDouble (7198553644389001 / 72057594037927936 + 5404319552844595 / 18014398509481984) =
        7203957963941845 / 18014398509481984 := by
    rw [roundDouble_eq
      (7198553644389001 / 72057594037927936 + 5404319552844595 / 18014398509481984)
      (-2) 7203957963941845
      (by norm_num) (by norm_num) (by norm_num) (by norm_num [abs_lt])]
    norm_num
  have h3 :
      roundDouble (7203957963941845 / 18014398509481984 +
        5404319552844595 / 9007199254740992) =
        4503149267407759 / 4503599627370496 := by
    rw [roundDouble_tie
      (7203957963941845 / 18014398509481984 +
        5404319552844595 / 9007199254740992)
      (-1) 9006298534815517
      (by norm_num) (by norm_num) (by norm_num) (by norm_num)]
    norm_num
  have h4 :
      roundDouble (1 - 4503149267407759 / 4503599627370496) =
        450359962737 / 4503599627370496 := by
    rw [roundDouble_eq
      (1 - 4503149267407759 / 4503599627370496)
      (-14) 7378697629483008
      (by norm_num) (by norm_num) (by norm_num) (by norm_num [abs_lt])]
    norm_num
  refine ⟨ha, hb, hc, by rw [ha, hb, hc, h1, h2, h3], ?_⟩
  rw [show (4503149267407759 / 4503599627370496 : ℚ) - 1 =
      -(1 - 4503149267407759 / 4503599627370496) by norm_num,
    roundDouble_neg, abs_neg, h4]
  norm_num

/-- The doubles 0.6, 0.3 and 0.0999, their sum as accumulated in this order in
`double` arithmetic, and the computed distance of that sum from 1. -/
theorem phiDoubles_reversed :
    roundDouble (3 / 5) = 5404319552844595 / 9007199254740992 ∧
    roundDouble (3 / 10) = 5404319552844595 / 18014398509481984 ∧
    roundDouble (999 / 10000) = 7198553644389001 / 72057594037927936 ∧
    roundDouble (roundDouble (roundDouble (roundDouble (3 / 5)) + roundDouble (3 / 10)) +
        roundDouble (999 / 10000)) = 9006298534815517 / 9007199254740992 ∧
    |roundDouble (9006298534815517 / 9007199254740992 - 1)| =
      900719925475 / 9007199254740992 := by
  have ha :
      roundDouble (3 / 5) =
        5404319552844595 / 9007199254740992 := by
    rw [roundDouble_eq
      (3 / 5)
      (-1) 5404319552844595
      (by norm_num) (by norm_num) (by norm_num) (by norm_num [abs_lt])]
    norm_num
  have hb :
      roundDouble (3 / 10) =
        5404319552844595 / 18014398509481984 := by
    rw [roundDouble_eq
      (3 / 10)
      (-2) 5404319552844595
      (by norm_num) (by norm_num) (by norm_num) (by norm_num [abs_lt])]
    norm_num
  have hc :
      roundDouble (999 / 10000) =
        7198553644389001 / 72057594037927936 := by
    rw [roundDouble_eq
      (999 / 10000)
      (-4) 7198553644389001
      (by norm_num) (by norm_num) (by norm_num) (by norm_num [abs_lt])]
    norm_num
  have h1 :
      roundDouble (5404319552844595 / 9007199254740992) =
        5404319552844595 / 9007199254740992 := by
    rw [roundDouble_eq
      (5404319552844595 / 9007199254740992)
      (-1) 5404319552844595
      (by norm_num) (by norm_num) (by norm_num) (by norm_num [abs_lt])]
    norm_num
  have h2 :
      roundDouble (5404319552844595 / 9007199254740992 + 5404319552844595 / 18014398509481984) =
        2026619832316723 / 2251799813685248 := by
    rw [roundDouble_tie
      (5404319552844595 / 9007199254740992 + 5404319552844595 / 18014398509481984)
      (-1) 8106479329266892
      (by norm_num) (by norm_num) (by norm_num) (by norm_num)]
    norm_num
  have h3 :
      roundDouble (2026619832316723 / 2251799813685248 +
        7198553644389001 / 72057594037927936) =
        9006298534815517 / 9007199254740992 := by
    rw [roundDouble_eq
      (2026619832316723 / 2251799813685248 +
        7198553644389001 / 72057594037927936)
      (-1) 9006298534815517
      (by norm_num) (by norm_num) (by norm_num) (by norm_num [abs_lt])]
    norm_num
  have h4 :
      roundDouble (1 - 9006298534815517 / 9007199254740992) =
        900719925475 / 9007199254740992 := by
    rw [roundDouble_eq
      (1 - 9006298534815517 / 9007199254740992)
      (-14) 7378697629491200
      (by norm_num) (by norm_num) (by norm_num) (by norm_num [abs_lt])]
    norm_num
  refine ⟨ha, hb, hc, by rw [ha, hb, hc, h1, h2, h3], ?_⟩
  rw [show (9006298534815517 / 9007199254740992 : ℚ) - 1 =
      -(1 - 9006298534815517 / 9007199254740992) by norm_num,
    roundDouble_neg, abs_neg, h4]
  norm_num

/-- The doubles 0.5, 0.3 and 0.1 of scenario S4, their sum as accumulated in
`double` arithmetic, and the computed distance of that sum from 1. -/
theorem phiDoubles_rejected :
    roundDouble (1 / 2) = 1 / 2 ∧
    roundDouble (3 / 10) = 5404319552844595 / 18014398509481984 ∧
    roundDouble (1 / 10) = 3602879701896397 / 36028797018963968 ∧
    roundDouble (roundDouble (roundDouble (roundDouble (1 / 2)) + roundDouble (3 / 10)) +
        roundDouble (1 / 10)) = 8106479329266893 / 9007199254740992 ∧
    |roundDouble (8106479329266893 / 9007199254740992 - 1)| =
      900719925474099 / 9007199254740992 := by
  have ha :
      roundDouble (1 / 2) =
        1 / 2 := by
    rw [roundDouble_eq
      (1 / 2)
      (-1) 4503599627370496
      (by norm_num) (by norm_num) (by norm_num) (by norm_num [abs_lt])]
    norm_num
  have hb :
      roundDouble (3 / 10) =
        5404319552844595 / 18014398509481984 := by
    rw [roundDouble_eq
      (3 / 10)
      (-2) 5404319552844595
      (by norm_num) (by norm_num) (by norm_num) (by norm_num [abs_lt])]
    norm_num
  have hc :
      roundDouble (1 / 10) =
        3602879701896397 / 36028797018963968 := by
    rw [roundDouble_eq
      (1 / 10)
      (-4) 7205759403792794
      (by norm_num) (by norm_num) (by norm_num) (by norm_num [abs_lt])]
    norm_num
  have h1 :
      roundDouble (1 / 2) =
        1 / 2 := by
    rw [roundDouble_eq
      (1 / 2)
      (-1) 4503599627370496
      (by norm_num) (by norm_num) (by norm_num) (by norm_num [abs_lt])]
    norm_num
  have h2 :
      roundDouble (1 / 2 + 5404319552844595 / 18014398509481984) =
        3602879701896397 / 4503599627370496 := by
    rw [roundDouble_tie
      (1 / 2 + 5404319552844595 / 18014398509481984)
      (-1) 7205759403792793
      (by norm_num) (by norm_num) (by norm_num) (by norm_num)]
    norm_num
  have h3 :
      roundDouble (3602879701896397 / 4503599627370496 +
        3602879701896397 / 36028797018963968) =
        8106479329266893 / 9007199254740992 := by
    rw [roundDouble_eq
      (3602879701896397 / 4503599627370496 +
        3602879701896397 / 36028797018963968)
      (-1) 8106479329266893
      (by norm_num) (by norm_num) (by norm_num) (by norm_num [abs_lt])]
    norm_num
  have h4 :
      roundDouble (1 - 8106479329266893 / 9007199254740992) =
        900719925474099 / 9007199254740992 := by
    rw [roundDouble_eq
      (1 - 8106479329266893 / 9007199254740992)
      (-4) 7205759403792792
      (by norm_num) (by norm_num) (by norm_num) (by norm_num [abs_lt])]
    norm_num
  refine ⟨ha, hb, hc, by rw [ha, hb, hc, h1, h2, h3], ?_⟩
  rw [show (8106479329266893 / 9007199254740992 : ℚ) - 1 =
      -(1 - 8106479329266893 / 9007199254740992) by norm_num,
    roundDouble_neg, abs_neg, h4]
  norm_num

/-- The doubles 0.5, 0.25 and 0.25, their sum as accumulated in `double`
arithmetic, and the computed distance of that sum from 1. -/
theorem phiDoubles_accepted :
    roundDouble (1 / 2) = 1 / 2 ∧
    roundDouble (1 / 4) = 1 / 4 ∧
    roundDouble (1 / 4) = 1 / 4 ∧
    roundDouble (roundDouble (roundDouble (roundDouble (1 / 2)) + roundDouble (1 / 4)) +
        roundDouble (1 / 4)) = 1 ∧
    |roundDouble (1 - 1)| =
      0 := by
  have ha :
      roundDouble (1 / 2) =
        1 / 2 := by
    rw [roundDouble_eq
      (1 / 2)
      (-1) 4503599627370496
      (by norm_num) (by norm_num) (by norm_num) (by norm_num [abs_lt])]
    norm_num
  have hb :
      roundDouble (1 / 4) =
        1 / 4 := by
    rw [roundDouble_eq
      (1 / 4)
      (-2) 4503599627370496
      (by norm_num) (by norm_num) (by norm_num) (by norm_num [abs_lt])]
    norm_num
  have hc :
      roundDouble (1 / 4) =
        1 / 4 := by
    rw [roundDouble_eq
      (1 / 4)
      (-2) 4503599627370496
      (by norm_num) (by norm_num) (by norm_num) (by norm_num [abs_lt])]
    norm_num
  have h1 :
      roundDouble (1 / 2) =
        1 / 2 := by
    rw [roundDouble_eq
      (1 / 2)
      (-1) 4503599627370496
      (by norm_num) (by norm_num) (by norm_num) (by norm_num [abs_lt])]
    norm_num
  have h2 :
      roundDouble (1 / 2 + 1 / 4) =
        3 / 4 := by
    rw [roundDouble_eq
      (1 / 2 + 1 / 4)
      (-1) 6755399441055744
      (by norm_num) (by norm_num) (by norm_num) (by norm_num [abs_lt])]
    norm_num
  have h3 :
      roundDouble (3 / 4 +
        1 / 4) =
        1 := by
    rw [roundDouble_eq
      (3 / 4 +
        1 / 4)
      (0) 4503599627370496
      (by norm_num) (by norm_num) (by norm_num) (by norm_num [abs_lt])]
    norm_num
  refine ⟨ha, hb, hc, by rw [ha, hb, h1, h2, h3], ?_⟩
  norm_num [roundDouble_zero]

/-! ## `PhiFactorModel::Validate` in `double` arithmetic (claims C19, C20) -/

/-- The three sums accumulated by the loop of `PhiFactorModel::Validate` are the
sums of the means, of the mins and of the maxes of the factors, each
accumulated in `double` arithmetic in the order of the factors. -/
theorem phi_sums_eq (factors : List (Int × Expression)) :
    PhiFactorModel.sums factors =
      (doubleSum (factors.map (fun it => it.2.Mean)),
        doubleSum (factors.map (fun it => it.2.Min)),
        doubleSum (factors.map (fun it => it.2.Max))) := by
  have key : ∀ (l : List (Int × Expression)) (acc : ℚ × ℚ × ℚ),
      l.foldl (fun acc it =>
          (roundDouble (acc.1 + it.2.Mean), roundDouble (acc.2.1 + it.2.Min),
            roundDouble (acc.2.2 + it.2.Max))) acc =
        ((l.map (fun it => it.2.Mean)).foldl (fun acc x => roundDouble (acc + x)) acc.1,
          (l.map (fun it => it.2.Min)).foldl (fun acc x => roundDouble (acc + x)) acc.2.1,
          (l.map (fun it => it.2.Max)).foldl (fun acc x => roundDouble (acc + x)) acc.2.2) := by
    intro l
    induction l with
    | nil => intro acc; rfl
    | cons it rest ih =>
      intro acc
      simp only [List.foldl_cons, List.map_cons]
      rw [ih]
  unfold PhiFactorModel.sums doubleSum
  rw [key]

/-- Every sum accumulated in `double` arithmetic is a value of the rounding. -/
theorem doubleSum_rounded (l : List ℚ) : ∃ y, doubleSum l = roundDouble y := by
  have key : ∀ (l : List ℚ) (init : ℚ), (∃ y, init = roundDouble y) →
      ∃ y, l.foldl (fun acc x => roundDouble (acc + x)) init = roundDouble y := by
    intro l
    induction l with
    | nil => intro init h; exact h
    | cons x rest ih =>
      intro init _
      exact ih _ ⟨init + x, rfl⟩
  exact key l 0 ⟨0, roundDouble_zero.symm⟩

/-- What `PhiFactorModel::Validate` returns once the base checks have passed. -/
theorem phi_validate_cases (g : CcfGroup) (hbase : g.ValidateBase = .ok ()) :
    ((|roundDouble (doubleSum (g.factors_.map (fun it => it.2.Mean)) - 1)| >
        roundDouble (1 / 10000) ∨
      |roundDouble (doubleSum (g.factors_.map (fun it => it.2.Min)) - 1)| >
        roundDouble (1 / 10000) ∨
      |roundDouble (doubleSum (g.factors_.map (fun it => it.2.Max)) - 1)| >
        roundDouble (1 / 10000)) →
      PhiFactorModel.Validate g =
        .error (.ValidationError ("The factors for Phi model ".toList ++ g.name_ ++
          " CCF group must sum to 1.".toList))) ∧
    (¬ (|roundDouble (doubleSum (g.factors_.map (fun it => it.2.Mean)) - 1)| >
        roundDouble (1 / 10000) ∨
      |roundDouble (doubleSum (g.factors_.map (fun it => it.2.Min)) - 1)| >
        roundDouble (1 / 10000) ∨
      |roundDouble (doubleSum (g.factors_.map (fun it => it.2.Max)) - 1)| >
        roundDouble (1 / 10000)) →
      PhiFactorModel.Validate g = .ok ()) := by
  constructor
  · intro h
    have h' : |roundDouble (doubleSum (g.factors_.map (fun it => it.2.Min)) - 1)| >
          roundDouble (1 / 10000) ∨
        |roundDouble (doubleSum (g.factors_.map (fun it => it.2.Mean)) - 1)| >
          roundDouble (1 / 10000) ∨
        |roundDouble (doubleSum (g.factors_.map (fun it => it.2.Max)) - 1)| >
          roundDouble (1 / 10000) := by tauto
    simp only [PhiFactorModel.Validate, hbase, phi_sums_eq, if_pos h']
  · intro h
    have h' : ¬ (|roundDouble (doubleSum (g.factors_.map (fun it => it.2.Min)) - 1)| >
          roundDouble (1 / 10000) ∨
        |roundDouble (doubleSum (g.factors_.map (fun it => it.2.Mean)) - 1)| >
          roundDouble (1 / 10000) ∨
        |roundDouble (doubleSum (g.factors_.map (fun it => it.2.Max)) - 1)| >
          roundDouble (1 / 10000)) := by tauto
    simp only [PhiFactorModel.Validate, hbase, phi_sums_eq, if_neg h']

/-- The factors of `scenarioPhiDoubles a b c`: their means, mins and maxes are the
three doubles, so each of the three sums is the sum of the doubles accumulated
in their order; and the exact sum of the means is the sum of the doubles. -/
theorem phiDoubles_sums (a b c : ℚ) :
    doubleSum ((scenarioPhiDoubles a b c).factors_.map (fun it => it.2.Mean)) =
      roundDouble (roundDouble (roundDouble (roundDouble a) + roundDouble b) + roundDouble c) ∧
    doubleSum ((scenarioPhiDoubles a b c).factors_.map (fun it => it.2.Min)) =
      roundDouble (roundDouble (roundDouble (roundDouble a) + roundDouble b) + roundDouble c) ∧
    doubleSum ((scenarioPhiDoubles a b c).factors_.map (fun it => it.2.Max)) =
      roundDouble (roundDouble (roundDouble (roundDouble a) + roundDouble b) + roundDouble c) ∧
    ((scenarioPhiDoubles a b c).factors_.map (fun it => it.2.Mean)).sum =
      roundDouble a + roundDouble b + roundDouble c := by
  refine ⟨?_, ?_, ?_, ?_⟩ <;>
    simp [scenarioPhiDoubles, scenarioGroup, doubleSum, Expression.Mean, Expression.Min,
      Expression.Max, Expression.Interval, add_assoc]

/-- The base checks of `Validate` pass on `scenarioPhiDoubles a b c` when the
three doubles lie in `[0, 1]`. -/
theorem phiDoubles_base (a b c : ℚ) (ha : 0 ≤ roundDouble a ∧ roundDouble a ≤ 1)
    (hb : 0 ≤ roundDouble b ∧ roundDouble b ≤ 1)
    (hc : 0 ≤ roundDouble c ∧ roundDouble c ≤ 1) :
    (scenarioPhiDoubles a b c).ValidateBase = .ok () := by
  simp [CcfGroup.ValidateBase, scenarioPhiDoubles, scenarioGroup, CcfGroup.validateFactors,
    Expression.Min, Expression.Max, Expression.Interval, not_lt.mpr ha.1, not_lt.mpr ha.2,
    not_lt.mpr hb.1, not_lt.mpr hb.2, not_lt.mpr hc.1, not_lt.mpr hc.2]

/-- A group `scenarioPhiDoubles a b c` is built by calls of the three `Add` functions. -/
theorem reachable_phiDoubles (a b c : ℚ) : Reachable (scenarioPhiDoubles a b c) :=
  Reachable.addFactor _ _ (Expression.ConstantExpression (roundDouble c)) 3
    (Reachable.addFactor _ _ (Expression.ConstantExpression (roundDouble b)) 2
      (Reachable.addFactor _ _ (Expression.ConstantExpression (roundDouble a)) 1
        (Reachable.addDistribution _ _ scenarioQ
          (Reachable.addMember _ _ (scenarioEvent "C".toList)
            (Reachable.addMember _ _ (scenarioEvent "B".toList)
              (Reachable.addMember _ _ (scenarioEvent "A".toList)
                (Reachable.create Model.PhiFactorModel "G".toList "model".toList [] true _ rfl)
                rfl) rfl) rfl) rfl) rfl) rfl) rfl

/-- What `Validate` returns on `scenarioPhiDoubles a b c` when the three doubles
lie in `[0, 1]`: the verdict of the comparison of the computed distance of the
accumulated sum from 1 with the double `1e-4`. -/
theorem phiDoubles_validate (a b c : ℚ) (ha : 0 ≤ roundDouble a ∧ roundDouble a ≤ 1)
    (hb : 0 ≤ roundDouble b ∧ roundDouble b ≤ 1)
    (hc : 0 ≤ roundDouble c ∧ roundDouble c ≤ 1) :
    (scenarioPhiDoubles a b c).Validate =
      if |roundDouble (roundDouble (roundDouble (roundDouble (roundDouble a) + roundDouble b) +
          roundDouble c) - 1)| > roundDouble (1 / 10000) then
        .error (.ValidationError "The factors for Phi model G CCF group must sum to 1.".toList)
      else .ok () := by
  obtain ⟨h1, h2⟩ :=
    phi_validate_cases (scenarioPhiDoubles a b c) (phiDoubles_base a b c ha hb hc)
  obtain ⟨s1, s2, s3, _⟩ := phiDoubles_sums a b c
  rw [s1, s2, s3] at h1 h2
  rw [validate_of_phi _ rfl]
  split_ifs with hgt
  · exact h1 (Or.inl hgt)
  · exact h2 (by tauto)

/-- The verdict of `Validate` depends on the order of the factors: the doubles
0.0999, 0.3 and 0.6 are accepted in this order and rejected in the opposite
order, as the two accumulated sums differ in their last bit. -/
theorem phi_validate_depends_on_order :
    scenarioPhiRounding.Validate = .ok () ∧
    scenarioPhiReversed.Validate =
      .error (.ValidationError "The factors for Phi model G CCF group must sum to 1.".toList) := by
  constructor
  · obtain ⟨ha, hb, hc, hs, hd⟩ := phiDoubles_rounding
    unfold scenarioPhiRounding
    rw [phiDoubles_validate _ _ _ (by rw [ha]; norm_num) (by rw [hb]; norm_num)
      (by rw [hc]; norm_num), hs, hd, roundDouble_epsilon, if_neg (by norm_num)]
  · obtain ⟨ha, hb, hc, hs, hd⟩ := phiDoubles_reversed
    unfold scenarioPhiReversed
    rw [phiDoubles_validate _ _ _ (by rw [ha]; norm_num) (by rw [hb]; norm_num)
      (by rw [hc]; norm_num), hs, hd, roundDouble_epsilon, if_pos (by norm_num)]

/-- C19 as amended: for a Phi-Factor group that passes the base checks, `Validate`
fails with the `ValidationError` saying that the factors for the Phi model of
this group must sum to 1, whenever the sum of the means of the factors, or the
sum of their mins, or the sum of their maxes, accumulated in `double` arithmetic
in the order of the factors, has a distance from 1, computed in `double`
arithmetic, that is greater than the double `1e-4`. -/
theorem phi_validate_sum (g : CcfGroup) (hkind : g.kind = Model.PhiFactorModel)
    (hbase : g.ValidateBase = .ok ())
    (hsum : |roundDouble (doubleSum (g.factors_.map (fun it => it.2.Mean)) - 1)| >
        roundDouble (1 / 10000) ∨
      |roundDouble (doubleSum (g.factors_.map (fun it => it.2.Min)) - 1)| >
        roundDouble (1 / 10000) ∨
      |roundDouble (doubleSum (g.factors_.map (fun it => it.2.Max)) - 1)| >
        roundDouble (1 / 10000)) :
    g.Validate =
      .error (.ValidationError ("The factors for Phi model ".toList ++ g.name_ ++
        " CCF group must sum to 1.".toList)) := by
  rw [validate_of_phi g hkind]
  exact (phi_validate_cases g hbase).1 hsum

/-- C19 as amended, on scenario S4: the doubles 0.5, 0.3 and 0.1 are accumulated to
the double 0.9, which is `8106479329266893 / 2^53`, whose computed distance from
1 is above the double `1e-4`, and the group is rejected. -/
theorem phi_validate_sum_witness :
    doubleSum (scenarioPhiRejected.factors_.map (fun it => it.2.Mean)) = roundDouble (9 / 10) ∧
    roundDouble (9 / 10) = 8106479329266893 / 9007199254740992 ∧
    |roundDouble (roundDouble (9 / 10) - 1)| > roundDouble (1 / 10000) ∧
    scenarioPhiRejected.Validate =
      .error (.ValidationError "The factors for Phi model G CCF group must sum to 1.".toList) := by
  obtain ⟨ha, hb, hc, hs, hd⟩ := phiDoubles_rejected
  have h9 : roundDouble (9 / 10) = 8106479329266893 / 9007199254740992 := by
    rw [roundDouble_eq (9 / 10) (-1) 8106479329266893
      (by norm_num) (by norm_num) (by norm_num) (by norm_num [abs_lt])]
    norm_num
  have hsum : doubleSum (scenarioPhiRejected.factors_.map (fun it => it.2.Mean)) =
      roundDouble (9 / 10) := by
    unfold scenarioPhiRejected
    rw [(phiDoubles_sums _ _ _).1, hs, h9]
  have hgt : |roundDouble (roundDouble (9 / 10) - 1)| > roundDouble (1 / 10000) := by
    rw [h9, hd, roundDouble_epsilon]
    norm_num
  exact ⟨hsum, h9, hgt,
    phi_validate_sum scenarioPhiRejected rfl
      (phiDoubles_base _ _ _ (by rw [ha]; norm_num) (by rw [hb]; norm_num)
        (by rw [hc]; norm_num))
      (Or.inl (by rw [hsum]; exact hgt))⟩

/-- C19, a group at which the claim fails as stated: the Phi-Factor group with the
members A, B and C and the doubles 0.0999, 0.3 and 0.6 as factors is built by
calls that return and passes the base checks; the sum of the means of its
factors differs from 1 by more than `10⁻⁴` (by `10⁻⁴ + 3.06·10⁻¹⁷`), and so do the
sums of the mins and of the maxes; and `Validate` accepts it, because the sum
accumulated in `double` arithmetic is `1 - 450359962737 / 2^52`, whose distance
from 1 is below the double `1e-4`. -/
theorem phi_rounding_counterexample :
    Reachable scenarioPhiRounding ∧
    scenarioPhiRounding.kind = Model.PhiFactorModel ∧
    scenarioPhiRounding.ValidateBase = .ok () ∧
    |(scenarioPhiRounding.factors_.map (fun it => it.2.Mean)).sum - 1| > 1 / 10000 ∧
    |(scenarioPhiRounding.factors_.map (fun it => it.2.Min)).sum - 1| > 1 / 10000 ∧
    |(scenarioPhiRounding.factors_.map (fun it => it.2.Max)).sum - 1| > 1 / 10000 ∧
    scenarioPhiRounding.Validate = .ok () := by
  obtain ⟨ha, hb, hc, _, _⟩ := phiDoubles_rounding
  have hmean : (scenarioPhiRounding.factors_.map (fun it => it.2.Mean)).sum =
      roundDouble (999 / 10000) + roundDouble (3 / 10) + roundDouble (3 / 5) :=
    (phiDoubles_sums _ _ _).2.2.2
  have hmin : (scenarioPhiRounding.factors_.map (fun it => it.2.Min)).sum =
      roundDouble (999 / 10000) + roundDouble (3 / 10) + roundDouble (3 / 5) := by
    simp [scenarioPhiRounding, scenarioPhiDoubles, scenarioGroup, Expression.Min,
      Expression.Interval, add_assoc]
  have hmax : (scenarioPhiRounding.factors_.map (fun it => it.2.Max)).sum =
      roundDouble (999 / 10000) + roundDouble (3 / 10) + roundDouble (3 / 5) := by
    simp [scenarioPhiRounding, scenarioPhiDoubles, scenarioGroup, Expression.Max,
      Expression.Interval, add_assoc]
  have hval : |roundDouble (999 / 10000) + roundDouble (3 / 10) + roundDouble (3 / 5) - 1| >
      1 / 10000 := by
    rw [ha, hb, hc]
    norm_num [abs_of_neg]
  refine ⟨reachable_phiDoubles _ _ _, rfl,
    phiDoubles_base _ _ _ (by rw [ha]; norm_num) (by rw [hb]; norm_num) (by rw [hc]; norm_num),
    by rw [hmean]; exact hval, by rw [hmin]; exact hval, by rw [hmax]; exact hval,
    phi_validate_depends_on_order.1⟩

/-- C20 as amended: for a Phi-Factor group on which `Validate` returns without an
error, the sum of the means of the factors, accumulated in `double` arithmetic
in the order of the factors, has a distance from 1, computed in `double`
arithmetic, that is below the double `1e-4`, and the same strict bound holds
for the sum of the mins and for the sum of the maxes. -/
theorem phi_validate_bound (g : CcfGroup) (hkind : g.kind = Model.PhiFactorModel)
    (hok : g.Validate = .ok ()) :
    |roundDouble (doubleSum (g.factors_.map (fun it => it.2.Mean)) - 1)| <
      roundDouble (1 / 10000) ∧
    |roundDouble (doubleSum (g.factors_.map (fun it => it.2.Min)) - 1)| <
      roundDouble (1 / 10000) ∧
    |roundDouble (doubleSum (g.factors_.map (fun it => it.2.Max)) - 1)| <
      roundDouble (1 / 10000) := by
  rw [validate_of_phi g hkind] at hok
  have hbase : g.ValidateBase = .ok () := by
    cases hb : g.ValidateBase with
    | error e => simp [PhiFactorModel.Validate, hb] at hok
    | ok u => rfl
  have hle : ¬ (|roundDouble (doubleSum (g.factors_.map (fun it => it.2.Mean)) - 1)| >
        roundDouble (1 / 10000) ∨
      |roundDouble (doubleSum (g.factors_.map (fun it => it.2.Min)) - 1)| >
        roundDouble (1 / 10000) ∨
      |roundDouble (doubleSum (g.factors_.map (fun it => it.2.Max)) - 1)| >
        roundDouble (1 / 10000)) := by
    intro hsum
    rw [(phi_validate_cases g hbase).1 hsum] at hok
    cases hok
  push_neg at hle
  have hne : ∀ l : List ℚ, |roundDouble (doubleSum l - 1)| ≠ roundDouble (1 / 10000) := by
    intro l
    obtain ⟨y, hy⟩ := doubleSum_rounded l
    rw [hy]
    exact roundDouble_diff_ne y
  exact ⟨lt_of_le_of_ne hle.1 (hne _), lt_of_le_of_ne hle.2.1 (hne _),
    lt_of_le_of_ne hle.2.2 (hne _)⟩

/-- C20 as amended, on the Phi-Factor group with the factors 0.5, 0.25 and 0.25:
it is accepted, the accumulated sum of the means is 1, and its distance 0 from
1 is below the double `1e-4`. -/
theorem phi_validate_bound_witness :
    scenarioPhiAccepted.Validate = .ok () ∧
    doubleSum (scenarioPhiAccepted.factors_.map (fun it => it.2.Mean)) = 1 ∧
    |roundDouble (doubleSum (scenarioPhiAccepted.factors_.map (fun it => it.2.Mean)) - 1)| <
      roundDouble (1 / 10000) := by
  obtain ⟨ha, hb, hc, hs, hd⟩ := phiDoubles_accepted
  have hok : scenarioPhiAccepted.Validate = .ok () := by
    unfold scenarioPhiAccepted
    rw [phiDoubles_validate _ _ _ (by rw [ha]; norm_num) (by rw [hb]; norm_num)
      (by rw [hc]; norm_num), hs, hd, roundDouble_epsilon, if_neg (by norm_num)]
  have hsum : doubleSum (scenarioPhiAccepted.factors_.map (fun it => it.2.Mean)) = 1 := by
    unfold scenarioPhiAccepted
    rw [(phiDoubles_sums _ _ _).1, hs]
  exact ⟨hok, hsum, (phi_validate_bound scenarioPhiAccepted rfl hok).1⟩

/-- C20, a group at which the claim fails as stated: the Phi-Factor group with the
doubles 0.0999, 0.3 and 0.6 as factors is accepted by `Validate`, and the sum
of the means of its factors, read in exact arithmetic, is
`1 - (10⁻⁴ + 3.06·10⁻¹⁷)`: its distance from 1 is not below `10⁻⁴`, and not even
at most `10⁻⁴`. -/
theorem phi_exact_bound_counterexample :
    scenarioPhiRounding.kind = Model.PhiFactorModel ∧
    scenarioPhiRounding.Validate = .ok () ∧
    (scenarioPhiRounding.factors_.map (fun it => it.2.Mean)).sum =
      72050388278524141 / 72057594037927936 ∧
    ¬ |(scenarioPhiRounding.factors_.map (fun it => it.2.Mean)).sum - 1| < 1 / 10000 ∧
    ¬ |(scenarioPhiRounding.factors_.map (fun it => it.2.Mean)).sum - 1| ≤ 1 / 10000 := by
  obtain ⟨ha, hb, hc, _, _⟩ := phiDoubles_rounding
  have hmean : (scenarioPhiRounding.factors_.map (fun it => it.2.Mean)).sum =
      72050388278524141 / 72057594037927936 := by
    have := (phiDoubles_sums (999 / 10000) (3 / 10) (3 / 5)).2.2.2
    unfold scenarioPhiRounding
    rw [this, ha, hb, hc]
    norm_num
  refine ⟨rfl, phi_validate_depends_on_order.1, hmean, ?_, ?_⟩
  · rw [hmean]
    norm_num [abs_of_neg]
  · rw [hmean]
    norm_num [abs_of_neg]

/-! ## What holds in every group built by the three `Add` functions -/

/-- A call of `AddMember` that returns keeps the model and the factors and adds
one member. -/
theorem addMember_ok_fields (g g' : CcfGroup) (basic_event : BasicEvent)
    (h : g.AddMember basic_event = .ok g') :
    g'.kind = g.kind ∧ g'.factors_ = g.factors_ ∧
      g'.members_.length = g.members_.length + 1 := by
  obtain ⟨h1, h2, h3⟩ := addMember_cases g basic_event
  cases hd : g.distribution_.isSome with
  | true =>
    rw [h1 hd] at h
    cases h
  | false =>
    cases hf : (mapFind (to_lower basic_event.name) g.members_).isSome with
    | true =>
      rw [h2 hd hf] at h
      cases h
    | false =>
      rw [h3 hd hf] at h
      cases h
      refine ⟨rfl, rfl, length_mapInsert _ _ _ ?_⟩
      intro hk
      have := (mapFind_isSome (to_lower basic_event.name) g.members_).2 hk
      rw [hf] at this
      cases this

/-- A call of `AddDistribution` that returns keeps the model, the factors and the
number of members. -/
theorem addDistribution_ok_fields (g g' : CcfGroup) (distr : Expression)
    (h : g.AddDistribution distr = .ok g') :
    g'.kind = g.kind ∧ g'.factors_ = g.factors_ ∧ g'.members_.length = g.members_.length := by
  unfold CcfGroup.AddDistribution at h
  split_ifs at h
  cases h
  exact ⟨rfl, rfl, by simp⟩

/-- A call of `AddFactor` that returns keeps the model and the members and appends
one factor; its level is above 0, or the group is a Beta-Factor group that had
no factor and the level is its number of members. -/
theorem addFactor_ok_fields (g g' : CcfGroup) (factor : Expression) (level : Int)
    (h : g.AddFactor factor level = .ok g') :
    g'.kind = g.kind ∧ g'.members_ = g.members_ ∧
      g'.factors_ = g.factors_ ++ [(level, factor)] ∧
      (g.kind = Model.BetaFactorModel →
        g.factors_ = [] ∧ level = (g.members_.length : Int)) ∧
      (g.kind ≠ Model.BetaFactorModel → level > 0) := by
  unfold CcfGroup.AddFactor at h
  cases hk : g.kind <;> simp only [hk] at h
  · unfold BetaFactorModel.AddFactor at h
    split_ifs at h with c1 c2
    cases h
    refine ⟨hk, rfl, rfl, fun _ => ⟨?_, ?_⟩, fun hne => absurd rfl hne⟩
    · simpa using c1
    · simpa using c2
  · unfold MglModel.AddFactor at h
    split_ifs at h with c1 c2
    cases h
    exact ⟨hk, rfl, rfl, fun hb => (by cases hb), fun _ => (by simpa using c1)⟩
  · unfold CcfGroup.AddFactorBase at h
    split_ifs at h with c1 c2
    cases h
    exact ⟨hk, rfl, rfl, fun hb => (by cases hb), fun _ => (by simpa using c1)⟩
  · unfold CcfGroup.AddFactorBase at h
    split_ifs at h with c1 c2
    cases h
    exact ⟨hk, rfl, rfl, fun hb => (by cases hb), fun _ => (by simpa using c1)⟩

/-- A newly constructed group has no factors and no members. -/
theorem create_ok_fields (kind : Model) (name model base_path : Str) (is_public : Bool)
    (g : CcfGroup) (h : CcfGroup.create kind name model base_path is_public = .ok g) :
    g.factors_ = [] ∧ g.members_ = [] := by
  unfold CcfGroup.create at h
  by_cases hn : name = []
  · rw [if_pos hn] at h
    cases h
  · rw [if_neg hn] at h
    cases h
    exact ⟨rfl, rfl⟩

/-- In every group built by `AddMember`, `AddFactor` and `AddDistribution` calls no
factor has a negative level. -/
theorem reachable_levels_nonneg (g : CcfGroup) (hr : Reachable g) :
    ∀ it ∈ g.factors_, 0 ≤ it.1 := by
  induction hr with
  | create kind name model base_path is_public g h =>
    rw [(create_ok_fields kind name model base_path is_public g h).1]
    intro it hit
    cases hit
  | addMember g g' basic_event _ h ih =>
    rw [(addMember_ok_fields g g' basic_event h).2.1]
    exact ih
  | addFactor g g' factor level _ h ih =>
    obtain ⟨_, _, hf, hbeta, hother⟩ := addFactor_ok_fields g g' factor level h
    rw [hf]
    intro it hit
    rcases List.mem_append.1 hit with hit | hit
    · exact ih it hit
    · rw [List.mem_singleton] at hit
      subst hit
      by_cases hk : g.kind = Model.BetaFactorModel
      · rw [(hbeta hk).2]
        exact Int.natCast_nonneg _
      · exact le_of_lt (hother hk)
  | addDistribution g g' distr _ h ih =>
    rw [(addDistribution_ok_fields g g' distr h).2.1]
    exact ih

/-- In every Beta-Factor group built by `AddMember`, `AddFactor` and
`AddDistribution` calls there is at most one factor, and its level is at most
the number of members: it is the number of members the group had when the
factor was added. -/
theorem reachable_beta_factors (g : CcfGroup) (hr : Reachable g)
    (hkind : g.kind = Model.BetaFactorModel) :
    g.factors_.length ≤ 1 ∧ ∀ it ∈ g.factors_, it.1 ≤ (g.members_.length : Int) := by
  induction hr with
  | create kind name model base_path is_public g h =>
    rw [(create_ok_fields kind name model base_path is_public g h).1]
    exact ⟨by simp, fun it hit => (by cases hit)⟩
  | addMember g g' basic_event _ h ih =>
    obtain ⟨hk, hf, hm⟩ := addMember_ok_fields g g' basic_event h
    obtain ⟨i1, i2⟩ := ih (hk ▸ hkind)
    rw [hf, hm]
    refine ⟨i1, fun it hit => ?_⟩
    have := i2 it hit
    push_cast
    omega
  | addFactor g g' factor level _ h ih =>
    obtain ⟨hk, hm, hf, hbeta, _⟩ := addFactor_ok_fields g g' factor level h
    obtain ⟨he, hl⟩ := hbeta (hk ▸ hkind)
    rw [hf, hm, he]
    refine ⟨by simp, fun it hit => ?_⟩
    simp only [List.nil_append, List.mem_singleton] at hit
    subst hit
    exact le_of_eq hl
  | addDistribution g g' distr _ h ih =>
    obtain ⟨hk, hf, hm⟩ := addDistribution_ok_fields g g' distr h
    obtain ⟨i1, i2⟩ := ih (hk ▸ hkind)
    rw [hf, hm]
    exact ⟨i1, i2⟩

/-- A Beta-Factor group built by `AddMember`, `AddFactor` and `AddDistribution`
calls and accepted by `Validate` has exactly one factor, at a level that is at
most the number of members. -/
theorem reachable_beta_validated (g : CcfGroup) (hr : Reachable g)
    (hkind : g.kind = Model.BetaFactorModel) (hok : g.Validate = .ok ()) :
    ∃ level factor, g.factors_ = [(level, factor)] ∧ 0 ≤ level ∧
      level ≤ (g.members_.length : Int) := by
  obtain ⟨h1, h2⟩ := reachable_beta_factors g hr hkind
  have h0 := reachable_levels_nonneg g hr
  rw [validate_of_not_phi g (by rw [hkind]; decide)] at hok
  match hf : g.factors_ with
  | [] =>
    unfold CcfGroup.ValidateBase at hok
    rw [hf] at hok
    split_ifs at hok
    simp at hok
  | [(level, factor)] =>
    rw [hf] at h2 h0
    exact ⟨level, factor, rfl, h0 _ (List.mem_singleton_self _), h2 _ (List.mem_singleton_self _)⟩
  | _ :: _ :: _ =>
    rw [hf] at h1
    simp at h1

/-! ## The binomial factor of `CalculateProb` (claim C26) -/

/-- C26: in `MglModel::CalculateProb` and `AlphaFactorModel::CalculateProb`, for a
group with `n ≥ 2` members and a loop index `i` with `i ≤ L - 1 ≤ n - 1`, the
three arguments of `Factorial` are not negative, the three calls return, and
`Factorial(n-1) / Factorial(n-i-1) / Factorial(i)` with truncating division is
the binomial coefficient `C(n-1, i)`, which is at least 1, so that the divisor
of `1.0 / mult` is not zero. -/
theorem mult_is_binomial (g : CcfGroup) (L i : Nat) (hn : 2 ≤ g.members_.length)
    (hL : L ≤ g.members_.length) (hi : i + 1 ≤ L) :
    (0 ≤ (g.members_.length : Int) - 1 ∧ 0 ≤ (g.members_.length : Int) - (i : Int) - 1 ∧
      0 ≤ (i : Int)) ∧
    (∃ a b c : Int, Factorial ((g.members_.length : Int) - 1) = .ok a ∧
      Factorial ((g.members_.length : Int) - (i : Int) - 1) = .ok b ∧
      Factorial (i : Int) = .ok c ∧
      Int.tdiv (Int.tdiv a b) c = ((Nat.choose (g.members_.length - 1) i : Nat) : Int)) ∧
    g.mult i = .ok ((Nat.choose (g.members_.length - 1) i : Nat) : Int) ∧
    1 ≤ Nat.choose (g.members_.length - 1) i ∧
    ((Nat.choose (g.members_.length - 1) i : Nat) : ℚ) ≠ 0 := by
  have hle : i + 1 ≤ g.members_.length := le_trans hi hL
  have hm := mult_eq g i hle
  have hpos : 1 ≤ Nat.choose (g.members_.length - 1) i :=
    Nat.choose_pos (by omega)
  have h1 : ¬ ((g.members_.length : Int) - 1 < 0) := by omega
  have h2 : ¬ ((g.members_.length : Int) - (i : Int) - 1 < 0) := by omega
  have h3 : ¬ ((i : Int) < 0) := by omega
  refine ⟨⟨by omega, by omega, by omega⟩, ?_, hm, hpos, ?_⟩
  · refine ⟨((((g.members_.length : Int) - 1).toNat.factorial : Nat) : Int),
      ((((g.members_.length : Int) - (i : Int) - 1).toNat.factorial : Nat) : Int),
      ((((i : Int)).toNat.factorial : Nat) : Int),
      by rw [Factorial, if_neg h1], by rw [Factorial, if_neg h2], by rw [Factorial, if_neg h3],
      ?_⟩
    have hm' := hm
    simp only [CcfGroup.mult, Factorial, if_neg h1, if_neg h2, if_neg h3] at hm'
    exact Except.ok.inj hm'
  · exact_mod_cast (by omega : Nat.choose (g.members_.length - 1) i ≠ 0)

/-- C26 on the MGL group of scenario S2 (`n = 3`, `L = 3`) at the last index
`i = 2`: `2! / 0! / 2! = 1 = C(2, 2)`. -/
theorem mult_is_binomial_witness :
    scenarioMgl.mult 2 = .ok 1 ∧ Nat.choose (scenarioMgl.members_.length - 1) 2 = 1 :=
  ⟨(mult_is_binomial scenarioMgl 3 2 (by decide) (by decide) (by decide)).2.2.1, by decide⟩

/-! ## `Validate` and `ApplyModel` on groups that slip through (claims C23, C24) -/

/-- C24, the input at which `Validate` reads `back()` of an empty vector: a group
of any model is constructed and the members A and B are added; no factor is
added. The group has two members, so the first check passes, and the second
check evaluates `factors_.back()` on the empty factor list. -/
theorem validate_without_factors (kind : Model) :
    Reachable (scenarioPair kind none []) ∧
    (scenarioPair kind none []).members_.length = 2 ∧
    (scenarioPair kind none []).factors_ = [] ∧
    (scenarioPair kind none []).Validate = .error .UndefinedBehavior := by
  have hr : Reachable (scenarioPair kind none []) :=
    Reachable.addMember _ _ (scenarioEvent "B".toList)
      (Reachable.addMember _ _ (scenarioEvent "A".toList)
        (Reachable.create kind "G".toList "model".toList [] true _ rfl) rfl) rfl
  refine ⟨hr, rfl, rfl, ?_⟩
  cases kind <;> rfl

/-- C23, inputs that `Validate` accepts and on which `ApplyModel` violates the
assertion `max_level > 1` of `ConstructCcfBasicEvents`: an Alpha-Factor group,
and likewise a Phi-Factor group, is constructed, A and B are added, the
distribution 0.01 is defined and the factor 1 is added at level 1. -/
theorem applyModel_level_one (alloc : Nat → Nat) :
    (Reachable (scenarioPair Model.AlphaFactorModel (some scenarioQ)
        [(1, Expression.ConstantExpression 1)]) ∧
      (scenarioPair Model.AlphaFactorModel (some scenarioQ)
        [(1, Expression.ConstantExpression 1)]).Validate = .ok () ∧
      (scenarioPair Model.AlphaFactorModel (some scenarioQ)
        [(1, Expression.ConstantExpression 1)]).ApplyModel alloc =
          .error .AssertionFailure) ∧
    (Reachable (scenarioPair Model.PhiFactorModel (some scenarioQ)
        [(1, Expression.ConstantExpression 1)]) ∧
      (scenarioPair Model.PhiFactorModel (some scenarioQ)
        [(1, Expression.ConstantExpression 1)]).Validate = .ok () ∧
      (scenarioPair Model.PhiFactorModel (some scenarioQ)
        [(1, Expression.ConstantExpression 1)]).ApplyModel alloc =
          .error .AssertionFailure) := by
  have hr : ∀ kind, kind = Model.AlphaFactorModel ∨ kind = Model.PhiFactorModel →
      Reachable (scenarioPair kind (some scenarioQ) [(1, Expression.ConstantExpression 1)]) := by
    intro kind hk
    have h4 : Reachable (scenarioPair kind (some scenarioQ) []) :=
      Reachable.addDistribution _ _ scenarioQ
        (Reachable.addMember _ _ (scenarioEvent "B".toList)
          (Reachable.addMember _ _ (scenarioEvent "A".toList)
            (Reachable.create kind "G".toList "model".toList [] true _ rfl) rfl) rfl) rfl
    refine Reachable.addFactor _ _ (Expression.ConstantExpression 1) 1 h4 ?_
    rcases hk with rfl | rfl <;> rfl
  refine ⟨⟨hr _ (Or.inl rfl), ?_, rfl⟩, ⟨hr _ (Or.inr rfl), ?_, rfl⟩⟩
  · norm_num [CcfGroup.Validate, CcfGroup.ValidateBase, scenarioPair,
      CcfGroup.validateFactors, Expression.Min, Expression.Max, Expression.Interval]
  · norm_num [CcfGroup.Validate, PhiFactorModel.Validate, PhiFactorModel.sums,
      CcfGroup.ValidateBase, scenarioPair, CcfGroup.validateFactors,
      Expression.Min, Expression.Max, Expression.Interval, Expression.Mean,
      roundDouble_one, roundDouble_zero, roundDouble_epsilon]

/-! ## Sequential factor levels (claim C25), and `ApplyModel` after `Validate` -/

/-- The level that a returning `AddFactor` accepted: the number of factors plus 1
for Alpha-Factor and Phi-Factor groups, plus 2 for MGL groups. -/
theorem addFactor_ok_level (g g' : CcfGroup) (factor : Expression) (level : Int)
    (h : g.AddFactor factor level = .ok g') :
    (g.kind = Model.AlphaFactorModel ∨ g.kind = Model.PhiFactorModel →
      level = (g.factors_.length : Int) + 1) ∧
    (g.kind = Model.MglModel → level = (g.factors_.length : Int) + 2) := by
  unfold CcfGroup.AddFactor at h
  cases hk : g.kind <;> simp only [hk] at h
  · exact ⟨fun hb => (by rcases hb with hb | hb <;> cases hb), fun hb => (by cases hb)⟩
  · unfold MglModel.AddFactor at h
    split_ifs at h with c1 c2
    exact ⟨fun hb => (by rcases hb with hb | hb <;> cases hb), fun _ => (by simpa using c2)⟩
  · unfold CcfGroup.AddFactorBase at h
    split_ifs at h with c1 c2
    exact ⟨fun _ => (by simpa using c2), fun hb => (by cases hb)⟩
  · unfold CcfGroup.AddFactorBase at h
    split_ifs at h with c1 c2
    exact ⟨fun _ => (by simpa using c2), fun hb => (by cases hb)⟩

/-- Appending the next level keeps a list of levels that counts up from `b`. -/
theorem levels_append (l : List (Int × Expression)) (b : Int) (factor : Expression)
    (h : l.map Prod.fst = (List.range l.length).map (fun i : Nat => (i : Int) + b)) :
    (l ++ [((l.length : Int) + b, factor)]).map Prod.fst =
      (List.range (l ++ [((l.length : Int) + b, factor)]).length).map
        (fun i : Nat => (i : Int) + b) := by
  simp only [List.map_append, List.length_append, List.length_singleton, List.range_succ, h,
    List.map_cons, List.map_nil]

/-- In every group built by `AddMember`, `AddFactor` and `AddDistribution` calls
the levels of the factors count up from 1 (Alpha-Factor, Phi-Factor) or from 2
(MGL). -/
theorem reachable_levels (g : CcfGroup) (hr : Reachable g) :
    (g.kind = Model.AlphaFactorModel ∨ g.kind = Model.PhiFactorModel →
      g.factors_.map Prod.fst =
        (List.range g.factors_.length).map (fun i : Nat => (i : Int) + 1)) ∧
    (g.kind = Model.MglModel →
      g.factors_.map Prod.fst =
        (List.range g.factors_.length).map (fun i : Nat => (i : Int) + 2)) := by
  induction hr with
  | create kind name model base_path is_public g h =>
    rw [(create_ok_fields kind name model base_path is_public g h).1]
    exact ⟨fun _ => rfl, fun _ => rfl⟩
  | addMember g g' basic_event _ h ih =>
    obtain ⟨hk, hf, _⟩ := addMember_ok_fields g g' basic_event h
    rw [hk, hf]
    exact ih
  | addFactor g g' factor level _ h ih =>
    obtain ⟨hk, _, hf, _, _⟩ := addFactor_ok_fields g g' factor level h
    obtain ⟨l1, l2⟩ := addFactor_ok_level g g' factor level h
    rw [hk, hf]
    constructor
    · intro hkind
      rw [l1 hkind]
      exact levels_append g.factors_ 1 factor (ih.1 hkind)
    · intro hkind
      rw [l2 hkind]
      exact levels_append g.factors_ 2 factor (ih.2 hkind)
  | addDistribution g g' distr _ h ih =>
    obtain ⟨hk, hf, _⟩ := addDistribution_ok_fields g g' distr h
    rw [hk, hf]
    exact ih

/-- In a list of levels that counts up from `b`, the factor at position `i` has
level `i + b`, and the last factor has the level `length - 1 + b`, which no
other level exceeds. -/
theorem levels_of_map (l : List (Int × Expression)) (b : Int)
    (h : l.map Prod.fst = (List.range l.length).map (fun i : Nat => (i : Int) + b)) :
    (∀ (i : Nat) (it : Int × Expression), l.get? i = some it → it.1 = (i : Int) + b) ∧
    (∀ back, l.getLast? = some back →
      back.1 = (l.length : Int) - 1 + b ∧ ∀ it ∈ l, it.1 ≤ back.1) := by
  have h1 : ∀ (i : Nat) (it : Int × Expression), l.get? i = some it → it.1 = (i : Int) + b := by
    intro i it hi
    rw [List.get?_eq_getElem?] at hi
    have hlt : i < l.length := (List.getElem?_eq_some.1 hi).1
    have e := congrArg (fun m => m[i]?) h
    simp only [List.getElem?_map, hi, Option.map_some', List.getElem?_range hlt] at e
    exact Option.some.inj e
  refine ⟨h1, fun back hback => ?_⟩
  rw [List.getLast?_eq_getElem?, ← List.get?_eq_getElem?] at hback
  have hlt : l.length - 1 < l.length := by
    rw [List.get?_eq_getElem?] at hback
    exact (List.getElem?_eq_some.1 hback).1
  have hb := h1 _ _ hback
  refine ⟨by rw [hb]; push_cast [Nat.cast_sub (by omega : 1 ≤ l.length)]; ring, ?_⟩
  intro it hit
  obtain ⟨i, hi⟩ := List.mem_iff_get?.1 hit
  have hil : i < l.length := by
    rw [List.get?_eq_getElem?] at hi
    exact (List.getElem?_eq_some.1 hi).1
  rw [h1 i it hi, hb]
  have : (i : Int) ≤ ((l.length - 1 : Nat) : Int) := by exact_mod_cast (by omega : i ≤ l.length - 1)
  omega

/-- A call of `AddFactor`, whether it returns or throws, leads from a group built
by the three `Add` functions to such a group. -/
theorem reachable_after_addFactor (g : CcfGroup) (hr : Reachable g) (factor : Expression)
    (level : Int) : Reachable (g.after (g.AddFactor factor level)) := by
  cases h : g.AddFactor factor level with
  | error e => exact hr
  | ok g' => exact Reachable.addFactor g g' factor level hr h

/-- C25: in every group reached from a new group by calls of `AddFactor` that
return or throw (and of `AddMember` and `AddDistribution`), the levels of the
factors are sequential: the factor at position `i`, counted from 0, has level
`i + 1` in an Alpha-Factor or Phi-Factor group and level `i + 2` in an MGL
group. So the level of the last factor, which `ApplyModel` takes as `max_level`,
is the largest level and is the number of factors (plus 1 for MGL): the
conditions `factors_.size() == max_level` and `factors_.size() == max_level - 1`
that the `CalculateProb` functions of Alpha-Factor and MGL assert; and the table
of `PhiFactorModel::CalculateProb` has `max_level` entries, as it asserts. -/
theorem factor_levels_sequential (g : CcfGroup) (hr : Reachable g) :
    (g.kind = Model.AlphaFactorModel ∨ g.kind = Model.PhiFactorModel →
      (∀ (i : Nat) (it : Int × Expression), g.factors_.get? i = some it →
        it.1 = (i : Int) + 1) ∧
      (∀ back, g.factors_.getLast? = some back →
        (g.factors_.length : Int) = back.1 ∧ ∀ it ∈ g.factors_, it.1 ≤ back.1)) ∧
    (g.kind = Model.MglModel →
      (∀ (i : Nat) (it : Int × Expression), g.factors_.get? i = some it →
        it.1 = (i : Int) + 2) ∧
      (∀ back, g.factors_.getLast? = some back →
        (g.factors_.length : Int) = back.1 - 1 ∧ ∀ it ∈ g.factors_, it.1 ≤ back.1)) ∧
    (g.kind = Model.PhiFactorModel →
      ∀ Q back, g.distribution_ = some Q → g.factors_.getLast? = some back →
        ∃ table, PhiFactorModel.CalculateProb g back.1 [] = .ok table ∧
          (table.length : Int) = back.1) ∧
    (∀ factor level, Reachable (g.after (g.AddFactor factor level))) := by
  obtain ⟨ha, hm⟩ := reachable_levels g hr
  refine ⟨fun hk => ?_, fun hk => ?_, fun hk Q back hQ hback => ?_,
    reachable_after_addFactor g hr⟩
  · obtain ⟨h1, h2⟩ := levels_of_map g.factors_ 1 (ha hk)
    refine ⟨h1, fun back hback => ?_⟩
    obtain ⟨e, hle⟩ := h2 back hback
    exact ⟨by omega, hle⟩
  · obtain ⟨h1, h2⟩ := levels_of_map g.factors_ 2 (hm hk)
    refine ⟨h1, fun back hback => ?_⟩
    obtain ⟨e, hle⟩ := h2 back hback
    exact ⟨by omega, hle⟩
  · have hlevels := ha (Or.inr hk)
    have hlen : back.1 = (g.factors_.length : Int) := by
      have := ((levels_of_map g.factors_ 1 hlevels).2 back hback).1
      omega
    rw [hlen]
    exact ⟨_, phi_table_eq g Q g.factors_.length hQ hlevels, by rw [List.length_map]⟩

/-- The MGL group of scenario S2 is built by calls of the three `Add` functions. -/
theorem reachable_scenarioMgl : Reachable scenarioMgl :=
  Reachable.addFactor _ _ (Expression.ConstantExpression (2 / 10)) 3
    (Reachable.addFactor _ _ (Expression.ConstantExpression (1 / 10)) 2
      (Reachable.addDistribution _ _ scenarioQ
        (Reachable.addMember _ _ (scenarioEvent "C".toList)
          (Reachable.addMember _ _ (scenarioEvent "B".toList)
            (Reachable.addMember _ _ (scenarioEvent "A".toList)
              (Reachable.create Model.MglModel "G".toList "model".toList [] true _ rfl)
              rfl) rfl) rfl) rfl) rfl) rfl

/-- C25 on the MGL group of scenario S2: its two factors are at the levels 2 and
3, the last level is 3 and the number of factors is `3 - 1`. -/
theorem factor_levels_sequential_witness :
    scenarioMgl.factors_.map Prod.fst = [2, 3] ∧
    (scenarioMgl.factors_.length : Int) = 3 - 1 :=
  ⟨rfl, (((factor_levels_sequential scenarioMgl reachable_scenarioMgl).2.1 rfl).2
    (3, Expression.ConstantExpression (2 / 10)) rfl).1⟩

/-- The member map of every group built by the three `Add` functions is a
well-formed `std::map`: its keys ascend strictly. -/
theorem reachable_keys_sorted (g : CcfGroup) (hr : Reachable g) : g.keys.Sorted (· < ·) := by
  induction hr with
  | create kind name model base_path is_public g h =>
    unfold CcfGroup.keys
    rw [(create_ok_fields kind name model base_path is_public g h).2]
    exact List.sorted_nil
  | addMember g g' basic_event _ h ih => exact addMember_keys_sorted g g' basic_event ih h
  | addFactor g g' factor level _ h ih =>
    unfold CcfGroup.keys at ih ⊢
    rw [addFactor_members g g' factor level h]
    exact ih
  | addDistribution g g' distr _ h ih =>
    rw [addDistribution_keys g g' distr h]
    exact ih

/-- What the base checks of `Validate` establish when they pass: at least two
members, and a last factor whose level is between 0 and the number of members. -/
theorem validateBase_ok_bounds (g : CcfGroup) (h : g.ValidateBase = .ok ()) :
    2 ≤ g.members_.length ∧
      ∃ back, g.factors_.getLast? = some back ∧ 0 ≤ back.1 ∧
        back.1 ≤ (g.members_.length : Int) := by
  unfold CcfGroup.ValidateBase at h
  split_ifs at h with c1
  cases hb : g.factors_.getLast? with
  | none => rw [hb] at h; cases h
  | some back =>
    rw [hb] at h
    dsimp only at h
    split_ifs at h with c2
    push_neg at c2
    exact ⟨by omega, back, rfl, c2.1, c2.2⟩

/-- When `Validate` accepts a group, the base checks have passed. -/
theorem validate_ok_base (g : CcfGroup) (h : g.Validate = .ok ()) : g.ValidateBase = .ok () := by
  by_cases hk : g.kind = Model.PhiFactorModel
  · rw [validate_of_phi g hk] at h
    cases hb : g.ValidateBase with
    | error e => simp [PhiFactorModel.Validate, hb] at h
    | ok u => rfl
  · rw [validate_of_not_phi g hk] at h
    exact h

/-- What does hold of `ApplyModel` after `Validate`: for a group of any model
built by the three `Add` functions and accepted by `Validate`, whose
distribution is defined and whose last factor is at a level of at least 2,
`ApplyModel` returns: no assertion fails and every lookup finds its key. -/
theorem reachable_validated_applyModel (alloc : Nat → Nat) (halloc : Function.Injective alloc)
    (g : CcfGroup) (hr : Reachable g) (hok : g.Validate = .ok ()) (Q : Expression)
    (hQ : g.distribution_ = some Q) (back : Int × Expression)
    (hback : g.factors_.getLast? = some back) (h2 : 2 ≤ back.1) :
    ∃ r, g.ApplyModel alloc = .ok r := by
  have hkeys := reachable_keys_sorted g hr
  obtain ⟨hn2, back', hback', h0, hn⟩ := validateBase_ok_bounds g (validate_ok_base g hok)
  rw [hback] at hback'
  cases hback'
  obtain ⟨L, hL⟩ := Int.eq_ofNat_of_zero_le h0
  have hL2 : 2 ≤ L := by omega
  have hLn : L ≤ g.members_.length := by omega
  obtain ⟨ha, hm⟩ := reachable_levels g hr
  cases hk : g.kind with
  | BetaFactorModel =>
    obtain ⟨level, beta, hf, _, _⟩ := reachable_beta_validated g hr hk hok
    have hlevel : level = (L : Int) := by
      rw [hf] at hback
      cases hback
      exact hL
    rw [hlevel] at hf
    have htable := beta_table_eq g beta Q L hL2 hf hQ
    refine applyModel_returns alloc halloc g hkeys back L hback hL hL2 hLn
      (fun _ => by rw [hf]; rfl) _ (by unfold CcfGroup.CalculateProb; rw [hk]; exact htable) ?_
    intro k _ _ hcase
    rcases hcase hk with hc | hc
    · rw [hc]
      simp [mapFind]
    · rw [hc]
      by_cases h1 : (1 : Int) = (L : Int)
      · simp [mapFind, h1]
      · simp [mapFind, h1]
  | MglModel =>
    have hlen := ((levels_of_map g.factors_ 2 (hm hk)).2 back hback).1
    exact applyModel_returns_mgl alloc halloc g hkeys hk back L Q hback hL hL2 hLn
      (by omega) hQ
  | AlphaFactorModel =>
    have hlen := ((levels_of_map g.factors_ 1 (ha (Or.inl hk))).2 back hback).1
    exact applyModel_returns_alpha alloc halloc g hkeys hk back L Q hback hL hL2 hLn
      (by omega) hQ
  | PhiFactorModel =>
    have hlen := ((levels_of_map g.factors_ 1 (ha (Or.inr hk))).2 back hback).1
    have hlen' : g.factors_.length = L := by omega
    have hlevels := ha (Or.inr hk)
    rw [hlen'] at hlevels
    exact applyModel_returns_phi alloc halloc g hkeys hk L Q hlevels hL2 hLn hQ

/-! ## The MGL table conserves the failure probability of a member (claim C22) -/

/-- Telescoping: the terms `ρ₀ ⋯ ρ_{i-1} (1 - ρ_i)` for `i < m` sum to
`1 - ρ₀ ⋯ ρ_{m-1}`. -/
theorem sum_take_prod (ρ : List ℚ) (m : Nat) (hm : m ≤ ρ.length) :
    ∑ i ∈ Finset.range m, (ρ.take i).prod * (1 - ρ.getD i 0) = 1 - (ρ.take m).prod := by
  induction m with
  | zero => simp
  | succ m ih =>
    have hlt : m < ρ.length := by omega
    rw [Finset.sum_range_succ, ih (by omega), List.prod_take_succ ρ m hlt,
      List.getD_eq_getElem ρ 0 hlt]
    ring

/-- A sum over the levels `1..L` is the sum over the loop indices `0..L-1`. -/
theorem sum_levels_eq_sum_range (f : Nat → ℚ) (L : Nat) :
    ∑ k ∈ Finset.Icc 1 L, f (k - 1) = ∑ i ∈ Finset.range L, f i := by
  induction L with
  | zero => simp
  | succ L ih =>
    rw [Finset.sum_Icc_succ_top (by omega), ih, Finset.sum_range_succ]
    simp

/-- The weighted means of the entries of the MGL table add up to the mean of `Q`. -/
theorem mgl_entries_sum (g : CcfGroup) (Q : Expression) (L : Nat) (h1 : 1 ≤ L)
    (hn : L ≤ g.members_.length) (hf : g.factors_.length = L - 1) :
    ∑ i ∈ Finset.range L,
      (Nat.choose (g.members_.length - 1) i : ℚ) * (MglModel.entry g Q L i).2.Mean = Q.Mean := by
  have hterm : ∀ i ∈ Finset.range L,
      (Nat.choose (g.members_.length - 1) i : ℚ) * (MglModel.entry g Q L i).2.Mean =
        ((g.factors_.map (fun f => f.2.Mean)).take i).prod *
          (if i + 1 < L then 1 - (g.factors_.map (fun f => f.2.Mean)).getD i 0 else 1) *
          Q.Mean := by
    intro i hi
    have hi' : i < L := Finset.mem_range.mp hi
    have hpos : 0 < Nat.choose (g.members_.length - 1) i := Nat.choose_pos (by omega)
    have hne : (Nat.choose (g.members_.length - 1) i : ℚ) ≠ 0 := by exact_mod_cast hpos.ne'
    have hcancel : ∀ a b c : ℚ,
        (Nat.choose (g.members_.length - 1) i : ℚ) *
          (1 / (Nat.choose (g.members_.length - 1) i : ℚ) * a * b * c) = a * b * c := by
      intro a b c
      field_simp
    rw [mgl_entry_mean g Q L i hf, List.map_take]
    exact hcancel _ _ _
  rw [Finset.sum_congr rfl hterm]
  obtain ⟨m, rfl⟩ : ∃ m, L = m + 1 := ⟨L - 1, by omega⟩
  have hlen : (g.factors_.map (fun f => f.2.Mean)).length = m := by
    rw [List.length_map, hf]
    rfl
  rw [Finset.sum_range_succ]
  have hfirst : ∀ i ∈ Finset.range m,
      ((g.factors_.map (fun f => f.2.Mean)).take i).prod *
          (if i + 1 < m + 1 then 1 - (g.factors_.map (fun f => f.2.Mean)).getD i 0 else 1) *
          Q.Mean =
        ((g.factors_.map (fun f => f.2.Mean)).take i).prod *
          (1 - (g.factors_.map (fun f => f.2.Mean)).getD i 0) * Q.Mean := by
    intro i hi
    have : i + 1 < m + 1 := by have := Finset.mem_range.mp hi; omega
    rw [if_pos this]
  rw [Finset.sum_congr rfl hfirst, ← Finset.sum_mul,
    sum_take_prod _ m (by rw [hlen]), if_neg (by omega)]
  ring

/-- A sum over a list of a function of the size, grouped by size. -/
theorem sum_eq_sum_filter {α : Type} (f : α → Nat) (F : Nat → ℚ) (L : Nat) (l : List α)
    (h : ∀ x ∈ l, 1 ≤ f x ∧ f x ≤ L) :
    (l.map (fun x => F (f x))).sum =
      ∑ k ∈ Finset.Icc 1 L, ((l.filter (fun x => decide (f x = k))).length : ℚ) * F k := by
  induction l with
  | nil => simp
  | cons a l ih =>
    have ha := h a (List.mem_cons_self _ _)
    have hl := ih (fun x hx => h x (List.mem_cons_of_mem _ hx))
    have hstep : ∀ k, (((a :: l).filter (fun x => decide (f x = k))).length : ℚ) * F k =
        (if f a = k then F k else 0) +
          ((l.filter (fun x => decide (f x = k))).length : ℚ) * F k := by
      intro k
      by_cases hk : f a = k
      · simp [List.filter_cons, hk, add_mul, add_comm]
      · simp [List.filter_cons, hk]
    simp only [hstep, Finset.sum_add_distrib, List.map_cons, List.sum_cons]
    rw [Finset.sum_ite_eq, if_pos (Finset.mem_Icc.mpr ha), ← hl]

/-- For an MGL group on which `ApplyModel` has returned, the means of the
arguments of every member's replacement gate add up to the mean of `Q`. -/
theorem mgl_gate_sum (alloc : Nat → Nat) (halloc : Function.Injective alloc) (g : CcfGroup)
    (hkind : g.kind = Model.MglModel) (hkeys : g.keys.Sorted (· < ·)) (Q : Expression)
    (hQ : g.distribution_ = some Q) (r : Applied) (h : g.ApplyModel alloc = .ok r) :
    ∀ it_m ∈ g.members_, ∃ gate : Gate,
      mapFind it_m.1 r.gates = some gate ∧ gate.sumOfMeans = Q.Mean := by
  obtain ⟨back, L, evs, hback, hL, h2, hn, hcalc, _, hsorted, hperm, hnew, _, hmem, hgates⟩ :=
    applyModel_inv alloc halloc g hkeys r h
  have hcalc' : MglModel.CalculateProb g (L : Int) [] = .ok r.probabilities := by
    unfold CcfGroup.CalculateProb at hcalc
    rw [hkind] at hcalc
    exact hcalc
  have hf : g.factors_.length = L - 1 := by
    unfold MglModel.CalculateProb at hcalc'
    split_ifs at hcalc' with c
    push_neg at c
    omega
  have htable : r.probabilities = (List.range L).map (MglModel.entry g Q L) := by
    have := mgl_table_eq g Q L (by omega) hn hf hQ
    rw [hcalc'] at this
    exact Except.ok.inj this
  intro it_m hm
  refine ⟨_, hgates it_m hm, ?_⟩
  have hkey : it_m.1 ∈ g.keys := List.mem_map_of_mem Prod.fst hm
  have hlen : g.members_.length = g.keys.length := by simp [CcfGroup.keys]
  have hsets := sets_of_new_events alloc g L evs r.probabilities hperm
  rw [← hnew] at hsets
  have hne : g.kind ≠ Model.BetaFactorModel := by rw [hkind]; decide
  have hall : (g.levelsFrom L [[]]).filter (keptSet g.kind (L : Int)) = g.levelsFrom L [[]] :=
    List.filter_eq_self.mpr (fun c _ => keptSet_of_ne g.kind hne _ c)
  rw [hall] at hsets
  have hsize : ∀ c ∈ g.levelsFrom L [[]], 1 ≤ c.length ∧ c.length ≤ L := by
    intro c hc
    obtain ⟨k, h1, h2, hcomb⟩ := (mem_allLevels g L c).mp hc
    rw [hcomb.2.1]
    exact ⟨h1, h2⟩
  have hexpr : ∀ e ∈ r.new_events,
      e.2.1.Mean = (MglModel.entry g Q L (e.2.2.length - 1)).2.Mean := by
    intro e he
    have hc : e.2.2 ∈ g.levelsFrom L [[]] :=
      hsets.mem_iff.mp (List.mem_map_of_mem (fun e => e.2.2) he)
    obtain ⟨h1, hL'⟩ := hsize _ hc
    rw [hnew, List.mem_map] at he
    obtain ⟨e0, _, rfl⟩ := he
    have hfind := mapFind_entry (MglModel.entry g Q L) (fun i => rfl) L (e0.2.2.length - 1)
      (by simp only [assignExpression] at h1 hL'; omega)
    have hcast : ((e0.2.2.length - 1 : Nat) : Int) + 1 = (e0.2.2.length : Int) := by
      simp only [assignExpression] at h1
      omega
    rw [hcast, ← htable] at hfind
    simp only [assignExpression, CcfEvent.Mean, hfind]
  have hsum : ((newGate it_m.2).addArgs
      ((r.new_events.filter (fun e => it_m.1 ∈ e.2.2)).map (fun e => e.2.1))).sumOfMeans =
      (((g.levelsFrom L [[]]).filter (fun c => decide (it_m.1 ∈ c))).map
        (fun c => (MglModel.entry g Q L (c.length - 1)).2.Mean)).sum := by
    simp only [Gate.sumOfMeans, Gate.addArgs, newGate, List.nil_append, List.map_map]
    rw [← ((hsets.filter (fun c => decide (it_m.1 ∈ c))).map
      (fun c => (MglModel.entry g Q L (c.length - 1)).2.Mean)).sum_eq, List.filter_map,
      List.map_map]
    congr 1
    apply List.map_congr_left
    intro e he
    exact hexpr e (List.mem_filter.mp he).1
  rw [hsum, sum_eq_sum_filter List.length
    (fun k => (MglModel.entry g Q L (k - 1)).2.Mean) L _
    (fun c hc => hsize c (List.mem_filter.mp hc).1)]
  have hcount : ∀ k ∈ Finset.Icc 1 L,
      ((((g.levelsFrom L [[]]).filter (fun c => decide (it_m.1 ∈ c))).filter
        (fun c => decide (c.length = k))).length : ℚ) *
          (MglModel.entry g Q L (k - 1)).2.Mean =
        (Nat.choose (g.members_.length - 1) (k - 1) : ℚ) *
          (MglModel.entry g Q L (k - 1)).2.Mean := by
    intro k hk
    rw [List.filter_filter, hlen,
      length_filter_containing g.keys hkeys _ L
        (nodup_levelsFrom g L [[]] 0 (isCombination_zero g.keys)) (mem_allLevels g L)
        it_m.1 hkey k (Finset.mem_Icc.mp hk).1 (Finset.mem_Icc.mp hk).2]
  rw [Finset.sum_congr rfl hcount, sum_levels_eq_sum_range
    (fun i => (Nat.choose (g.members_.length - 1) i : ℚ) * (MglModel.entry g Q L i).2.Mean) L]
  exact mgl_entries_sum g Q L (by omega) hn hf

/-- C22: for an MGL group with `n` members, maximum level `L` with `2 ≤ L ≤ n`,
`L - 1` factors of any values and the distribution `Q`, `MglModel::CalculateProb`
returns a table with an entry `P[k]` for every level `k = 1..L`, and the means
satisfy `Σ_{k=1..L} C(n-1, k-1) * P[k] = Q` exactly. When the last factor is at
level `L` and the member map is well formed, `ApplyModel` returns, and the means
of the disjuncts of every member's replacement gate add up to the mean of `Q`. -/
theorem mgl_table_conserves (g : CcfGroup) (Q : Expression) (L : Nat) (h2 : 2 ≤ L)
    (hn : L ≤ g.members_.length) (hf : g.factors_.length = L - 1)
    (hQ : g.distribution_ = some Q) :
    (∃ (table : ProbMap) (P : Nat → Expression),
      MglModel.CalculateProb g (L : Int) [] = .ok table ∧
      (∀ k : Nat, 1 ≤ k → k ≤ L → mapFind (k : Int) table = some (P k)) ∧
      ∑ k ∈ Finset.Icc 1 L,
        (Nat.choose (g.members_.length - 1) (k - 1) : ℚ) * (P k).Mean = Q.Mean) ∧
    (g.kind = Model.MglModel → g.keys.Sorted (· < ·) →
      (∃ back, g.factors_.getLast? = some back ∧ back.1 = (L : Int)) →
      ∀ alloc : Nat → Nat, Function.Injective alloc →
        ∃ r, g.ApplyModel alloc = .ok r ∧
          ∀ it_m ∈ g.members_, ∃ gate : Gate,
            mapFind it_m.1 r.gates = some gate ∧ gate.sumOfMeans = Q.Mean) := by
  refine ⟨⟨_, fun k => (MglModel.entry g Q L (k - 1)).2,
    mgl_table_eq g Q L (by omega) hn hf hQ, ?_, ?_⟩, ?_⟩
  · intro k hk1 hkL
    have := mapFind_entry (MglModel.entry g Q L) (fun i => rfl) L (k - 1) (by omega)
    rw [← this]
    congr 1
    have : ((k - 1 : Nat) : Int) = (k : Int) - 1 := by omega
    omega
  · rw [sum_levels_eq_sum_range
      (fun i => (Nat.choose (g.members_.length - 1) i : ℚ) * (MglModel.entry g Q L i).2.Mean) L]
    exact mgl_entries_sum g Q L (by omega) hn hf
  · rintro hkind hkeys ⟨back, hback, hL⟩ alloc halloc
    obtain ⟨r, hr⟩ := applyModel_returns_mgl alloc halloc g hkeys hkind back L Q hback hL h2 hn
      hf hQ
    exact ⟨r, hr, mgl_gate_sum alloc halloc g hkind hkeys Q hQ r hr⟩

/-- C22 on scenario S2 (`n = 3`, `L = 3`, factors 0.1 and 0.2, `Q = 0.01`):
the table entries 0.009, 0.0004 and 0.0002 weighted by 1, 2 and 1 add up to
0.01, and the gate of every member adds up to 0.01. -/
theorem mgl_table_conserves_witness :
    ((1 : ℚ) * (9 / 1000) + 2 * (4 / 10000) + 1 * (2 / 10000) = 1 / 100) ∧
    (∃ (table : ProbMap) (P : Nat → Expression),
      MglModel.CalculateProb scenarioMgl 3 [] = .ok table ∧
      (∀ k : Nat, 1 ≤ k → k ≤ 3 → mapFind (k : Int) table = some (P k)) ∧
      ∑ k ∈ Finset.Icc 1 3,
        (Nat.choose (scenarioMgl.members_.length - 1) (k - 1) : ℚ) * (P k).Mean =
          scenarioQ.Mean) ∧
    ∃ r, scenarioMgl.ApplyModel id = .ok r ∧
      ∀ it_m ∈ scenarioMgl.members_, ∃ gate : Gate,
        mapFind it_m.1 r.gates = some gate ∧ gate.sumOfMeans = scenarioQ.Mean :=
  ⟨by norm_num,
    (mgl_table_conserves scenarioMgl scenarioQ 3 (by decide) (by decide) rfl rfl).1,
    (mgl_table_conserves scenarioMgl scenarioQ 3 (by decide) (by decide) rfl rfl).2 rfl
      (by decide) ⟨_, rfl, rfl⟩ id Function.injective_id⟩

/-! ## Distinct sets of members get distinct event names (claim C27) -/

/-- The member map of every group built by the three `Add` functions is keyed by
the lowercase names of its members. -/
theorem reachable_keyed (g : CcfGroup) (hr : Reachable g) :
    ∀ it ∈ g.members_, it.1 = to_lower it.2.name := by
  induction hr with
  | create kind name model base_path is_public g h =>
    rw [(create_ok_fields kind name model base_path is_public g h).2]
    intro it hit
    cases hit
  | addMember g g' basic_event _ h ih => exact addMember_keyed g g' basic_event ih h
  | addFactor g g' factor level _ h ih =>
    rw [addFactor_members g g' factor level h]
    exact ih
  | addDistribution g g' distr _ h ih => exact addDistribution_keyed g g' distr ih h

/-- Joining nonempty lists of strings without a space by single spaces loses
nothing: the joined strings are equal only when the lists are. -/
theorem intercalate_space_inj (l1 l2 : List Str) (h1 : l1 ≠ []) (h2 : l2 ≠ [])
    (hs1 : ∀ s ∈ l1, ' ' ∉ s) (hs2 : ∀ s ∈ l2, ' ' ∉ s)
    (h : List.intercalate " ".toList l1 = List.intercalate " ".toList l2) : l1 = l2 := by
  have e1 := List.splitOn_intercalate l1 ' ' hs1 h1
  have e2 := List.splitOn_intercalate l2 ' ' hs2 h2
  have h' : List.intercalate [' '] l1 = List.intercalate [' '] l2 := h
  rw [← e1, ← e2, h']

/-- A map that is injective on the elements of two lists gives them equal images
only when they are equal. -/
theorem map_eq_of_inj_on {α β : Type} (f : α → β) (P : α → Prop)
    (hinj : ∀ x y, P x → P y → f x = f y → x = y) :
    ∀ l1 l2 : List α, (∀ x ∈ l1, P x) → (∀ x ∈ l2, P x) → l1.map f = l2.map f → l1 = l2
  | [], [], _, _, _ => rfl
  | [], _ :: _, _, _, h => by simp at h
  | _ :: _, [], _, _, h => by simp at h
  | a :: l1, b :: l2, h1, h2, h => by
    simp only [List.map_cons, List.cons.injEq] at h
    rw [hinj a b (h1 a (List.mem_cons_self _ _)) (h2 b (List.mem_cons_self _ _)) h.1,
      map_eq_of_inj_on f P hinj l1 l2 (fun x hx => h1 x (List.mem_cons_of_mem _ hx))
        (fun x hx => h2 x (List.mem_cons_of_mem _ hx)) h.2]

/-- In a well-formed member map keyed by lowercase names, a key is the lowercase
of the display name found under it. -/
theorem to_lower_displayName (g : CcfGroup) (hkeys : g.keys.Sorted (· < ·))
    (hkeyed : ∀ it ∈ g.members_, it.1 = to_lower it.2.name) (k : Str) (hk : k ∈ g.keys) :
    to_lower (g.displayName k) = k ∧ ∃ it ∈ g.members_, g.displayName k = it.2.name := by
  obtain ⟨it, hit, rfl⟩ := List.mem_map.mp hk
  rw [displayName_of_mem g hkeys it hit]
  exact ⟨(hkeyed it hit).symm, it, hit, rfl⟩

/-- The events that `ConstructCcfBasicEvents` returns for a group with a
well-formed member map keyed by lowercase names, none of them with a space:
events with equal names have equal sets of members and are one event. -/
theorem names_injective (alloc : Nat → Nat) (halloc : Function.Injective alloc) (g : CcfGroup)
    (hkeys : g.keys.Sorted (· < ·)) (hkeyed : ∀ it ∈ g.members_, it.1 = to_lower it.2.name)
    (hspace : ∀ it ∈ g.members_, ' ' ∉ it.2.name) (max_level : Int) (evs : EventMap)
    (h : g.ConstructCcfBasicEvents alloc max_level [] = .ok evs) :
    ∀ e1 ∈ evs, ∀ e2 ∈ evs, e1.2.1.name = e2.2.1.name → e1.2.2 = e2.2.2 ∧ e1 = e2 := by
  obtain ⟨L, hL, _, _, _, hperm⟩ := construct_inv alloc halloc g max_level evs h
  have hsub : ∀ e ∈ evs, e ∈ g.specEvents alloc 0 (g.levelsFrom L [[]]) :=
    fun e he => (List.mem_filter.mp (hperm.mem_iff.mp he)).1
  have hset : ∀ e ∈ evs, e.2.2 ∈ g.levelsFrom L [[]] := by
    intro e he
    have := List.mem_map_of_mem (fun e => e.2.2) (hsub e he)
    rwa [specEvents_sets] at this
  have hnd : (evs.map (fun e => e.2.2)).Nodup := by
    rw [(hperm.map (fun e => e.2.2)).nodup_iff]
    have hsl : (((g.specEvents alloc 0 (g.levelsFrom L [[]])).filter
        (keptLevel g.kind max_level)).map (fun e => e.2.2)).Sublist
        ((g.specEvents alloc 0 (g.levelsFrom L [[]])).map (fun e => e.2.2)) :=
      (List.filter_sublist _).map _
    rw [specEvents_sets] at hsl
    exact (nodup_levelsFrom g L [[]] 0 (isCombination_zero g.keys)).sublist hsl
  have hinfo : ∀ e ∈ evs, e.2.2 ≠ [] ∧ (∀ k ∈ e.2.2, k ∈ g.keys) ∧
      e.2.1.name = "[".toList ++ List.intercalate " ".toList (e.2.2.map g.displayName) ++
        "]".toList := by
    intro e he
    obtain ⟨k, hk0, _, _, hlen, hmem⟩ := (mem_allLevels g L e.2.2).mp (hset e he)
    refine ⟨?_, hmem, (specEvents_fields alloc g 0 _ e (hsub e he)).1⟩
    intro hnil
    rw [hnil] at hlen
    simp at hlen
    omega
  have hnospace : ∀ l : List Str, (∀ k ∈ l, k ∈ g.keys) →
      ∀ s ∈ l.map g.displayName, ' ' ∉ s := by
    intro l hl s hs
    obtain ⟨k, hk, rfl⟩ := List.mem_map.mp hs
    obtain ⟨_, it, hit, e⟩ := to_lower_displayName g hkeys hkeyed k (hl k hk)
    rw [e]
    exact hspace it hit
  intro e1 he1 e2 he2 hname
  obtain ⟨hne1, hk1, hn1⟩ := hinfo e1 he1
  obtain ⟨hne2, hk2, hn2⟩ := hinfo e2 he2
  rw [hn1, hn2] at hname
  have hmid := List.append_cancel_left (List.append_cancel_right hname)
  have hlists := intercalate_space_inj _ _ (by simpa using hne1) (by simpa using hne2)
    (hnospace _ hk1) (hnospace _ hk2) hmid
  have hsets : e1.2.2 = e2.2.2 :=
    map_eq_of_inj_on g.displayName (fun k => k ∈ g.keys)
      (fun x y hx hy hxy => by
        rw [← (to_lower_displayName g hkeys hkeyed x hx).1,
          ← (to_lower_displayName g hkeys hkeyed y hy).1, hxy])
      _ _ hk1 hk2 hlists
  exact ⟨hsets, List.inj_on_of_nodup_map hnd he1 he2 hsets⟩

/-- C27: for a group built by the `Add` functions whose member names contain no
space, with a maximum level `L` between 2 and the number of members,
`ConstructCcfBasicEvents` returns, and two of its events with the same name
have the same set of members and are the same event: distinct sets get
distinct names, and no two CCF events of the group share a name. -/
theorem event_names_injective (alloc : Nat → Nat) (halloc : Function.Injective alloc)
    (g : CcfGroup) (hr : Reachable g) (hspace : ∀ it ∈ g.members_, ' ' ∉ it.2.name)
    (L : Nat) (h2 : 2 ≤ L) (hn : L ≤ g.members_.length)
    (hbeta : g.kind = Model.BetaFactorModel → g.factors_.length = 1) :
    ∃ new_events, g.ConstructCcfBasicEvents alloc (L : Int) [] = .ok new_events ∧
      (∀ e1 ∈ new_events, ∀ e2 ∈ new_events,
        e1.2.1.name = e2.2.1.name → e1.2.2 = e2.2.2 ∧ e1 = e2) ∧
      (∀ e1 ∈ new_events, ∀ e2 ∈ new_events, e1.2.2 ≠ e2.2.2 → e1.2.1.name ≠ e2.2.1.name) := by
  obtain ⟨evs, hevs⟩ := construct_ok alloc g L h2 hn hbeta
  have hinj := names_injective alloc halloc g (reachable_keys_sorted g hr)
    (reachable_keyed g hr) hspace (L : Int) evs hevs
  exact ⟨evs, hevs, hinj, fun e1 he1 e2 he2 hne hname => hne (hinj e1 he1 e2 he2 hname).1⟩

/-- C27 on the MGL group of scenario S2, whose members are named A, B and C. -/
theorem event_names_injective_witness :
    ∃ new_events, scenarioMgl.ConstructCcfBasicEvents id 3 [] = .ok new_events ∧
      (∀ e1 ∈ new_events, ∀ e2 ∈ new_events,
        e1.2.1.name = e2.2.1.name → e1.2.2 = e2.2.2 ∧ e1 = e2) ∧
      (∀ e1 ∈ new_events, ∀ e2 ∈ new_events, e1.2.2 ≠ e2.2.2 → e1.2.1.name ≠ e2.2.1.name) :=
  event_names_injective id Function.injective_id scenarioMgl reachable_scenarioMgl
    (by decide) 3 (by decide) (by decide) (by decide)

/-! ## The Two-Train benchmark (claim C21) -/

/-- The exact probability of the Two-Train top event for any probabilities of
the four independent events: each train fails when its valve or its pump
fails, and the top event needs both trains to fail. -/
theorem two_train_formula (p : Str → ℚ) :
    exactProbability twoTrainCutSets twoTrainEvents p =
      (1 - (1 - p "ValveOne".toList) * (1 - p "PumpOne".toList)) *
        (1 - (1 - p "ValveTwo".toList) * (1 - p "PumpTwo".toList)) := by
  have hw : twoTrainEvents.sublists.filter (topEventOccurs twoTrainCutSets) =
      [["ValveOne".toList, "ValveTwo".toList],
       ["ValveTwo".toList, "PumpOne".toList],
       ["ValveOne".toList, "ValveTwo".toList, "PumpOne".toList],
       ["ValveOne".toList, "PumpTwo".toList],
       ["ValveOne".toList, "ValveTwo".toList, "PumpTwo".toList],
       ["PumpOne".toList, "PumpTwo".toList],
       ["ValveOne".toList, "PumpOne".toList, "PumpTwo".toList],
       ["ValveTwo".toList, "PumpOne".toList, "PumpTwo".toList],
       ["ValveOne".toList, "ValveTwo".toList, "PumpOne".toList, "PumpTwo".toList]] := by
    decide
  have h1 : worldProbability p twoTrainEvents
      ["ValveOne".toList, "ValveTwo".toList] =
      p "ValveOne".toList * (p "ValveTwo".toList * ((1 - p "PumpOne".toList) * ((1 - p "PumpTwo".toList) * 1))) := rfl
  have h2 : worldProbability p twoTrainEvents
      ["ValveTwo".toList, "PumpOne".toList] =
      (1 - p "ValveOne".toList) * (p "ValveTwo".toList * (p "PumpOne".toList * ((1 - p "PumpTwo".toList) * 1))) := rfl
  have h3 : worldProbability p twoTrainEvents
      ["ValveOne".toList, "ValveTwo".toList, "PumpOne".toList] =
      p "ValveOne".toList * (p "ValveTwo".toList * (p "PumpOne".toList * ((1 - p "PumpTwo".toList) * 1))) := rfl
  have h4 : worldProbability p twoTrainEvents
      ["ValveOne".toList, "PumpTwo".toList] =
      p "ValveOne".toList * ((1 - p "ValveTwo".toList) * ((1 - p "PumpOne".toList) * (p "PumpTwo".toList * 1))) := rfl
  have h5 : worldProbability p twoTrainEvents
      ["ValveOne".toList, "ValveTwo".toList, "PumpTwo".toList] =
      p "ValveOne".toList * (p "ValveTwo".toList * ((1 - p "PumpOne".toList) * (p "PumpTwo".toList * 1))) := rfl
  have h6 : worldProbability p twoTrainEvents
      ["PumpOne".toList, "PumpTwo".toList] =
      (1 - p "ValveOne".toList) * ((1 - p "ValveTwo".toList) * (p "PumpOne".toList * (p "PumpTwo".toList * 1))) := rfl
  have h7 : worldProbability p twoTrainEvents
      ["ValveOne".toList, "PumpOne".toList, "PumpTwo".toList] =
      p "ValveOne".toList * ((1 - p "ValveTwo".toList) * (p "PumpOne".toList * (p "PumpTwo".toList * 1))) := rfl
  have h8 : worldProbability p twoTrainEvents
      ["ValveTwo".toList, "PumpOne".toList, "PumpTwo".toList] =
      (1 - p "ValveOne".toList) * (p "ValveTwo".toList * (p "PumpOne".toList * (p "PumpTwo".toList * 1))) := rfl
  have h9 : worldProbability p twoTrainEvents
      ["ValveOne".toList, "ValveTwo".toList, "PumpOne".toList, "PumpTwo".toList] =
      p "ValveOne".toList * (p "ValveTwo".toList * (p "PumpOne".toList * (p "PumpTwo".toList * 1))) := rfl
  rw [exactProbability, hw]
  simp only [List.map_cons, List.map_nil, List.sum_cons, List.sum_nil, h1, h2, h3, h4, h5, h6, h7, h8, h9]
  ring

/-- The value of `twoTrainValues` at each of the four events. -/
theorem twoTrainValues_eq (valve pump : ℚ) :
    twoTrainValues valve pump "ValveOne".toList = valve ∧
    twoTrainValues valve pump "ValveTwo".toList = valve ∧
    twoTrainValues valve pump "PumpOne".toList = pump ∧
    twoTrainValues valve pump "PumpTwo".toList = pump :=
  ⟨if_pos (by decide), if_pos (by decide), if_neg (by decide), if_neg (by decide)⟩

/-- C21, the claim fails as stated: with each of the four independent basic
events at `p = 0.5` the exact probability of the union of the four cut sets is
`0.5625`, not `0.7225`. -/
theorem two_train_half_counterexample :
    exactProbability twoTrainCutSets twoTrainEvents (fun _ => 1 / 2) = 5625 / 10000 ∧
    exactProbability twoTrainCutSets twoTrainEvents (fun _ => 1 / 2) ≠ 7225 / 10000 := by
  rw [two_train_formula]
  norm_num

/-- C21 as amended: for the Two-Train model with the four minimal cut sets of the
test, none of which contains another, and independent basic events, the exact
probability of the top event is `(1 - (1 - v₁)(1 - p₁)) (1 - (1 - v₂)(1 - p₂))`
for the probabilities `v₁, v₂` of the valves and `p₁, p₂` of the pumps. With
each basic event at `p = 0.5` it is `0.5625`; the value `0.7225` of the test is
the exact probability with the valves at `0.5` and the pumps at `0.7`. -/
theorem two_train_exact_probability :
    (∀ c1 ∈ twoTrainCutSets, ∀ c2 ∈ twoTrainCutSets, c1 ⊆ c2 → c1 = c2) ∧
    (∀ p : Str → ℚ, exactProbability twoTrainCutSets twoTrainEvents p =
      (1 - (1 - p "ValveOne".toList) * (1 - p "PumpOne".toList)) *
        (1 - (1 - p "ValveTwo".toList) * (1 - p "PumpTwo".toList))) ∧
    exactProbability twoTrainCutSets twoTrainEvents (twoTrainValues (1 / 2) (1 / 2)) =
      5625 / 10000 ∧
    exactProbability twoTrainCutSets twoTrainEvents (twoTrainValues (1 / 2) (7 / 10)) =
      7225 / 10000 := by
  refine ⟨by decide, two_train_formula, ?_, ?_⟩
  · obtain ⟨h1, h2, h3, h4⟩ := twoTrainValues_eq (1 / 2) (1 / 2)
    rw [two_train_formula, h1, h2, h3, h4]
    norm_num
  · obtain ⟨h1, h2, h3, h4⟩ := twoTrainValues_eq (1 / 2) (7 / 10)
    rw [two_train_formula, h1, h2, h3, h4]
    norm_num

end scram
